import Mathlib

/-!
# Verification of the ts-route resolution/construction engine

A shallow embedding, in Lean 4, of the route-definition and URL-resolution
engine (pattern compilation, matching, query-parameter normalization,
percent-encoding pipeline, href building and breadcrumb derivation).

Modelling conventions:
* JS strings are modelled as Lean `String`/`List Char` (sequences of Unicode
  scalar values; JS strings containing lone UTF-16 surrogates are outside the
  model).
* JS numbers are modelled only at integral values (their `toString` is then
  plain decimal); floating-point formatting is outside the model.
* Functions that can throw are modelled with `Except`/`Option` results.
* Platform primitives (`encodeURIComponent`, `decodeURIComponent`, the WHATWG
  `URL` parser restricted to the http-like URLs these helpers construct, and
  `application/x-www-form-urlencoded` query parsing) are modelled explicitly
  below, following their specified algorithms.
-/

namespace TsRoute

/-! ## Character classes and small string utilities -/

/-- Hex digit test, `[0-9A-Fa-f]` (by character code). -/
def isHexDigitCh (c : Char) : Bool :=
  (0x30 ≤ c.toNat ∧ c.toNat ≤ 0x39) ∨ (0x41 ≤ c.toNat ∧ c.toNat ≤ 0x46) ∨
  (0x61 ≤ c.toNat ∧ c.toNat ≤ 0x66)

/-- Numeric value of a hex digit. -/
def hexVal (c : Char) : Nat :=
  if '0' ≤ c ∧ c ≤ '9' then c.toNat - '0'.toNat
  else if 'A' ≤ c ∧ c ≤ 'F' then c.toNat - 'A'.toNat + 10
  else if 'a' ≤ c ∧ c ≤ 'f' then c.toNat - 'a'.toNat + 10
  else 0

/-- Uppercase hex digit for a value < 16. -/
def hexUpper (n : Nat) : Char :=
  if n < 10 then Char.ofNat ('0'.toNat + n)
  else Char.ofNat ('A'.toNat + (n - 10))

/-- ASCII lowercasing of one character (model of `String.prototype.toLowerCase`
restricted to ASCII, which is all the comparisons below ever need). -/
def asciiLower (c : Char) : Char :=
  if 'A' ≤ c ∧ c ≤ 'Z' then Char.ofNat (c.toNat + 32) else c

def lowerStr (s : List Char) : List Char := s.map asciiLower

/-- The JavaScript whitespace set: the characters matched by the regex class
`\s` and removed by `String.prototype.trim`. -/
def isJsWs (c : Char) : Bool :=
  c.toNat = 0x20 ∨ c.toNat = 0x09 ∨ c.toNat = 0x0A ∨ c.toNat = 0x0B ∨ c.toNat = 0x0C ∨
  c.toNat = 0x0D ∨ c.toNat = 0xA0 ∨ c.toNat = 0x1680 ∨
  (0x2000 ≤ c.toNat ∧ c.toNat ≤ 0x200A) ∨ c.toNat = 0x2028 ∨ c.toNat = 0x2029 ∨
  c.toNat = 0x202F ∨ c.toNat = 0x205F ∨ c.toNat = 0x3000 ∨ c.toNat = 0xFEFF

/-- Model of `String.prototype.trim`. -/
def jsTrimL (s : List Char) : List Char :=
  ((s.dropWhile isJsWs).reverse.dropWhile isJsWs).reverse

def jsTrim (s : String) : String := ⟨jsTrimL s.data⟩

/-- First-occurrence deduplication; the order in which `Array.from(new Set(l))`
yields the members of `l` (JS `Set` iterates in insertion order). -/
def dedupFirst (l : List String) : List String :=
  l.foldl (fun acc v => if v ∈ acc then acc else acc ++ [v]) []

/-- Does `pat` occur as a contiguous run inside `s`? (JS `String.includes`). -/
def containsStr (s pat : List Char) : Bool :=
  match s with
  | [] => pat.isEmpty
  | _ :: rest => pat.isPrefixOf s || containsStr rest pat

/-- Index of the first occurrence of `sep` in a list, if any. -/
def findOccIdx (sep : List Char) : List Char → Option Nat
  | [] => if sep.isEmpty then some 0 else none
  | c :: rest =>
    if sep.isPrefixOf (c :: rest) then some 0
    else (findOccIdx sep rest).map (· + 1)

/-- Worker for `splitOnStr`; each split step consumes at least `sep.length ≥ 1`
characters, so fuel `s.length` always suffices (and on exhaustion the input is
empty, agreeing with the no-occurrence case). -/
def splitOnStrGo (sep : List Char) : Nat → List Char → List (List Char)
  | 0, s => [s]
  | fuel + 1, s =>
    match findOccIdx sep s with
    | none => [s]
    | some i => s.take i :: splitOnStrGo sep fuel (s.drop (i + sep.length))

/-- `String.prototype.split` with a non-empty string separator: non-overlapping
left-to-right scan.  (The engine only ever calls this with separators of length
at least two, namely `[name]` tokens.) -/
def splitOnStr (sep s : List Char) : List (List Char) :=
  if sep.isEmpty then s.map (fun c => [c])
  else splitOnStrGo sep s.length s

/-! ## UTF-8 and percent-coding primitives -/

/-- UTF-8 encoding of one Unicode scalar value. -/
def utf8Encode (n : Nat) : List Nat :=
  if n < 0x80 then [n]
  else if n < 0x800 then [0xC0 + n / 64, 0x80 + n % 64]
  else if n < 0x10000 then [0xE0 + n / 4096, 0x80 + (n / 64) % 64, 0x80 + n % 64]
  else [0xF0 + n / 0x40000, 0x80 + (n / 4096) % 64, 0x80 + (n / 64) % 64, 0x80 + n % 64]

/-- The characters `encodeURIComponent` leaves unescaped:
`A-Z a-z 0-9 - _ . ! ~ * ' ( )`. -/
def isUriUnreserved (c : Char) : Bool :=
  (0x41 ≤ c.toNat ∧ c.toNat ≤ 0x5A) ∨ (0x61 ≤ c.toNat ∧ c.toNat ≤ 0x7A) ∨
  (0x30 ≤ c.toNat ∧ c.toNat ≤ 0x39) ∨
  c.toNat = 0x2D ∨ c.toNat = 0x5F ∨ c.toNat = 0x2E ∨ c.toNat = 0x21 ∨ c.toNat = 0x7E ∨
  c.toNat = 0x2A ∨ c.toNat = 0x27 ∨ c.toNat = 0x28 ∨ c.toNat = 0x29

/-- `%XX` with uppercase hex for one byte. -/
def pctByte (b : Nat) : List Char := ['%', hexUpper (b / 16), hexUpper (b % 16)]

/-- Model of `encodeURIComponent` (ECMA-262 `Encode` with the
`encodeURIComponent` unescaped set; non-ASCII goes through UTF-8). -/
def encodeURIComponentL (s : List Char) : List Char :=
  s.flatMap fun c =>
    if isUriUnreserved c then [c] else (utf8Encode c.toNat).flatMap pctByte

def encodeURIComponent (s : String) : String := ⟨encodeURIComponentL s.data⟩

/-- One unit of percent-decoding input: a literal character, or the byte of a
valid `%XX` triplet. -/
inductive PctTok where
  | ch (c : Char)
  | byte (b : Nat)
deriving DecidableEq

/-- Splits a string into literal characters and `%XX` bytes; a `%` not followed
by two hex digits is a `URIError` (`none`). -/
def pctTokens : List Char → Option (List PctTok)
  | [] => some []
  | '%' :: h1 :: h2 :: rest =>
    if isHexDigitCh h1 ∧ isHexDigitCh h2 then
      (pctTokens rest).map (PctTok.byte (hexVal h1 * 16 + hexVal h2) :: ·)
    else none
  | '%' :: _ :: ([] : List Char) => none
  | '%' :: ([] : List Char) => none
  | c :: rest => (pctTokens rest).map (PctTok.ch c :: ·)

/-- State of the strict UTF-8 assembler: `none` between scalars, or
`some (acc, need, lo, hi)` inside a multi-byte sequence — the accumulated
value, the number of continuation bytes still expected, and the admissible
range for the next byte (the first continuation byte's range enforces the
shortest form, the surrogate exclusion and the U+10FFFF cap). -/
def pctAsmSt : Option (Nat × Nat × Nat × Nat) → List PctTok → Option (List Char)
  | none, [] => some []
  | some _, [] => none
  | none, .ch c :: rest => (pctAsmSt none rest).map (c :: ·)
  | some _, .ch _ :: _ => none
  | none, .byte b1 :: rest =>
    if b1 < 0x80 then (pctAsmSt none rest).map (Char.ofNat b1 :: ·)
    else if 0xC2 ≤ b1 ∧ b1 ≤ 0xDF then pctAsmSt (some (b1 - 0xC0, 1, 0x80, 0xBF)) rest
    else if 0xE0 ≤ b1 ∧ b1 ≤ 0xEF then
      pctAsmSt (some (b1 - 0xE0, 2, if b1 = 0xE0 then 0xA0 else 0x80,
        if b1 = 0xED then 0x9F else 0xBF)) rest
    else if 0xF0 ≤ b1 ∧ b1 ≤ 0xF4 then
      pctAsmSt (some (b1 - 0xF0, 3, if b1 = 0xF0 then 0x90 else 0x80,
        if b1 = 0xF4 then 0x8F else 0xBF)) rest
    else none
  | some (acc, need, lo, hi), .byte b :: rest =>
    if lo ≤ b ∧ b ≤ hi then
      if need ≤ 1 then (pctAsmSt none rest).map (Char.ofNat (acc * 64 + (b - 0x80)) :: ·)
      else pctAsmSt (some (acc * 64 + (b - 0x80), need - 1, 0x80, 0xBF)) rest
    else none

/-- Strict UTF-8 assembly of the byte tokens (shortest-form, non-surrogate,
codepoints ≤ U+10FFFF); a multi-byte sequence must be made of consecutive byte
tokens.  Literal characters pass through. -/
def pctAssemble (ts : List PctTok) : Option (List Char) := pctAsmSt none ts

/-- Model of `decodeURIComponent` (ECMA-262 `Decode`): `%XX` triplets are
decoded, multi-byte UTF-8 must be strictly valid and contiguous, any violation
is a `URIError` (`none`); other characters pass through. -/
def decodeURIComponentL (s : List Char) : Option (List Char) :=
  (pctTokens s).bind pctAssemble

def decodeURIComponent (s : String) : Option String :=
  (decodeURIComponentL s.data).map List.asString

/-! ## WHATWG URL model

The engine constructs URLs only through `new URL("http://dummy.com/" ++ rel)`
and `new URL(rel, "http://localhost")`.  The model below implements the WHATWG
basic URL parser for these http-like uses: input trimming, tab/newline
stripping, `\`-as-`/` in special schemes, dot-segment normalization (with
`%2e` forms, ASCII case-insensitive), and component percent-encoding. -/

def isAsciiAlpha (c : Char) : Bool := ('A' ≤ c ∧ c ≤ 'Z') ∨ ('a' ≤ c ∧ c ≤ 'z')

def isAsciiDigit (c : Char) : Bool := '0' ≤ c ∧ c ≤ '9'

/-- Characters allowed after the first in a URL scheme. -/
def isSchemeBodyChar (c : Char) : Bool :=
  isAsciiAlpha c ∨ isAsciiDigit c ∨ c = '+' ∨ c = '-' ∨ c = '.'

/-- Removes all tabs and newlines, as the URL parser does anywhere in its
input. -/
def stripTabNL (s : List Char) : List Char :=
  s.filter fun c => ¬ (c = '\t' ∨ c = '\n' ∨ c = '\r')

def isC0OrSpace (c : Char) : Bool := c.toNat ≤ 0x20

/-- Trailing C0-control-or-space trim (the leading trim of a full URL string
falls inside its scheme when the parsed text is appended after a host). -/
def trimTrailC0 (s : List Char) : List Char :=
  (s.reverse.dropWhile isC0OrSpace).reverse

def trimC0Both (s : List Char) : List Char :=
  (s.dropWhile isC0OrSpace).reverse.dropWhile isC0OrSpace |>.reverse

/-- Splits at the first character satisfying `p`: returns the part before and,
when found, the part after (separator dropped). -/
def splitFirst (p : Char → Bool) : List Char → List Char × Option (List Char)
  | [] => ([], none)
  | c :: rest =>
    if p c then ([], some rest)
    else
      let (a, b) := splitFirst p rest
      (c :: a, b)

/-- Splits into segments at every character satisfying `p`. -/
def splitOnPred (p : Char → Bool) : List Char → List (List Char)
  | [] => [[]]
  | c :: rest =>
    if p c then [] :: splitOnPred p rest
    else
      match splitOnPred p rest with
      | seg :: more => (c :: seg) :: more
      | [] => [[c]]

/-- Single-dot path segment: `.` or `%2e` (ASCII case-insensitive). -/
def isSingleDotSeg (s : List Char) : Bool :=
  s = ['.'] ∨ lowerStr s = ['%', '2', 'e']

/-- Double-dot path segment: `..`, `.%2e`, `%2e.` or `%2e%2e` (ASCII
case-insensitive). -/
def isDoubleDotSeg (s : List Char) : Bool :=
  let l := lowerStr s
  s = ['.', '.'] ∨ l = ['.', '%', '2', 'e'] ∨ l = ['%', '2', 'e', '.'] ∨
    l = ['%', '2', 'e', '%', '2', 'e']

/-- Dot-segment normalization over the segments of a path (WHATWG path state):
double dots pop, single dots are skipped, and a trailing dot segment leaves a
trailing empty segment. -/
def normSegsGo (out : List (List Char)) : List (List Char) → List (List Char)
  | [] => out
  | [last] =>
    if isDoubleDotSeg last then out.dropLast ++ [[]]
    else if isSingleDotSeg last then out ++ [[]]
    else out ++ [last]
  | seg :: rest =>
    if isDoubleDotSeg seg then normSegsGo out.dropLast rest
    else if isSingleDotSeg seg then normSegsGo out rest
    else normSegsGo (out ++ [seg]) rest

def normSegs (segs : List (List Char)) : List (List Char) := normSegsGo [] segs

/-- C0-control percent-encode set: controls, DEL and all non-ASCII. -/
def inC0High (c : Char) : Bool := c.toNat < 0x20 ∨ c.toNat > 0x7E

/-- WHATWG path percent-encode set. -/
def inPathEncSet (c : Char) : Bool :=
  inC0High c ∨ c = ' ' ∨ c = '"' ∨ c = '#' ∨ c = '<' ∨ c = '>' ∨
  c = '?' ∨ c.toNat = 0x60 ∨ c.toNat = 0x7B ∨ c.toNat = 0x7D

/-- WHATWG query percent-encode set for special schemes. -/
def inQueryEncSet (c : Char) : Bool :=
  inC0High c ∨ c = ' ' ∨ c = '"' ∨ c = '#' ∨ c = '<' ∨ c = '>' ∨ c.toNat = 0x27

/-- WHATWG fragment percent-encode set. -/
def inFragEncSet (c : Char) : Bool :=
  inC0High c ∨ c = ' ' ∨ c = '"' ∨ c = '<' ∨ c = '>' ∨ c.toNat = 0x60

/-- Percent-encodes every character in the given set (UTF-8, uppercase hex). -/
def pctEncodeSet (p : Char → Bool) (s : List Char) : List Char :=
  s.flatMap fun c => if p c then (utf8Encode c.toNat).flatMap pctByte else [c]

/-- The outcome of a URL parse: serialized path, query body and fragment body
(each already percent-encoded as the getters return them). -/
structure ParsedUrl where
  pathname : List Char
  query : List Char
  frag : List Char
deriving DecidableEq

/-- `url.search`: empty, or `?` followed by the query. -/
def ParsedUrl.search (u : ParsedUrl) : List Char :=
  if u.query.isEmpty then [] else '?' :: u.query

/-- `url.hash`: empty, or `#` followed by the fragment. -/
def ParsedUrl.hash (u : ParsedUrl) : List Char :=
  if u.frag.isEmpty then [] else '#' :: u.frag

/-- Parses the text that follows `scheme://host/` — i.e. a path (without its
leading slash) possibly followed by `?query` and `#fragment`.  `special`
selects whether `\` also separates path segments. -/
def parsePathQueryFrag (special : Bool) (s : List Char) : ParsedUrl :=
  let (beforeHash, hashTail) := splitFirst (· = '#') s
  let (pathPart, queryTail) := splitFirst (· = '?') beforeHash
  let segs := splitOnPred (fun c => c = '/' ∨ (special ∧ c = '\\')) pathPart
  let out := normSegs segs
  { pathname := '/' :: (List.intercalate ['/'] (out.map (pctEncodeSet inPathEncSet)))
    query := pctEncodeSet inQueryEncSet (queryTail.getD [])
    frag := pctEncodeSet inFragEncSet (hashTail.getD []) }

/-- The special (http-like) schemes. -/
def isSpecialScheme (s : List Char) : Bool :=
  let l := lowerStr s
  l = "http".data ∨ l = "https".data ∨ l = "ws".data ∨ l = "wss".data ∨
    l = "ftp".data ∨ l = "file".data

/-- Reads a leading `scheme:`, returning the scheme and the remainder. -/
def takeScheme : List Char → Option (List Char × List Char)
  | [] => none
  | c :: rest =>
    if isAsciiAlpha c then
      match takeSchemeTail rest with
      | some (body, after) => some (c :: body, after)
      | none => none
    else none
where
  takeSchemeTail : List Char → Option (List Char × List Char)
    | [] => none
    | c :: rest =>
      if c = ':' then some ([], rest)
      else if isSchemeBodyChar c then
        match takeSchemeTail rest with
        | some (body, after) => some (c :: body, after)
        | none => none
      else none

/-- Does the input match `^[a-zA-Z][a-zA-Z\d+\-.]*:\/\/`? -/
def schemeSlashesAhead (s : List Char) : Bool :=
  match takeScheme s with
  | some (_, after) => ['/', '/'].isPrefixOf after
  | none => false

/-- Consumes an authority (userinfo/host/port) after `//`, returning the rest
of the input; `none` when `new URL` would throw (empty special host, invalid
port). -/
def takeAuthority (special : Bool) : List Char → Option (List Char) :=
  fun s =>
    let (auth, rest) := authSpan s
    -- strip userinfo at the last `@`
    let host := afterLastAt auth
    let hostName := (splitFirst (· = ':') host).1
    let portPart := (splitFirst (· = ':') host).2
    if special ∧ hostName.isEmpty then none
    else match portPart with
      | none => some rest
      | some p =>
        if p.all isAsciiDigit then some rest else none
where
  /-- Span of the authority: up to the first `/`, `?`, `#` (or `\` when
  special). -/
  authSpan (s : List Char) : List Char × List Char :=
    let stop (c : Char) : Bool := c = '/' ∨ c = '?' ∨ c = '#' ∨ c = '\\'
    (s.takeWhile (fun c => ¬ stop c), s.dropWhile (fun c => ¬ stop c))
  afterLastAt (s : List Char) : List Char :=
    ((s.reverse.takeWhile (· ≠ '@')).reverse)

/-- Parse of an absolute `scheme://...` URL string (`new URL(input)` for the
scheme-qualified inputs `getRelativePart` accepts); `none` models a thrown
`TypeError`. -/
def parseAbsolute (s : List Char) : Option ParsedUrl :=
  let input := stripTabNL (trimC0Both s)
  match takeScheme input with
  | none => none
  | some (sch, afterColon) =>
    let special := isSpecialScheme sch
    let after2 := if ['/', '/'].isPrefixOf afterColon then afterColon.drop 2 else afterColon
    match takeAuthority special after2 with
    | none => none
    | some rest =>
      let rest1 := if rest.head? = some '/' ∨ (special ∧ rest.head? = some '\\')
        then rest.tail else rest
      some (parsePathQueryFrag special rest1)

/-- Parse of a relative reference against `http://localhost` (the second parse
inside `findRoute`). -/
def parseAgainstLocalhost (rel : List Char) : Option ParsedUrl :=
  let input := stripTabNL (trimC0Both rel)
  match takeScheme input with
  | some (sch, afterColon) =>
    if lowerStr sch = "http".data then
      -- same scheme as the base and special: behaves like the scheme-less form
      parseRelNoScheme afterColon
    else if isSpecialScheme sch then
      let after2 := if ['/', '/'].isPrefixOf afterColon then afterColon.drop 2 else afterColon
      match takeAuthority true after2 with
      | none => none
      | some rest =>
        let rest1 := if rest.head? = some '/' ∨ rest.head? = some '\\' then rest.tail else rest
        some (parsePathQueryFrag true rest1)
    else
      -- non-special scheme: opaque path
      let (beforeHash, hashTail) := splitFirst (· = '#') afterColon
      let (pathPart, queryTail) := splitFirst (· = '?') beforeHash
      some { pathname := pctEncodeSet inC0High pathPart
             query := pctEncodeSet inQueryEncSet (queryTail.getD [])
             frag := pctEncodeSet inFragEncSet (hashTail.getD []) }
  | none => parseRelNoScheme input
where
  parseRelNoScheme (input : List Char) : Option ParsedUrl :=
    if ['/', '/'].isPrefixOf input ∨ ['\\', '\\'].isPrefixOf input then
      match takeAuthority true (input.drop 2) with
      | none => none
      | some rest =>
        let rest1 := if rest.head? = some '/' ∨ rest.head? = some '\\' then rest.tail else rest
        some (parsePathQueryFrag true rest1)
    else if input.head? = some '/' ∨ input.head? = some '\\' then
      some (parsePathQueryFrag true input.tail)
    else
      -- relative path, query-only or fragment-only against base path `/`
      some (parsePathQueryFrag true input)

/-- Model of `getRelativePart` for string inputs (the `URL`-object branch is
outside the model): trims, detects `scheme://` inputs, otherwise resolves the
text against `http://dummy.com/`, and returns pathname-without-the-leading
slash plus search plus hash; `undefined` (`none`) when `new URL` throws. -/
def getRelativePart (urlString : String) : Option String :=
  let input := jsTrimL urlString.data
  if schemeSlashesAhead input then
    (parseAbsolute input).map fun u => ⟨u.pathname.tail ++ u.search ++ u.hash⟩
  else
    let relative := if input.head? = some '/' then input.tail else input
    (parseHttpDummy relative).map fun u => ⟨u.pathname.tail ++ u.search ++ u.hash⟩
where
  /-- `new URL("http://dummy.com/" ++ relative)`: the leading trim of the full
  string falls in the scheme, the trailing trim lands on `relative`. -/
  parseHttpDummy (relative : List Char) : Option ParsedUrl :=
    some (parsePathQueryFrag true (stripTabNL (trimTrailC0 relative)))

/-! ## `URLSearchParams` (application/x-www-form-urlencoded) -/

/-- Lenient percent-decoding to bytes: invalid `%` sequences stay literal;
other characters contribute their UTF-8 bytes. -/
def formDecodeBytes : List Char → List Nat
  | [] => []
  | '%' :: h1 :: h2 :: rest =>
    if isHexDigitCh h1 ∧ isHexDigitCh h2 then
      (hexVal h1 * 16 + hexVal h2) :: formDecodeBytes rest
    else utf8Encode '%'.toNat ++ formDecodeBytes (h1 :: h2 :: rest)
  | c :: rest => utf8Encode c.toNat ++ formDecodeBytes rest

/-- Lenient UTF-8 decoding with U+FFFD replacement (maximal-subpart policy),
driven by a fuel argument that the wrapper instantiates with the byte count
(each step consumes at least one byte). -/
def utf8LenientGo : Nat → List Nat → List Char
  | 0, _ => []
  | _ + 1, [] => []
  | fuel + 1, b1 :: rest =>
    if b1 < 0x80 then Char.ofNat b1 :: utf8LenientGo fuel rest
    else if 0xC2 ≤ b1 ∧ b1 ≤ 0xDF then
      match rest with
      | b2 :: r2 =>
        if 0x80 ≤ b2 ∧ b2 ≤ 0xBF then
          Char.ofNat ((b1 - 0xC0) * 64 + (b2 - 0x80)) :: utf8LenientGo fuel r2
        else Char.ofNat 0xFFFD :: utf8LenientGo fuel rest
      | [] => [Char.ofNat 0xFFFD]
    else if 0xE0 ≤ b1 ∧ b1 ≤ 0xEF then
      match rest with
      | b2 :: b3 :: r3 =>
        if ((if b1 = 0xE0 then 0xA0 else 0x80) ≤ b2 ∧ b2 ≤ (if b1 = 0xED then 0x9F else 0xBF)) then
          if 0x80 ≤ b3 ∧ b3 ≤ 0xBF then
            Char.ofNat ((b1 - 0xE0) * 4096 + (b2 - 0x80) * 64 + (b3 - 0x80)) :: utf8LenientGo fuel r3
          else Char.ofNat 0xFFFD :: utf8LenientGo fuel (b3 :: r3)
        else Char.ofNat 0xFFFD :: utf8LenientGo fuel rest
      | [b2] =>
        if ((if b1 = 0xE0 then 0xA0 else 0x80) ≤ b2 ∧ b2 ≤ (if b1 = 0xED then 0x9F else 0xBF)) then
          [Char.ofNat 0xFFFD]
        else Char.ofNat 0xFFFD :: utf8LenientGo fuel rest
      | [] => [Char.ofNat 0xFFFD]
    else if 0xF0 ≤ b1 ∧ b1 ≤ 0xF4 then
      match rest with
      | b2 :: b3 :: b4 :: r4 =>
        if ((if b1 = 0xF0 then 0x90 else 0x80) ≤ b2 ∧ b2 ≤ (if b1 = 0xF4 then 0x8F else 0xBF)) then
          if 0x80 ≤ b3 ∧ b3 ≤ 0xBF then
            if 0x80 ≤ b4 ∧ b4 ≤ 0xBF then
              Char.ofNat ((b1 - 0xF0) * 0x40000 + (b2 - 0x80) * 4096 +
                (b3 - 0x80) * 64 + (b4 - 0x80)) :: utf8LenientGo fuel r4
            else Char.ofNat 0xFFFD :: utf8LenientGo fuel (b4 :: r4)
          else Char.ofNat 0xFFFD :: utf8LenientGo fuel (b3 :: b4 :: r4)
        else Char.ofNat 0xFFFD :: utf8LenientGo fuel rest
      | [b2, b3] =>
        if ((if b1 = 0xF0 then 0x90 else 0x80) ≤ b2 ∧ b2 ≤ (if b1 = 0xF4 then 0x8F else 0xBF)) then
          if 0x80 ≤ b3 ∧ b3 ≤ 0xBF then [Char.ofNat 0xFFFD]
          else Char.ofNat 0xFFFD :: utf8LenientGo fuel (b3 :: [])
        else Char.ofNat 0xFFFD :: utf8LenientGo fuel rest
      | [b2] =>
        if ((if b1 = 0xF0 then 0x90 else 0x80) ≤ b2 ∧ b2 ≤ (if b1 = 0xF4 then 0x8F else 0xBF)) then
          [Char.ofNat 0xFFFD]
        else Char.ofNat 0xFFFD :: utf8LenientGo fuel rest
      | [] => [Char.ofNat 0xFFFD]
    else Char.ofNat 0xFFFD :: utf8LenientGo fuel rest

def utf8Lenient (l : List Nat) : List Char := utf8LenientGo l.length l

/-- One form-urlencoded component: `+` means space, then lenient
percent/UTF-8 decoding. -/
def formDecodeStr (s : List Char) : String :=
  ⟨utf8Lenient (formDecodeBytes (s.map fun c => if c = '+' then ' ' else c))⟩

/-- `URLSearchParams` over a query body: `&`-separated, empty pieces skipped,
split at the first `=`. -/
def formParse (q : List Char) : List (String × String) :=
  (splitOnPred (· = '&') q).filterMap fun piece =>
    if piece.isEmpty then none
    else
      let (n, vTail) := splitFirst (· = '=') piece
      some (formDecodeStr n, formDecodeStr (vTail.getD []))

/-- `searchParams.getAll(key)`. -/
def formGetAll (pairs : List (String × String)) (key : String) : List String :=
  (pairs.filter fun p => p.1 = key).map Prod.snd

/-! ## Pattern compiler (`pathToRegex`, `extractParamNames`) -/

/-- A compiled piece of a pattern segment: a literal span (the source
regex-escapes it, so it matches itself), or a `[name]` parameter token
(compiled to the capturing group `([^/]+)`). -/
inductive Piece where
  | lit (s : List Char)
  | par (name : List Char)
deriving DecidableEq

/-- The `/\[(.*?)\]/g` scan over one segment: the name of each match runs from
a `[` to the first following `]`; literal spans in between are preserved.  When
a `[` is never closed, the rest of the segment is literal (the regex finds no
further match). -/
def segScan : List Char → List Piece
  | [] => [.lit []]
  | '[' :: rest => segScanName [] rest
  | c :: rest =>
    match segScan rest with
    | .lit l :: more => .lit (c :: l) :: more
    | more => .lit [c] :: more
where
  segScanName (nameAcc : List Char) : List Char → List Piece
    | []           => [.lit ('[' :: nameAcc.reverse)]
    | ']' :: rest  => .lit [] :: .par nameAcc.reverse :: segScan rest
    | c :: rest    => segScanName (c :: nameAcc) rest

/-- Parameter names of a piece list, in order. -/
def pieceNames (ps : List Piece) : List String :=
  ps.filterMap fun p => match p with
    | .par n => some ⟨n⟩
    | .lit _ => none

/-- Model of `extractParamNames`: the same token scan over each `/`-separated
segment, without validation. -/
def extractParamNames (path : String) : List String :=
  ((splitOnPred (· = '/') path.data).map segScan).flatMap pieceNames

/-- A compiled pattern: the per-segment pieces of the regex
`^seg1/seg2/.../segN$`, and the capture names in group order. -/
structure PathRegex where
  segPieces : List (List Piece)
  paramNames : List String
deriving DecidableEq

/-- Model of `pathToRegex`: the construction-time validation (trim, doubled
slash, whitespace, leading/trailing slash) followed by the per-segment token
scan.  Since every literal span is regex-escaped by the source, the compiled
regex is faithfully represented by the pieces themselves. -/
def pathToRegex (path : String) : Except String PathRegex :=
  let original := path
  let path := jsTrim path
  if containsStr path.data ['/', '/'] then
    .error ("pathToRegex: path contains duplicate slash segment: \"" ++ original ++ "\"")
  else if path.data.any isJsWs then
    .error ("pathToRegex: path contains whitespace: \"" ++ original ++ "\"")
  else if path.data.head? = some '/' then
    .error ("pathToRegex: path should not start with '/': \"" ++ original ++ "\"")
  else if path.data.getLast? = some '/' ∧ path ≠ "" then
    .error ("pathToRegex: path should not end with '/': \"" ++ original ++ "\"")
  else
    let segs := (splitOnPred (· = '/') path.data).map segScan
    .ok { segPieces := segs, paramNames := segs.flatMap pieceNames }

/-- The piece sequence of the whole compiled regex: segments joined by literal
`/` (for the empty pattern this is `[.lit []]`, i.e. `^$`). -/
def flatPieces (segs : List (List Piece)) : List Piece :=
  List.intercalate [.lit ['/']] segs

/-- Greedy backtracking search for one `([^/]+)` group: tries the candidate
lengths `k, k-1, ..., 1` (longest first, as the JS engine does) and keeps the
first for which the rest of the regex matches. -/
def tryLens (f : List Char → Option (List String)) (s : List Char) : Nat → Option (List String)
  | 0 => none
  | k + 1 =>
    match f (s.drop (k + 1)) with
    | some caps => some ((⟨s.take (k + 1)⟩ : String) :: caps)
    | none => tryLens f s k

/-- Executes a piece sequence anchored at both ends (`^...$`), returning the
captures in group order; semantics of the compiled `RegExp.exec`. -/
def matchPieces : List Piece → List Char → Option (List String)
  | [], s => if s.isEmpty then some [] else none
  | .lit l :: ps, s =>
    if l.isPrefixOf s then matchPieces ps (s.drop l.length) else none
  | .par _ :: ps, s =>
    tryLens (fun s2 => matchPieces ps s2) s (s.takeWhile (· ≠ '/')).length

/-- `regex.exec(path)` for a compiled pattern. -/
def regexExec (pr : PathRegex) (s : List Char) : Option (List String) :=
  matchPieces (flatPieces pr.segPieces) s

/-! ## JavaScript values and `toSafeString` -/

/-- The universe of JavaScript values the query pipeline can receive.  Numbers
are restricted to integral values; a plain object is abstracted by the outcome
of `JSON.stringify` on it; an object with its own string conversion is
abstracted by the outcome of calling it (`.error` models a throw). -/
inductive JSValue where
  | vNull
  | vUndefined
  | vStr (s : String)
  | vInt (n : Int)
  | vBool (b : Bool)
  | vBigInt (n : Int)
  | vSymbol (description : Option String)
  | vObjCustom (toStringResult : Except Unit String)
  | vObjPlain (jsonResult : Except Unit String)
  | vArr (elems : List JSValue)

/-- `String(element)` as invoked by `Array.prototype.join`: `null`/`undefined`
become empty, symbols throw, plain objects print as `[object Object]`, nested
arrays join recursively. -/
def jsArrElemStr : JSValue → Except Unit String
  | .vNull => .ok ""
  | .vUndefined => .ok ""
  | .vStr s => .ok s
  | .vInt n => .ok (toString n)
  | .vBool b => .ok (if b then "true" else "false")
  | .vBigInt n => .ok (toString n)
  | .vSymbol _ => .error ()
  | .vObjCustom r => r
  | .vObjPlain _ => .ok "[object Object]"
  | .vArr l => jsArrJoin l
where
  jsArrJoin : List JSValue → Except Unit String
    | [] => .ok ""
    | [e] => jsArrElemStr e
    | e :: rest => do
      let s ← jsArrElemStr e
      let t ← jsArrJoin rest
      .ok (s ++ "," ++ t)

/-- Model of `toSafeString`. -/
def toSafeString : JSValue → String
  | .vNull => ""
  | .vUndefined => ""
  | .vStr s => s
  | .vInt n => toString n
  | .vBool b => if b then "true" else "false"
  | .vBigInt n => toString n
  | .vSymbol d => d.getD ""
  | .vObjCustom r => match r with
    | .ok s => s
    | .error _ => ""
  | .vObjPlain j => match j with
    | .ok s => s
    | .error _ => ""
  | .vArr l => match jsArrElemStr.jsArrJoin l with
    | .ok s => s
    | .error _ => ""

/-- Model of `hasCustomToString`: everything but `null` and plain objects
reports a non-default string conversion (arrays inherit
`Array.prototype.toString`). -/
def hasCustomToString : JSValue → Bool
  | .vObjPlain _ => false
  | _ => true

/-! ## Query reader (`getQueryValues`, `QueryParamsBase`) -/

/-- `string | string[]` on the raw side of a query mapping. -/
inductive StrOrArr where
  | str (s : String)
  | arr (l : List String)
deriving DecidableEq

/-- A raw query mapping, `Record<string, string | string[]>`. -/
abbrev RawParams := List (String × StrOrArr)

/-- Property lookup on the record. -/
def lookupRaw (params : RawParams) (key : String) : Option StrOrArr :=
  (params.find? fun p => p.1 = key).map Prod.snd

/-- Model of `getQueryValues`: wrap a single value, trim each entry
(`undefined` for a missing key trims to the empty string via `?.`/`??`), drop
empties, deduplicate in first-occurrence order. -/
def getQueryValues (params : RawParams) (key : String) : List String :=
  let stringOrArray := lookupRaw params key
  let values : List (Option String) :=
    match stringOrArray with
    | some (.arr l) => l.map some
    | some (.str s) => [some s]
    | none => [none]
  let trimmed := values.map fun v => (v.map jsTrim).getD ""
  let nonEmpty := trimmed.filter (· ≠ "")
  dedupFirst nonEmpty

/-- `QueryParamsBase.values`. -/
def qpbValues (params : RawParams) (key : String) : List String :=
  getQueryValues params key

/-- `QueryParamsBase.value` (via `firstValue`). -/
def qpbValue (params : RawParams) (key : String) : Option String :=
  let valuesByKey := qpbValues params key
  if valuesByKey.length > 0 then valuesByKey[0]? else none

/-- Model of `processQueryValues`: trim, drop empties, first-occurrence
dedup. -/
def processQueryValues (valuesByKey : List String) : List String :=
  dedupFirst ((valuesByKey.map jsTrim).filter (· ≠ ""))

/-! ## Value encoding pipeline -/

/-- Model of `encodeValue`. -/
def encodeValue (value : JSValue) : String :=
  let s := toSafeString value
  if s = "" then "" else encodeURIComponent s

/-- An optional per-route custom encoder; `.error` models a throw. -/
abbrev CustomEncoder := JSValue → Except Unit String

/-- Model of `getRawEncodedValue`: the custom encoder when present (throws
degrade to the empty string), else `toSafeString`. -/
def getRawEncodedValue (value : JSValue) (customEncoder : Option CustomEncoder) : String :=
  match customEncoder with
  | none => toSafeString value
  | some enc =>
    match enc value with
    | .ok s => s
    | .error _ => ""

/-- Model of `normalizePercentEscapes`: every `%` not followed by two hex
digits becomes `%25`; the global regex resumes after each examined `%`. -/
def normalizePercentEscapesL : List Char → List Char
  | [] => []
  | '%' :: rest =>
    match rest with
    | h1 :: h2 :: _ =>
      if isHexDigitCh h1 ∧ isHexDigitCh h2 then '%' :: normalizePercentEscapesL rest
      else '%' :: '2' :: '5' :: normalizePercentEscapesL rest
    | _ => '%' :: '2' :: '5' :: normalizePercentEscapesL rest
  | c :: rest => c :: normalizePercentEscapesL rest

def normalizePercentEscapes (s : String) : String := ⟨normalizePercentEscapesL s.data⟩

/-- The class `[\s#&=?/;:@$,]` of `encodeReservedChars`. -/
def isReservedOrWs (c : Char) : Bool :=
  isJsWs c ∨ c.toNat = 0x23 ∨ c.toNat = 0x26 ∨ c.toNat = 0x3D ∨ c.toNat = 0x3F ∨
    c.toNat = 0x2F ∨ c.toNat = 0x3B ∨ c.toNat = 0x3A ∨ c.toNat = 0x40 ∨
    c.toNat = 0x24 ∨ c.toNat = 0x2C

/-- Model of `encodeReservedChars`: each matched character is replaced by
`encodeURIComponent` of itself; everything else (including valid percent
triplets) is copied through. -/
def encodeReservedCharsL (s : List Char) : List Char :=
  s.flatMap fun c => if isReservedOrWs c then encodeURIComponentL [c] else [c]

def encodeReservedChars (s : String) : String := ⟨encodeReservedCharsL s.data⟩

/-- Model of `encodeKeyValue`. -/
def encodeKeyValue (key : String) (value : Option JSValue)
    (customEncoder : Option CustomEncoder) : String :=
  match value with
  | none => ""
  | some v =>
    let rawValue := getRawEncodedValue v customEncoder
    if rawValue = "" then ""
    else
      let normalized := normalizePercentEscapes rawValue
      let safe := encodeReservedChars normalized
      encodeURIComponent key ++ "=" ++ safe

/-- UTF-16 code units of a character (JS string ordering compares these). -/
def utf16Units (c : Char) : List Nat :=
  if c.toNat < 0x10000 then [c.toNat]
  else [0xD800 + (c.toNat - 0x10000) / 0x400, 0xDC00 + (c.toNat - 0x10000) % 0x400]

/-- JS `<` on strings: lexicographic over UTF-16 code units. -/
def jsStrLt (a b : String) : Bool :=
  unitsLt (a.data.flatMap utf16Units) (b.data.flatMap utf16Units)
where
  unitsLt : List Nat → List Nat → Bool
    | [], [] => false
    | [], _ :: _ => true
    | _ :: _, [] => false
    | x :: xs, y :: ys => if x < y then true else if y < x then false else unitsLt xs ys

/-- Insertion of one element into a run sorted by `jsStrLt` on the `raw`
component (the comparator returns −1/1/0 from the same `<` tests; elements are
pairwise distinct in `raw` when this is used, so any correct sort agrees). -/
def sortInsert (x : String × String) : List (String × String) → List (String × String)
  | [] => [x]
  | y :: ys => if jsStrLt x.1 y.1 then x :: y :: ys else y :: sortInsert x ys

/-- `Array.prototype.sort` with the `raw`-comparing comparator. -/
def sortByRaw (l : List (String × String)) : List (String × String) :=
  l.foldr sortInsert []

/-- Is a value nullish (`value != null` fails)? -/
def isNullish : JSValue → Bool
  | .vNull => true
  | .vUndefined => true
  | _ => false

/-- The array-branch collection loop of `encodeKeyValues`: skips nullish
elements, then elements whose safe form was already seen, then elements
without a custom string conversion (these do not mark their safe form as
seen); each kept element contributes `(safe form, encoded pair)`. -/
def collectArray (key : String) (customEncoder : Option CustomEncoder) :
    List JSValue → List String → List (String × String)
  | [], _ => []
  | v :: rest, seen =>
    if isNullish v then collectArray key customEncoder rest seen
    else if toSafeString v ∈ seen then collectArray key customEncoder rest seen
    else if ¬ hasCustomToString v then collectArray key customEncoder rest seen
    else (toSafeString v, encodeKeyValue key (some v) customEncoder) ::
      collectArray key customEncoder rest (toSafeString v :: seen)

/-- Model of `encodeKeyValues`. -/
def encodeKeyValues (key : String) (value : Option JSValue)
    (customEncoder : Option CustomEncoder) : List String :=
  match value with
  | none => []
  | some (.vArr l) => (sortByRaw (collectArray key customEncoder l [])).map Prod.snd
  | some v =>
    let pair := encodeKeyValue key (some v) customEncoder
    if pair ≠ "" then [pair] else []

/-- A typed query object: ordered own enumerable entries, values possibly
nullish. -/
abbrev JSObj := List (String × JSValue)

/-- Model of `buildQueryString` (and of the identical default
`serializeQuery`): enumerate entries in order, drop nullish values, flat-map
through `encodeKeyValues`, join with `&`. -/
def buildQueryString (query : JSObj) (customEncoder : Option CustomEncoder) : String :=
  let entries := (query.filter fun e => ¬ isNullish e.2).flatMap
    fun e => encodeKeyValues e.1 (some e.2) customEncoder
  String.intercalate "&" entries

/-! ## Routes, href building, matching, breadcrumbs -/

/-- Path parameters as supplied to `buildHref`/`validatePathParams`: own
entries whose values may be `null`/`undefined` (`none`). -/
abbrev PathParams := List (String × Option String)

/-- A processed multi-value query mapping, `Record<string, string[]>`. -/
abbrev RawQuery := List (String × List String)

/-- The argument bundle passed to route label callbacks (`title`,
`breadcrumb`): `{ params, query, context }`. -/
structure RouteArgsV where
  params : List (String × String) := []
  query : JSObj := []
  context : JSObj := []

/-- The argument bundle passed to a custom `serializeQuery`. -/
structure SerializeArgs where
  params : PathParams
  meta : JSObj
  context : JSObj
  queryParams : RawQuery

/-- A route definition.  Readers produced by `queryParamsFactory` are consumed
only by the same route's `getQuery`, so the factory/`getQuery` composition is
modelled as one function from the underlying processed mapping; similarly the
synthetic reader of `createQueryParamsFromTyped` is represented by its
underlying mapping. -/
structure Route where
  path : String
  parentPath : Option String := none
  getQuery : Option (RawQuery → JSObj) := none
  getMeta : Option (Unit → JSObj) := none
  encodeQueryValue : Option CustomEncoder := none
  serializeQuery : Option (JSObj → SerializeArgs → String) := none
  title : Option (RouteArgsV → String) := none
  breadcrumb : Option (RouteArgsV → String) := none
  hrefFn : Option (RouteArgsV → String) := none

/-- Property lookup in a params object. -/
def lookupParam (params : PathParams) (key : String) : Option (Option String) :=
  (params.find? fun p => p.1 = key).map Prod.snd

/-- `!(param in params) || params[param] == null`. -/
def paramMissing (ps : PathParams) (p : String) : Bool :=
  match lookupParam ps p with
  | some (some _) => false
  | _ => true

/-- Model of `validatePathParams`: throws (`.error`) the descriptive message
when required names are absent or nullish; otherwise returns the (non-fatal)
`console.warn` messages for unused keys. -/
def validatePathParams (route : Route) (params : Option PathParams) :
    Except String (List String) :=
  let ps := params.getD []
  let requiredParams := extractParamNames route.path
  let missingParams := requiredParams.filter (paramMissing ps)
  if missingParams ≠ [] then
    .error ("Missing required path parameters: " ++ String.intercalate ", " missingParams ++
      " for route: " ++ route.path ++ " | provided=\x7b" ++
      String.intercalate ", " (ps.map Prod.fst) ++ "\x7d expected=\x7b" ++
      String.intercalate ", " requiredParams ++ "\x7d")
  else
    let providedKeys := ps.map Prod.fst
    let extra := providedKeys.filter fun k => k ∉ requiredParams
    if extra ≠ [] then
      .ok ["validatePathParams: unused path param keys will be ignored for route '" ++
        route.path ++ "': [" ++ String.intercalate ", " extra ++ "]"]
    else .ok []

/-- `String(value)` on a possibly-null parameter value. -/
def jsStringOfParam : Option String → String
  | some s => s
  | none => "null"

/-- Model of `buildPath`: for each entry, when the `[key]` token occurs in the
current path, every occurrence is replaced (split/join) by the
percent-encoded value. -/
def buildPath (route : Route) (params : Option PathParams) : String :=
  match params with
  | none => route.path
  | some ps =>
    ps.foldl
      (fun path kv =>
        let token := "[" ++ kv.1 ++ "]"
        if containsStr path.data token.data then
          let encoded := encodeURIComponent (jsStringOfParam kv.2)
          ⟨List.intercalate encoded.data (splitOnStr token.data path.data)⟩
        else path)
      route.path

/-- Model of `buildFragment`: probe by decode→re-encode; when the round trip
reproduces the input (lowercased comparison), emit it unchanged, otherwise
percent-encode the raw text. -/
def buildFragment (fragment : Option String) : String :=
  match fragment with
  | none => ""
  | some f =>
    if f = "" then ""
    else
      match decodeURIComponent f with
      | some decoded =>
        if lowerStr (encodeURIComponent decoded).data = lowerStr f.data then "#" ++ f
        else "#" ++ encodeURIComponent f
      | none => "#" ++ encodeURIComponent f

/-- Model of `hasFragment` applied to the optional context: the context's
`fragment` property when it is a string. -/
def contextFragment (context : Option JSObj) : Option String :=
  match context with
  | none => none
  | some ctx =>
    match (ctx.find? fun e => e.1 = "fragment").map Prod.snd with
    | some (.vStr s) => some s
    | _ => none

/-- Model of `createQueryParamsFromTyped`: rebuilds a raw multi-value mapping
from a typed query object (best effort, as documented in the source). -/
def createQueryParamsFromTyped (queryObj : JSObj) : RawQuery :=
  queryObj.filterMap fun kv =>
    match kv.2 with
    | .vNull => none
    | .vUndefined => none
    | .vArr l =>
      let arr := ((l.filter fun v => ¬ isNullish v).map
        fun v => if hasCustomToString v then toSafeString v else "").filter (· ≠ "")
      if arr.isEmpty then none else some (kv.1, arr)
    | v =>
      let s := toSafeString v
      if s = "" then none else some (kv.1, [s])

/-- The argument bundle accepted by `buildHref`. -/
structure BuildArgs where
  params : Option PathParams := none
  query : Option JSObj := none
  context : Option JSObj := none
  fragment : Option String := none
  queryParams : Option RawQuery := none

/-- Model of `buildHref`: validate, substitute the path, serialize the query
(custom serializer verbatim after trimming, else the default pipeline), append
the encoded fragment; `/path?query#fragment`. -/
def buildHref (route : Route) (args : Option BuildArgs) : Except String String := do
  let a := args.getD {}
  let _warnings ← validatePathParams route a.params
  let path := buildPath route a.params
  let queryString :=
    match a.query with
    | none => ""
    | some q =>
      match route.serializeQuery with
      | some ser =>
        let qpReader := a.queryParams.getD (createQueryParamsFromTyped q)
        let serialized := ser q
          { params := a.params.getD []
            meta := (route.getMeta.map (· ())).getD []
            context := a.context.getD []
            queryParams := qpReader }
        jsTrim serialized
      | none => buildQueryString q route.encodeQueryValue
  let fragStr := buildFragment (a.fragment <|> contextFragment a.context)
  pure ("/" ++ path ++ (if queryString ≠ "" then "?" ++ queryString else "") ++ fragStr)

/-- The relevant data of a `MatchedRoute` (the lazy `title`/`breadcrumb`/`href`
closures just re-apply the route callbacks and are derivable from these
fields). -/
structure Matched where
  route : Route
  params : List (String × String)
  query : JSObj
  meta : JSObj
  fullPath : String
  fragment : String

/-- `pathname.replace(/^\/+/, '')`. -/
def stripLeadingSlashes (s : List Char) : List Char := s.dropWhile (· = '/')

/-- The processed query mapping `findRoute` builds from `searchParams`:
per distinct key in order of appearance, `processQueryValues(getAll(key))`. -/
def buildRawQuery (pairs : List (String × String)) : RawQuery :=
  (dedupFirst (pairs.map Prod.fst)).map fun k => (k, processQueryValues (formGetAll pairs k))

/-- The route-table loop of `findRoute`: first compiled pattern that matches
the decoded path wins; compilation errors and capture-decoding `URIError`s
propagate. -/
def findRouteGo (routes : List Route) (path : List Char) (rawQ : RawQuery)
    (rel fragment : String) : Except String (Option Matched) :=
  match routes with
  | [] => .ok none
  | route :: rest =>
    match pathToRegex route.path with
    | .error e => .error e
    | .ok pr =>
      match regexExec pr path with
      | none => findRouteGo rest path rawQ rel fragment
      | some caps =>
        match caps.mapM decodeURIComponent with
        | none => .error "URIError: URI malformed"
        | some decoded =>
          .ok (some
            { route := route
              params := pr.paramNames.zip decoded
              query := (route.getQuery.getD fun _ => []) rawQ
              meta := (route.getMeta.map (· ())).getD []
              fullPath := rel
              fragment := fragment })

/-- Model of `findRoute`: relative-part extraction (absent gives `.ok none`),
the `new URL(rel, "http://localhost")` parse, percent-decoding of path and
fragment (a `URIError` propagates), then the first-match loop. -/
def findRoute (urlString : String) (routes : List Route) : Except String (Option Matched) :=
  match getRelativePart urlString with
  | none => .ok none
  | some rel =>
    match parseAgainstLocalhost rel.data with
    | none => .error "TypeError: Invalid URL"
    | some u =>
      match decodeURIComponentL (stripLeadingSlashes u.pathname) with
      | none => .error "URIError: URI malformed"
      | some path =>
        match decodeURIComponentL u.frag with
        | none => .error "URIError: URI malformed"
        | some fragChars =>
          findRouteGo routes path (buildRawQuery (formParse u.query)) rel ⟨fragChars⟩

/-- `route.breadcrumb ?? route.title ?? getEmptyString`. -/
def getLabelFn (r : Route) : RouteArgsV → String :=
  (r.breadcrumb <|> r.title).getD fun _ => ""

/-- The ancestor-walk loop of `buildBreadcrumbTrail`: stops on exhausted fuel
(the `depth < 10` cap), a missing parent, or a previously visited path
(route identity is its pattern, see `buildNestedRoutes`/`find` by `path`). -/
def breadGo (routes : List Route) (m : Matched) (ctx : Option JSObj) :
    Option Route → List String → List String → Nat → List String
  | _, _, trail, 0 => trail
  | none, _, trail, _ + 1 => trail
  | some cur, visited, trail, fuel + 1 =>
    if cur.path ∈ visited then trail
    else
      let args : RouteArgsV :=
        { params := m.params, query := m.query
          context := if cur.path = m.route.path then ctx.getD [] else [] }
      let label := getLabelFn cur args
      let next :=
        match cur.parentPath with
        | some pp => routes.find? fun r => r.path = pp
        | none => none
      breadGo routes m ctx next (cur.path :: visited) (label :: trail) fuel

/-- Model of `buildBreadcrumbTrail`. -/
def buildBreadcrumbTrail (url : String) (routes : List Route)
    (context : Option JSObj) : Except String (List String) :=
  match findRoute url routes with
  | .error e => .error e
  | .ok none => .ok []
  | .ok (some m) => .ok (breadGo routes m context (some m.route) [] [] 10)

/-! ## Specification-side definitions

These restate, in independent recursive form, the properties the spec
describes; the theorems below connect them to the source-modelled
functions. -/

deriving instance DecidableEq for Except

/-- First-occurrence deduplication, specified recursively: keep the head, drop
its later duplicates. -/
def firstOccur : List String → List String
  | [] => []
  | x :: xs => x :: firstOccur (xs.filter (· ≠ x))
termination_by l => l.length
decreasing_by
  simp only [List.length_cons]
  exact Nat.lt_succ_of_le (xs.length_filter_le _)

/-- The array elements the default pipeline keeps, specified recursively: skip
nullish elements and elements without a custom string conversion; a kept
element suppresses every later element with the same safe-string form. -/
def keptElems : List JSValue → List JSValue
  | [] => []
  | v :: rest =>
    if isNullish v then keptElems rest
    else if hasCustomToString v then
      v :: keptElems (rest.filter fun w => toSafeString w ≠ toSafeString v)
    else keptElems rest
termination_by l => l.length
decreasing_by
  all_goals simp only [List.length_cons]
  all_goals first
    | exact Nat.lt_succ_of_le (List.length_filter_le _ _)
    | omega

/-- Do two hex digits follow here? -/
def pctWindowOk : List Char → Bool
  | h1 :: h2 :: _ => isHexDigitCh h1 && isHexDigitCh h2
  | _ => false

lemma pctWindowOk_nil : pctWindowOk [] = false := rfl

lemma pctWindowOk_one (c : Char) : pctWindowOk [c] = false := rfl

lemma pctWindowOk_cons2 (h1 h2 : Char) (t : List Char) :
    pctWindowOk (h1 :: h2 :: t) = (isHexDigitCh h1 && isHexDigitCh h2) := rfl

/-- Every `%` is followed by two hex digits. -/
def strayFreeB : List Char → Bool
  | [] => true
  | c :: rest => (if c = '%' then pctWindowOk rest else true) && strayFreeB rest

/-- No whitespace and none of the reserved characters `# & = ? / ; : @ $ ,`
occur at all (in particular none occurs outside a valid percent triplet). -/
def noReservedB (s : List Char) : Bool := s.all fun c => ¬ isReservedOrWs c

/-! ## Restricted pattern forms for the round-trip property (C1)

The round-trip theorem quantifies over patterns given as segment lists: a
segment is either a pure literal, or a literal prefix followed by one final
parameter token.  These definitions render such a shape into the pattern
string fed to the source functions. -/

/-- `\w` — parameter-name characters. -/
def isWordChar (c : Char) : Bool :=
  (0x30 ≤ c.toNat ∧ c.toNat ≤ 0x39) ∨ (0x41 ≤ c.toNat ∧ c.toNat ≤ 0x5A) ∨
  (0x61 ≤ c.toNat ∧ c.toNat ≤ 0x7A) ∨ c.toNat = 0x5F

/-- Printable ASCII literal characters that pass through URL parsing, percent
decoding and token substitution untouched: excluded are the separators and
brackets `/ \ ? # % [ ] :` and the path-encode-set members `" < > `+ backtick,
braces. -/
def isSafeLitChar (c : Char) : Bool :=
  0x21 ≤ c.toNat ∧ c.toNat ≤ 0x7E ∧
  c.toNat ≠ 0x2F ∧ c.toNat ≠ 0x5C ∧ c.toNat ≠ 0x3F ∧ c.toNat ≠ 0x23 ∧ c.toNat ≠ 0x25 ∧
  c.toNat ≠ 0x5B ∧ c.toNat ≠ 0x5D ∧ c.toNat ≠ 0x3A ∧ c.toNat ≠ 0x22 ∧ c.toNat ≠ 0x3C ∧
  c.toNat ≠ 0x3E ∧ c.toNat ≠ 0x60 ∧ c.toNat ≠ 0x7B ∧ c.toNat ≠ 0x7D

/-- A restricted pattern segment. -/
inductive Seg where
  | lit (l : List Char)
  | pref (l : List Char) (name : List Char)
deriving DecidableEq

/-- The segment text of the pattern. -/
def Seg.render : Seg → List Char
  | .lit l => l
  | .pref l name => l ++ '[' :: (name ++ [']'])

/-- The pattern string. -/
def renderPattern (segs : List Seg) : String :=
  ⟨List.intercalate ['/'] (segs.map Seg.render)⟩

def Seg.names : Seg → List String
  | .lit _ => []
  | .pref _ name => [⟨name⟩]

def segNames (segs : List Seg) : List String := segs.flatMap Seg.names

/-- Segment well-formedness for the round trip. -/
def Seg.valid : Seg → Prop
  | .lit l => l ≠ [] ∧ (∀ c ∈ l, isSafeLitChar c = true) ∧ l ≠ ['.'] ∧ l ≠ ['.', '.']
  | .pref l name =>
    (∀ c ∈ l, isSafeLitChar c = true) ∧ name ≠ [] ∧ ∀ c ∈ name, isWordChar c = true

instance : DecidablePred Seg.valid := fun s => by
  cases s <;> (unfold Seg.valid; infer_instance)

/-- A well-formed restricted pattern: at least one segment, all segments
valid, parameter names distinct. -/
def ValidSegs (segs : List Seg) : Prop :=
  segs ≠ [] ∧ (∀ s ∈ segs, s.valid) ∧ (segNames segs).Nodup

instance (segs : List Seg) : Decidable (ValidSegs segs) := by
  unfold ValidSegs
  infer_instance

/-- A round-trippable parameter value: non-empty, free of `/` and `%`, and not
a dot segment. -/
def ValidValue (v : String) : Prop :=
  v ≠ "" ∧ (∀ c ∈ v.data, c ≠ '/' ∧ c ≠ '%') ∧ v ≠ "." ∧ v ≠ ".."

instance (v : String) : Decidable (ValidValue v) := by
  unfold ValidValue
  infer_instance

/-- The segment text after substituting (and percent-encoding) values. -/
def Seg.renderEnc (vf : String → String) : Seg → List Char
  | .lit l => l
  | .pref l name => l ++ encodeURIComponentL (vf ⟨name⟩).data

/-- The substituted path string. -/
def renderEncPath (vf : String → String) (segs : List Seg) : List Char :=
  List.intercalate ['/'] (segs.map (Seg.renderEnc vf))

/-- The segment text after percent-decoding the substituted path. -/
def Seg.renderDec (vf : String → String) : Seg → List Char
  | .lit l => l
  | .pref l name => l ++ (vf ⟨name⟩).data

def renderDecPath (vf : String → String) (segs : List Seg) : List Char :=
  List.intercalate ['/'] (segs.map (Seg.renderDec vf))

/-- Units of a partially substituted pattern: literal spans (never containing
`[`) and still-unsubstituted parameter tokens. -/
inductive RUnit where
  | plain (p : List Char)
  | tokenB (m : List Char)
deriving DecidableEq

def RUnit.render : RUnit → List Char
  | .plain p => p
  | .tokenB m => '[' :: (m ++ [']'])

def rendUnits (us : List RUnit) : List Char := (us.map RUnit.render).flatten

/-- The units of one segment under a partial substitution `f` (the encoded
value for already-substituted names). -/
def segUnits (f : String → Option (List Char)) : Seg → List RUnit
  | .lit l => [.plain l]
  | .pref l name =>
    match f ⟨name⟩ with
    | some e => [.plain (l ++ e)]
    | none => [.plain l, .tokenB name]

/-- The units of the whole pattern under a partial substitution. -/
def patUnits (f : String → Option (List Char)) (segs : List Seg) : List RUnit :=
  List.intercalate [.plain ['/']] (segs.map (segUnits f))

/-- Characters of the encoded path region: either a safe literal character,
or an `encodeURIComponent` output character (unreserved or `%`), or the
separator `/`.  This class passes the URL pipeline untouched. -/
def isPathChar (c : Char) : Prop :=
  isSafeLitChar c = true ∨ isUriUnreserved c = true ∨ c = '%' ∨ c = '/'

/-- The piece list `segScan` produces for one rendered segment. -/
def segPieceOf : Seg → List Piece
  | .lit l => [.lit l]
  | .pref l name => [.lit l, .par name, .lit []]

/-- The parameter token text `[name]`. -/
def tokOf (k : List Char) : List Char := '[' :: (k ++ [']'])

/-- Well-formedness of one partial-substitution unit: plain spans never
contain `[`, token names are non-empty `\w+`. -/
def RUnit.clean : RUnit → Prop
  | .plain p => ∀ c ∈ p, c ≠ '['
  | .tokenB m => m ≠ [] ∧ ∀ c ∈ m, isWordChar c = true

def CleanUnits (us : List RUnit) : Prop := ∀ u ∈ us, u.clean

/-- Replaces every still-unsubstituted token for `k` by its encoded value
(the unit-level effect of one `split`/`join` replacement). -/
def substU (k enc : List Char) : List RUnit → List RUnit :=
  List.map fun u =>
    match u with
    | .tokenB m => if m = k then .plain enc else .tokenB m
    | .plain p => .plain p

/-- The spans of text between the occurrences of the token for `k`, computed
unit by unit. -/
def splitUnits (k : List Char) : List RUnit → List (List Char)
  | [] => [[]]
  | .plain p :: us =>
    match splitUnits k us with
    | h :: t => (p ++ h) :: t
    | [] => [p]
  | .tokenB m :: us =>
    if m = k then [] :: splitUnits k us
    else
      match splitUnits k us with
      | h :: t => (tokOf m ++ h) :: t
      | [] => [tokOf m]

/-- The partial substitution that has already substituted the names in `K`
with their percent-encoded values. -/
def fOf (vf : String → String) (K : List String) : String → Option (List Char) :=
  fun n => if n ∈ K then some (encodeURIComponentL (vf n).data) else none

/-! # Theorems -/

/-! ## Query-reader normalization (C5, C10) -/

lemma dedupFirst_go (l acc : List String) :
    l.foldl (fun acc v => if v ∈ acc then acc else acc ++ [v]) acc =
      acc ++ firstOccur (l.filter (· ∉ acc)) := by
  induction l generalizing acc with
  | nil => simp [firstOccur]
  | cons x xs ih =>
    by_cases hx : x ∈ acc
    · simpa [hx] using ih acc
    · rw [List.foldl_cons, if_neg hx, ih (acc ++ [x])]
      have hfilter : xs.filter (fun v => decide (v ∉ acc ++ [x])) =
          (xs.filter (fun v => decide (v ∉ acc))).filter (fun v => decide (v ≠ x)) := by
        rw [List.filter_filter]
        apply List.filter_congr
        intro v _
        by_cases h1 : v ∈ acc <;> by_cases h2 : v = x <;> simp [h1, h2]
      have hcons : (x :: xs).filter (fun v => decide (v ∉ acc)) =
          x :: xs.filter (fun v => decide (v ∉ acc)) := by
        rw [List.filter_cons]
        simp [hx]
      rw [hcons, firstOccur, hfilter]
      simp

/-- `Array.from(new Set(l))` is exactly first-occurrence deduplication. -/
lemma dedupFirst_eq_firstOccur (l : List String) : dedupFirst l = firstOccur l := by
  have := dedupFirst_go l []
  simpa [dedupFirst] using this

/-- C5.  The reader's `values(key)` on a raw multi-value entry returns the
input values trimmed, with empty strings dropped, deduplicated keeping first
occurrences in order; in particular
`['  react','react','typescript','']` yields `['react','typescript']`. -/
theorem c5_values_normalization :
    (∀ (raw : RawParams) (key : String) (vals : List String),
      lookupRaw raw key = some (.arr vals) →
      qpbValues raw key = firstOccur ((vals.map jsTrim).filter (· ≠ ""))) ∧
    qpbValues [("topics", .arr ["  react", "react", "typescript", ""])] "topics" =
      ["react", "typescript"] := by
  constructor
  · intro raw key vals hlook
    rw [qpbValues, getQueryValues, hlook]
    simp only [dedupFirst_eq_firstOccur, List.map_map]
    rfl
  · decide

/-- Witness for C5 at a concrete raw mapping. -/
theorem c5_values_normalization_witness :
    qpbValues [("k", .arr ["b", " b", "a"])] "k" =
      firstOccur ((["b", " b", "a"].map jsTrim).filter (· ≠ "")) :=
  c5_values_normalization.1 [("k", .arr ["b", " b", "a"])] "k" ["b", " b", "a"] (by decide)

/-- C10.  `value(key)` is the head of the normalized `values(key)` and is
absent exactly when that list is empty; a missing key yields `[]` and
`undefined` (both accessors are total). -/
theorem c10_value_values_consistency (raw : RawParams) (key : String) :
    qpbValue raw key = (qpbValues raw key).head? ∧
    (qpbValue raw key = none ↔ qpbValues raw key = []) ∧
    (lookupRaw raw key = none → qpbValues raw key = [] ∧ qpbValue raw key = none) := by
  refine ⟨?_, ?_, ?_⟩
  · rw [qpbValue]
    cases h : qpbValues raw key with
    | nil => simp
    | cons a l => simp
  · rw [qpbValue]
    cases h : qpbValues raw key with
    | nil => simp
    | cons a l => simp
  · intro hlook
    have hv : qpbValues raw key = [] := by
      rw [qpbValues, getQueryValues, hlook]
      decide
    refine ⟨hv, ?_⟩
    rw [qpbValue, hv]
    simp

/-- Witness for C10 at a missing key. -/
theorem c10_value_values_consistency_witness :
    qpbValues [("a", .str "x")] "b" = [] ∧ qpbValue [("a", .str "x")] "b" = none :=
  (c10_value_values_consistency [("a", .str "x")] "b").2.2 (by decide)

/-! ## Pattern-compilation validation (C2) -/

/-- C2 (amended).  `pathToRegex` fails, naming the offending pattern, exactly
for doubled slashes, embedded whitespace, and leading or trailing slashes (in
that precedence); any pattern free of those four violations compiles, so
duplicate parameter names and parameter names outside `[A-Za-z_]\w*` are not
rejected. -/
theorem c2_pathToRegex_validation (path : String) :
    (containsStr (jsTrim path).data ['/', '/'] = true →
      pathToRegex path = .error
        ("pathToRegex: path contains duplicate slash segment: \"" ++ path ++ "\"")) ∧
    (containsStr (jsTrim path).data ['/', '/'] = false →
      (jsTrim path).data.any isJsWs = true →
      pathToRegex path = .error ("pathToRegex: path contains whitespace: \"" ++ path ++ "\"")) ∧
    (containsStr (jsTrim path).data ['/', '/'] = false →
      (jsTrim path).data.any isJsWs = false →
      (jsTrim path).data.head? = some '/' →
      pathToRegex path = .error
        ("pathToRegex: path should not start with '/': \"" ++ path ++ "\"")) ∧
    (containsStr (jsTrim path).data ['/', '/'] = false →
      (jsTrim path).data.any isJsWs = false →
      (jsTrim path).data.head? ≠ some '/' →
      ((jsTrim path).data.getLast? = some '/' ∧ jsTrim path ≠ "") →
      pathToRegex path = .error
        ("pathToRegex: path should not end with '/': \"" ++ path ++ "\"")) ∧
    (containsStr (jsTrim path).data ['/', '/'] = false →
      (jsTrim path).data.any isJsWs = false →
      (jsTrim path).data.head? ≠ some '/' →
      ¬ ((jsTrim path).data.getLast? = some '/' ∧ jsTrim path ≠ "") →
      (pathToRegex path).isOk = true) := by
  refine ⟨?_, ?_, ?_, ?_, ?_⟩
  · intro h1
    simp [pathToRegex, h1]
  · intro h1 h2
    simp [pathToRegex, h1, h2]
  · intro h1 h2 h3
    simp [pathToRegex, h1, h2, h3]
  · intro h1 h2 h3 h4
    simp [pathToRegex, h1, h2, h3, h4]
  · intro h1 h2 h3 h4
    simp [pathToRegex, h1, h2, h3, h4, Except.isOk, Except.toBool]

/-- Witness for C2 at concrete patterns for each branch. -/
theorem c2_pathToRegex_validation_witness :
    pathToRegex "foo//bar" = .error
      ("pathToRegex: path contains duplicate slash segment: \"foo//bar\"") ∧
    pathToRegex "foo bar" = .error ("pathToRegex: path contains whitespace: \"foo bar\"") ∧
    pathToRegex "/foo" = .error ("pathToRegex: path should not start with '/': \"/foo\"") ∧
    pathToRegex "foo/" = .error ("pathToRegex: path should not end with '/': \"foo/\"") ∧
    (pathToRegex "@[handle]").isOk = true :=
  ⟨(c2_pathToRegex_validation "foo//bar").1 (by decide),
   (c2_pathToRegex_validation "foo bar").2.1 (by decide) (by decide),
   (c2_pathToRegex_validation "/foo").2.2.1 (by decide) (by decide) (by decide),
   (c2_pathToRegex_validation "foo/").2.2.2.1 (by decide) (by decide) (by decide) (by decide),
   (c2_pathToRegex_validation "@[handle]").2.2.2.2 (by decide) (by decide) (by decide) (by decide)⟩

/-- C2 (counterexample to the claim as stated): a pattern with a duplicated
parameter name and a pattern whose parameter name starts with a digit both
compile without any error. -/
theorem c2_counterexample :
    (pathToRegex "a/[year]/b-[year]").map PathRegex.paramNames = .ok ["year", "year"] ∧
    (pathToRegex "@[0invalid]").map PathRegex.paramNames = .ok ["0invalid"] := by
  decide

/-! ## Path-parameter validation in `buildHref` (C6) -/

lemma buildHref_ok_of_validate (route : Route) (a : BuildArgs) (w : List String)
    (hw : validatePathParams route a.params = .ok w) :
    ∃ s, buildHref route (some a) = .ok s := by
  simp only [buildHref, Option.getD_some, hw]
  exact ⟨_, rfl⟩

lemma buildHref_error_of_validate (route : Route) (a : BuildArgs) (e : String)
    (he : validatePathParams route a.params = .error e) :
    buildHref route (some a) = .error e := by
  simp only [buildHref, Option.getD_some, he]
  rfl

/-- C6.  `buildHref` fails exactly when a parameter name extracted from the
pattern is absent or nullish in `params`; the error names the missing,
provided and expected sets; when nothing is missing it succeeds (extra keys
never fail, they only produce the non-fatal warning returned by
`validatePathParams`). -/
theorem c6_buildHref_param_validation (route : Route) (a : BuildArgs) :
    ((extractParamNames route.path).filter (paramMissing (a.params.getD [])) = [] →
      ∃ s, buildHref route (some a) = .ok s) ∧
    ((extractParamNames route.path).filter (paramMissing (a.params.getD [])) ≠ [] →
      buildHref route (some a) = .error
        ("Missing required path parameters: " ++
         String.intercalate ", "
           ((extractParamNames route.path).filter (paramMissing (a.params.getD []))) ++
         " for route: " ++ route.path ++ " | provided=\x7b" ++
         String.intercalate ", " ((a.params.getD []).map Prod.fst) ++ "\x7d expected=\x7b" ++
         String.intercalate ", " (extractParamNames route.path) ++ "\x7d")) ∧
    (∀ name, name ∈ (extractParamNames route.path).filter (paramMissing (a.params.getD [])) ↔
      (name ∈ extractParamNames route.path ∧
        (lookupParam (a.params.getD []) name = none ∨
         lookupParam (a.params.getD []) name = some none))) := by
  refine ⟨?_, ?_, ?_⟩
  · intro hmem
    have hval : ∃ w, validatePathParams route a.params = .ok w := by
      simp only [validatePathParams]
      rw [if_neg (by simp [hmem])]
      split <;> exact ⟨_, rfl⟩
    obtain ⟨w, hw⟩ := hval
    exact buildHref_ok_of_validate route a w hw
  · intro hmem
    have hval : validatePathParams route a.params = .error
        ("Missing required path parameters: " ++
         String.intercalate ", "
           ((extractParamNames route.path).filter (paramMissing (a.params.getD []))) ++
         " for route: " ++ route.path ++ " | provided=\x7b" ++
         String.intercalate ", " ((a.params.getD []).map Prod.fst) ++ "\x7d expected=\x7b" ++
         String.intercalate ", " (extractParamNames route.path) ++ "\x7d") := by
      simp only [validatePathParams]
      rw [if_pos hmem]
    exact buildHref_error_of_validate route a _ hval
  · intro name
    simp only [List.mem_filter, paramMissing]
    constructor
    · rintro ⟨h1, h2⟩
      refine ⟨h1, ?_⟩
      rcases hl : lookupParam (a.params.getD []) name with _ | v
      · exact Or.inl rfl
      · cases v with
        | none => exact Or.inr rfl
        | some s => rw [hl] at h2; simp at h2
    · rintro ⟨h1, h2⟩
      refine ⟨h1, ?_⟩
      rcases h2 with h2 | h2 <;> rw [h2]

/-- Witness for C6: pattern `@[handle]` built with no params fails naming
`handle`; with the parameter supplied plus an extra key it succeeds. -/
theorem c6_buildHref_param_validation_witness :
    buildHref ({ path := "@[handle]" } : Route) (some {}) = .error
      ("Missing required path parameters: handle for route: @[handle] | " ++
       "provided=\x7b\x7d expected=\x7bhandle\x7d") ∧
    (∃ s, buildHref ({ path := "@[handle]" } : Route)
      (some { params := some [("handle", some "x"), ("extra", some "y")] }) = .ok s) :=
  ⟨by
    have h := (c6_buildHref_param_validation ({ path := "@[handle]" } : Route) {}).2.1
      (by decide)
    simpa using h,
   (c6_buildHref_param_validation ({ path := "@[handle]" } : Route)
      { params := some [("handle", some "x"), ("extra", some "y")] }).1 (by decide)⟩

/-! ## Fragment building (C9) -/

/-- C9.  A non-empty fragment that decode→re-encode reproduces (up to ASCII
case, in particular hex-digit case) is emitted unchanged after `#`; otherwise
(including when decoding throws) the raw text is percent-encoded;
`my%20section` is preserved and `my section` becomes `#my%20section`. -/
theorem c9_buildFragment_probe :
    (∀ f : String, f ≠ "" →
      (∀ d, decodeURIComponent f = some d →
        ((lowerStr (encodeURIComponent d).data = lowerStr f.data →
            buildFragment (some f) = "#" ++ f) ∧
         (lowerStr (encodeURIComponent d).data ≠ lowerStr f.data →
            buildFragment (some f) = "#" ++ encodeURIComponent f))) ∧
      (decodeURIComponent f = none → buildFragment (some f) = "#" ++ encodeURIComponent f)) ∧
    buildFragment (some "my%20section") = "#my%20section" ∧
    buildFragment (some "my section") = "#my%20section" := by
  refine ⟨?_, by decide, by decide⟩
  intro f hf
  constructor
  · intro d hd
    constructor <;> intro hcmp <;> simp [buildFragment, hf, hd, hcmp]
  · intro hd
    simp [buildFragment, hf, hd]

/-- Witness for C9 at the two concrete fragments. -/
theorem c9_buildFragment_probe_witness :
    buildFragment (some "my section") = "#" ++ encodeURIComponent "my section" :=
  ((c9_buildFragment_probe.1 "my section" (by decide)).1 "my section" (by decide)).2
    (by decide)

/-! ## Reserved-character safety of the encoding pipeline (C7) -/

lemma char_eq_iff_toNat (c d : Char) : c = d ↔ c.toNat = d.toNat := by
  constructor
  · intro h
    rw [h]
  · intro h
    apply Char.eq_of_val_eq
    exact UInt32.toNat.inj h

lemma char_toNat_lt (c : Char) : c.toNat < 1114112 := by
  have h := c.valid
  show c.val.toNat < 1114112
  rcases h with h | ⟨h1, h2⟩ <;> omega

lemma hexUpper_hex (n : Nat) (h : n < 16) : isHexDigitCh (hexUpper n) = true := by
  interval_cases n <;> decide

lemma hexUpper_not_reserved (n : Nat) (h : n < 16) : isReservedOrWs (hexUpper n) = false := by
  interval_cases n <;> decide

lemma hexUpper_ne_pct (n : Nat) (h : n < 16) : hexUpper n ≠ '%' := by
  interval_cases n <;> decide

lemma hexDigit_ne_pct (c : Char) (h : isHexDigitCh c = true) : c ≠ '%' := by
  simp only [isHexDigitCh, decide_eq_true_eq] at h
  intro he
  rw [char_eq_iff_toNat] at he
  have hp : ('%' : Char).toNat = 37 := rfl
  omega

lemma hexDigit_not_reserved (c : Char) (h : isHexDigitCh c = true) :
    isReservedOrWs c = false := by
  rw [Bool.eq_false_iff]
  intro hr
  simp only [isHexDigitCh, decide_eq_true_eq] at h
  simp only [isReservedOrWs, isJsWs, decide_eq_true_eq] at hr
  omega

lemma reserved_not_unreserved (c : Char) (h : isReservedOrWs c = true) :
    isUriUnreserved c = false := by
  rw [Bool.eq_false_iff]
  intro hu
  simp only [isReservedOrWs, isJsWs, decide_eq_true_eq] at h
  simp only [isUriUnreserved, decide_eq_true_eq] at hu
  omega

lemma pct_not_reserved : isReservedOrWs '%' = false := by decide

lemma utf8Encode_lt256 (n : Nat) (hn : n < 1114112) : ∀ b ∈ utf8Encode n, b < 256 := by
  intro b hb
  simp only [utf8Encode] at hb
  split at hb
  · simp at hb
    omega
  · split at hb
    · simp at hb
      rcases hb with hb | hb <;> omega
    · split at hb
      · simp at hb
        rcases hb with hb | hb | hb <;> omega
      · simp at hb
        rcases hb with hb | hb | hb | hb <;> omega

lemma strayFree_cons_ne (c : Char) (rest : List Char) (h : c ≠ '%') :
    strayFreeB (c :: rest) = strayFreeB rest := by
  simp [strayFreeB, h]

lemma strayFree_pctByte_append (b : Nat) (hb : b < 256) (r : List Char) :
    strayFreeB (pctByte b ++ r) = strayFreeB r := by
  have h1 : b / 16 < 16 := by omega
  have h2 : b % 16 < 16 := by omega
  show strayFreeB ('%' :: hexUpper (b / 16) :: hexUpper (b % 16) :: r) = strayFreeB r
  have hwin : pctWindowOk (hexUpper (b / 16) :: hexUpper (b % 16) :: r) = true := by
    rw [pctWindowOk_cons2]
    simp [hexUpper_hex _ h1, hexUpper_hex _ h2]
  rw [strayFreeB]
  rw [strayFree_cons_ne _ _ (hexUpper_ne_pct _ h1), strayFree_cons_ne _ _ (hexUpper_ne_pct _ h2)]
  simp [hwin]

lemma strayFree_triplets (bs : List Nat) (hbs : ∀ b ∈ bs, b < 256) (r : List Char) :
    strayFreeB (bs.flatMap pctByte ++ r) = strayFreeB r := by
  induction bs with
  | nil => simp
  | cons b bs ih =>
    rw [List.flatMap_cons, List.append_assoc,
      strayFree_pctByte_append b (hbs b (by simp)) _]
    exact ih fun x hx => hbs x (by simp [hx])

lemma noReservedB_append (a b : List Char) :
    noReservedB (a ++ b) = (noReservedB a && noReservedB b) := by
  simp [noReservedB, List.all_append]

lemma noReserved_pctByte (b : Nat) (hb : b < 256) : noReservedB (pctByte b) = true := by
  have h1 : b / 16 < 16 := by omega
  have h2 : b % 16 < 16 := by omega
  simp [noReservedB, pctByte, pct_not_reserved, hexUpper_not_reserved _ h1,
    hexUpper_not_reserved _ h2]

lemma unreserved_not_reserved (c : Char) (h : isUriUnreserved c = true) :
    isReservedOrWs c = false := by
  rw [Bool.eq_false_iff]
  intro hr
  simp only [isUriUnreserved, decide_eq_true_eq] at h
  simp only [isReservedOrWs, isJsWs, decide_eq_true_eq] at hr
  omega

lemma noReserved_encodeURIComponentL (s : List Char) :
    noReservedB (encodeURIComponentL s) = true := by
  induction s with
  | nil => decide
  | cons c rest ih =>
    rw [encodeURIComponentL, List.flatMap_cons, ← encodeURIComponentL, noReservedB_append, ih,
      Bool.and_true]
    by_cases hu : isUriUnreserved c
    · simp [hu, noReservedB, unreserved_not_reserved c hu]
    · simp only [hu, if_false, Bool.false_eq_true]
      have hby := utf8Encode_lt256 c.toNat (char_toNat_lt c)
      generalize hbs : utf8Encode c.toNat = bs at hby
      clear hbs
      induction bs with
      | nil => decide
      | cons b bs ihb =>
        rw [List.flatMap_cons, noReservedB_append, noReserved_pctByte b (hby b (by simp)),
          Bool.true_and]
        exact ihb fun x hx => hby x (by simp [hx])

lemma norm_cons_ne (c : Char) (rest : List Char) (h : c ≠ '%') :
    normalizePercentEscapesL (c :: rest) = c :: normalizePercentEscapesL rest := by
  rw [normalizePercentEscapesL.eq_def]
  split <;> simp_all

lemma strayFree_normalize (s : List Char) :
    strayFreeB (normalizePercentEscapesL s) = true := by
  induction s using normalizePercentEscapesL.induct with
  | case1 => decide
  | case2 h1 h2 tail hhex ih =>
    rw [normalizePercentEscapesL, if_pos hhex]
    have e1 : normalizePercentEscapesL (h1 :: h2 :: tail) =
        h1 :: h2 :: normalizePercentEscapesL tail := by
      rw [norm_cons_ne h1 _ (hexDigit_ne_pct h1 hhex.1),
        norm_cons_ne h2 _ (hexDigit_ne_pct h2 hhex.2)]
    rw [e1] at ih ⊢
    rw [strayFreeB]
    have hwin : pctWindowOk (h1 :: h2 :: normalizePercentEscapesL tail) = true := by
      rw [pctWindowOk_cons2]
      simp [hhex.1, hhex.2]
    simp [hwin, ih]
  | case3 h1 h2 tail hhex ih =>
    rw [normalizePercentEscapesL, if_neg hhex]
    rw [strayFreeB]
    have hwin : pctWindowOk ('2' :: '5' :: normalizePercentEscapesL (h1 :: h2 :: tail)) = true := by
      rw [pctWindowOk_cons2]
      decide
    rw [strayFree_cons_ne _ _ (by decide), strayFree_cons_ne _ _ (by decide)]
    simp [hwin, ih]
  | case4 rest hshort ih =>
    rcases rest with _ | ⟨a, _ | ⟨b, t⟩⟩
    · decide
    · show strayFreeB ('%' :: '2' :: '5' :: normalizePercentEscapesL [a]) = true
      rw [strayFreeB]
      have hwin : pctWindowOk ('2' :: '5' :: normalizePercentEscapesL [a]) = true := by
        rw [pctWindowOk_cons2]
        decide
      rw [strayFree_cons_ne _ _ (by decide), strayFree_cons_ne _ _ (by decide)]
      simp [hwin, ih]
    · exact absurd rfl (hshort a b t)
  | case5 c rest hne ih =>
    have hc : c ≠ '%' := fun h => hne h
    rw [norm_cons_ne c rest hc, strayFree_cons_ne c _ hc]
    exact ih

lemma encRes_cons (c : Char) (rest : List Char) :
    encodeReservedCharsL (c :: rest) =
      (if isReservedOrWs c then encodeURIComponentL [c] else [c]) ++
        encodeReservedCharsL rest := by
  rw [encodeReservedCharsL, List.flatMap_cons]
  rfl

lemma strayFree_encodeReserved (s : List Char) (h : strayFreeB s = true) :
    strayFreeB (encodeReservedCharsL s) = true := by
  induction s with
  | nil => decide
  | cons c rest ih =>
    rw [strayFreeB, Bool.and_eq_true] at h
    obtain ⟨hw, hrest⟩ := h
    rw [encRes_cons]
    by_cases hres : isReservedOrWs c = true
    · rw [if_pos hres]
      have hu : isUriUnreserved c = false := reserved_not_unreserved c hres
      rw [encodeURIComponentL]
      simp only [List.flatMap_cons, List.flatMap_nil, List.append_nil, hu, Bool.false_eq_true,
        if_false]
      rw [strayFree_triplets _ (utf8Encode_lt256 c.toNat (char_toNat_lt c)) _]
      exact ih hrest
    · rw [if_neg hres, List.singleton_append]
      by_cases hc : c = '%'
      · subst hc
        rw [if_pos rfl] at hw
        rcases rest with _ | ⟨d1, _ | ⟨d2, t⟩⟩
        · rw [pctWindowOk_nil] at hw
          exact absurd hw (by decide)
        · rw [pctWindowOk_one] at hw
          exact absurd hw (by decide)
        · rw [pctWindowOk_cons2, Bool.and_eq_true] at hw
          obtain ⟨hx1, hx2⟩ := hw
          have e1 : encodeReservedCharsL (d1 :: d2 :: t) =
              d1 :: d2 :: encodeReservedCharsL t := by
            rw [encRes_cons, if_neg (by simp [hexDigit_not_reserved d1 hx1]),
              List.singleton_append, encRes_cons,
              if_neg (by simp [hexDigit_not_reserved d2 hx2]), List.singleton_append]
          have h3 := ih hrest
          rw [e1, strayFree_cons_ne _ _ (hexDigit_ne_pct d1 hx1),
            strayFree_cons_ne _ _ (hexDigit_ne_pct d2 hx2)] at h3
          rw [e1, strayFreeB]
          have hwin : pctWindowOk (d1 :: d2 :: encodeReservedCharsL t) = true := by
            rw [pctWindowOk_cons2]
            simp [hx1, hx2]
          rw [strayFree_cons_ne _ _ (hexDigit_ne_pct d1 hx1),
            strayFree_cons_ne _ _ (hexDigit_ne_pct d2 hx2)]
          simp [hwin, h3]
      · rw [strayFree_cons_ne c _ hc]
        exact ih hrest

lemma noReserved_encodeReserved (s : List Char) :
    noReservedB (encodeReservedCharsL s) = true := by
  induction s with
  | nil => decide
  | cons c rest ih =>
    rw [encRes_cons, noReservedB_append, ih, Bool.and_true]
    by_cases hres : isReservedOrWs c = true
    · rw [if_pos hres]
      exact noReserved_encodeURIComponentL [c]
    · rw [if_neg hres]
      simp [noReservedB, Bool.eq_false_iff.mpr hres]

/-- C7.  With any custom per-route encoder — returning arbitrary strings or
throwing — the emitted pair is either dropped (empty) or is
`encodedKey=safe` where `safe` has no stray `%` (every `%` is followed by two
hex digits) and contains no whitespace or reserved character at all; a
throwing encoder degrades to the empty raw value and the pair is dropped. -/
theorem c7_custom_encoder_safety :
    (∀ (key : String) (v : JSValue) (enc : CustomEncoder),
      encodeKeyValue key (some v) (some enc) = "" ∨
      ∃ safe : String,
        encodeKeyValue key (some v) (some enc) = encodeURIComponent key ++ "=" ++ safe ∧
        strayFreeB safe.data = true ∧ noReservedB safe.data = true) ∧
    (∀ (key : String) (v : JSValue) (enc : CustomEncoder),
      enc v = .error () → encodeKeyValue key (some v) (some enc) = "") := by
  constructor
  · intro key v enc
    rw [encodeKeyValue]
    by_cases hraw : getRawEncodedValue v (some enc) = ""
    · rw [if_pos hraw]
      exact Or.inl rfl
    · rw [if_neg hraw]
      refine Or.inr ⟨encodeReservedChars (normalizePercentEscapes (getRawEncodedValue v (some enc))), rfl, ?_, ?_⟩
      · show strayFreeB (encodeReservedCharsL (normalizePercentEscapesL _)) = true
        exact strayFree_encodeReserved _ (strayFree_normalize _)
      · show noReservedB (encodeReservedCharsL (normalizePercentEscapesL _)) = true
        exact noReserved_encodeReserved _
  · intro key v enc henc
    rw [encodeKeyValue, getRawEncodedValue, henc]
    simp

/-- Witness for C7: a misbehaving encoder emitting `a%zz b#?` is sanitized, a
throwing encoder produces no pair. -/
theorem c7_custom_encoder_safety_witness :
    encodeKeyValue "k" (some (.vStr "x")) (some fun _ => .error ()) = "" :=
  c7_custom_encoder_safety.2 "k" (.vStr "x") (fun _ => .error ()) rfl

/-! ## Default array serialization (C4) -/

lemma unitsLt_asymm (a b : List Nat) (h : jsStrLt.unitsLt a b = true) :
    jsStrLt.unitsLt b a = false := by
  induction a generalizing b with
  | nil =>
    cases b with
    | nil => simp [jsStrLt.unitsLt] at h
    | cons y ys => simp [jsStrLt.unitsLt]
  | cons x xs ih =>
    cases b with
    | nil => simp [jsStrLt.unitsLt] at h
    | cons y ys =>
      rw [jsStrLt.unitsLt] at h ⊢
      by_cases h1 : x < y
      · simp [show ¬ y < x by omega, h1]
      · by_cases h2 : y < x
        · simp [h1, h2] at h
        · simp only [h1, h2, if_false] at h
          simp [h1, h2, ih _ h]

lemma unitsLt_trans (a b c : List Nat) (h1 : jsStrLt.unitsLt a b = true)
    (h2 : jsStrLt.unitsLt b c = true) : jsStrLt.unitsLt a c = true := by
  induction a generalizing b c with
  | nil =>
    cases b with
    | nil => simp [jsStrLt.unitsLt] at h1
    | cons y ys =>
      cases c with
      | nil => simp [jsStrLt.unitsLt] at h2
      | cons z zs => simp [jsStrLt.unitsLt]
  | cons x xs ih =>
    cases b with
    | nil => simp [jsStrLt.unitsLt] at h1
    | cons y ys =>
      cases c with
      | nil => simp [jsStrLt.unitsLt] at h2
      | cons z zs =>
        rw [jsStrLt.unitsLt] at h1 h2 ⊢
        by_cases hxy : x < y
        · by_cases hyz : y < z
          · simp [show x < z by omega]
          · by_cases hzy : z < y
            · simp [hyz, hzy] at h2
            · simp [show x < z by omega]
        · by_cases hyx : y < x
          · simp [hxy, hyx] at h1
          · by_cases hyz : y < z
            · simp [show x < z by omega]
            · by_cases hzy : z < y
              · simp [hyz, hzy] at h2
              · simp only [hxy, hyx, if_false] at h1
                simp only [hyz, hzy, if_false] at h2
                simp [show ¬ x < z by omega, show ¬ z < x by omega, ih _ _ h1 h2]

lemma jsStrLt_asymm (a b : String) (h : jsStrLt a b = true) : jsStrLt b a = false := by
  rw [jsStrLt] at h ⊢
  exact unitsLt_asymm _ _ h

lemma jsStrLt_trans (a b c : String) (h1 : jsStrLt a b = true) (h2 : jsStrLt b c = true) :
    jsStrLt a c = true := by
  rw [jsStrLt] at h1 h2 ⊢
  exact unitsLt_trans _ _ _ h1 h2

lemma sortInsert_perm (x : String × String) (l : List (String × String)) :
    (sortInsert x l).Perm (x :: l) := by
  induction l with
  | nil => exact List.Perm.refl _
  | cons y ys ih =>
    rw [sortInsert]
    by_cases h : jsStrLt x.1 y.1
    · rw [if_pos h]
    · rw [if_neg h]
      exact (ih.cons y).trans (List.Perm.swap x y ys)

lemma sortInsert_sorted (x : String × String) (l : List (String × String))
    (h : l.Pairwise fun a b => jsStrLt b.1 a.1 = false) :
    (sortInsert x l).Pairwise fun a b => jsStrLt b.1 a.1 = false := by
  induction l with
  | nil => simp [sortInsert]
  | cons y ys ih =>
    rw [List.pairwise_cons] at h
    obtain ⟨hy, hys⟩ := h
    rw [sortInsert]
    by_cases hlt : jsStrLt x.1 y.1 = true
    · rw [if_pos hlt]
      refine List.Pairwise.cons ?_ (List.Pairwise.cons hy hys)
      intro z hz
      rcases List.mem_cons.mp hz with hz | hz
      · rw [hz]
        exact jsStrLt_asymm _ _ hlt
      · by_contra hzx
        rw [Bool.not_eq_false] at hzx
        have htr := jsStrLt_trans _ _ _ hzx hlt
        rw [hy z hz] at htr
        exact absurd htr (by decide)
    · rw [if_neg hlt]
      refine List.Pairwise.cons ?_ (ih hys)
      intro z hz
      have hz' : z ∈ x :: ys := (sortInsert_perm x ys).subset hz
      rcases List.mem_cons.mp hz' with hz' | hz'
      · rw [hz']
        exact Bool.not_eq_true _ |>.mp hlt
      · exact hy z hz'

lemma sortByRaw_perm (l : List (String × String)) : (sortByRaw l).Perm l := by
  induction l with
  | nil => exact List.Perm.refl _
  | cons x xs ih =>
    rw [sortByRaw, List.foldr_cons]
    exact (sortInsert_perm x _).trans (ih.cons x)

lemma sortByRaw_sorted (l : List (String × String)) :
    (sortByRaw l).Pairwise fun a b => jsStrLt b.1 a.1 = false := by
  induction l with
  | nil => simp [sortByRaw]
  | cons x xs ih => exact sortInsert_sorted x _ ih

lemma keptElems_nil : keptElems [] = [] := by
  rw [keptElems.eq_def]

lemma keptElems_cons (v : JSValue) (rest : List JSValue) :
    keptElems (v :: rest) =
      if isNullish v then keptElems rest
      else if hasCustomToString v then
        v :: keptElems (rest.filter fun w => toSafeString w ≠ toSafeString v)
      else keptElems rest := by
  rw [keptElems.eq_def]

lemma collectArray_eq_kept (key : String) (enc : Option CustomEncoder) (l : List JSValue)
    (seen : List String) :
    collectArray key enc l seen =
      (keptElems (l.filter fun v => toSafeString v ∉ seen)).map
        fun v => (toSafeString v, encodeKeyValue key (some v) enc) := by
  induction l generalizing seen with
  | nil => rw [collectArray, List.filter_nil, keptElems_nil, List.map_nil]
  | cons v rest ih =>
    rw [collectArray, List.filter_cons]
    by_cases hnull : isNullish v = true
    · rw [if_pos hnull]
      by_cases hseen : toSafeString v ∈ seen
      · rw [if_neg (by simp [hseen])]
        exact ih seen
      · rw [if_pos (by simp [hseen]), keptElems_cons, if_pos hnull]
        exact ih seen
    · rw [if_neg hnull]
      by_cases hseen : toSafeString v ∈ seen
      · rw [if_pos hseen, if_neg (by simp [hseen])]
        exact ih seen
      · rw [if_neg hseen]
        by_cases hcust : hasCustomToString v = true
        · rw [if_neg (by simp [hcust]), if_pos (by simp [hseen]), keptElems_cons,
            if_neg hnull, if_pos hcust, List.map_cons]
          congr 1
          rw [ih (toSafeString v :: seen)]
          congr 2
          rw [List.filter_filter]
          apply List.filter_congr
          intro w _
          by_cases hw1 : toSafeString w = toSafeString v <;>
            by_cases hw2 : toSafeString w ∈ seen <;> simp [hw1, hw2]
        · rw [if_pos (by simp [hcust]), if_pos (by simp [hseen]), keptElems_cons,
            if_neg hnull, if_neg hcust]
          exact ih seen

/-- C4 (amended).  In the default pipeline an array-valued entry yields one
encoded `key=value` pair per distinct element among those that are non-nullish
and have a non-default string conversion (plain objects are skipped, and an
element with empty safe-string form contributes an empty entry rather than a
pair), where distinctness uses the safe-string form and the output is ordered
by sorting those safe-string forms (UTF-16 lexicographic); in particular
`{tag:['beta','alpha','alpha','charlie']}` serializes to
`tag=alpha&tag=beta&tag=charlie`. -/
theorem c4_default_array_serialization :
    (∀ (key : String) (l : List JSValue) (enc : Option CustomEncoder),
      encodeKeyValues key (some (.vArr l)) enc =
        (sortByRaw ((keptElems l).map fun v =>
          (toSafeString v, encodeKeyValue key (some v) enc))).map Prod.snd) ∧
    (∀ (key : String) (l : List JSValue) (enc : Option CustomEncoder),
      ((sortByRaw ((keptElems l).map fun v =>
        (toSafeString v, encodeKeyValue key (some v) enc))).Perm
        ((keptElems l).map fun v => (toSafeString v, encodeKeyValue key (some v) enc)) ∧
      (sortByRaw ((keptElems l).map fun v =>
        (toSafeString v, encodeKeyValue key (some v) enc))).Pairwise
        fun a b => jsStrLt b.1 a.1 = false)) ∧
    buildQueryString
      [("tag", .vArr [.vStr "beta", .vStr "alpha", .vStr "alpha", .vStr "charlie"])] none =
      "tag=alpha&tag=beta&tag=charlie" := by
  refine ⟨?_, ?_, by decide⟩
  · intro key l enc
    rw [encodeKeyValues, collectArray_eq_kept]
    congr 2
    simp
  · intro key l enc
    exact ⟨sortByRaw_perm _, sortByRaw_sorted _⟩

/-- C4 (counterexample to the claim as stated): a plain-object array element is
a distinct element yet produces no pair at all, and an empty-string element
produces an empty entry (yielding a stray `&`), not a `key=value` pair. -/
theorem c4_counterexample :
    buildQueryString [("tag", .vArr [.vObjPlain (.ok "\x7b\x7d")])] none = "" ∧
    buildQueryString [("tag", .vArr [.vStr "", .vStr "x"])] none = "&tag=x" := by
  decide

/-! ## Breadcrumb termination and bound (C8) -/

lemma breadGo_length (routes : List Route) (m : Matched) (ctx : Option JSObj) :
    ∀ (fuel : Nat) (cur : Option Route) (visited trail : List String),
      (breadGo routes m ctx cur visited trail fuel).length ≤ trail.length + fuel := by
  intro fuel
  induction fuel with
  | zero =>
    intro cur visited trail
    cases cur <;> simp [breadGo]
  | succ n ih =>
    intro cur visited trail
    cases cur with
    | none => simp [breadGo]
    | some r =>
      rw [breadGo]
      by_cases hv : r.path ∈ visited
      · rw [if_pos hv]
        omega
      · rw [if_neg hv]
        refine le_trans (ih _ _ _) ?_
        simp only [List.length_cons]
        omega

/-- C8.  The breadcrumb walk always terminates with at most 10 labels (the
visited-set stop and the depth cap of 10), and on the two-route cycle
`a→parent b, b→parent a` it stops via the visited set and returns the two
labels. -/
theorem c8_breadcrumb_bounded :
    (∀ (url : String) (routes : List Route) (ctx : Option JSObj) (l : List String),
      buildBreadcrumbTrail url routes ctx = .ok l → l.length ≤ 10) ∧
    buildBreadcrumbTrail "/a"
      [{ path := "a", parentPath := some "b", title := some fun _ => "A" },
       { path := "b", parentPath := some "a", title := some fun _ => "B" }] none =
      .ok ["B", "A"] := by
  constructor
  · intro url routes ctx l h
    rw [buildBreadcrumbTrail] at h
    rcases hf : findRoute url routes with e | m <;> rw [hf] at h
    · cases h
    · cases m with
      | none =>
        injection h with h
        rw [← h]
        simp
      | some m =>
        injection h with h
        rw [← h]
        simpa using breadGo_length routes m ctx 10 (some m.route) [] []
  · decide

/-- Witness for C8: the bound applied at the concrete cycle. -/
theorem c8_breadcrumb_bounded_witness : (["B", "A"] : List String).length ≤ 10 :=
  c8_breadcrumb_bounded.1 "/a"
    [{ path := "a", parentPath := some "b", title := some fun _ => "A" },
     { path := "b", parentPath := some "a", title := some fun _ => "B" }] none
    ["B", "A"] c8_breadcrumb_bounded.2

/-! ## First-match-wins and absent results (C3) -/

lemma findRouteGo_none (path : List Char) (rawQ : RawQuery) (rel frag : String)
    (routes : List Route)
    (h : ∀ r ∈ routes, ∃ pr, pathToRegex r.path = .ok pr ∧ regexExec pr path = none) :
    findRouteGo routes path rawQ rel frag = .ok none := by
  induction routes with
  | nil => rfl
  | cons r rest ih =>
    obtain ⟨pr, hpr, hex⟩ := h r (List.mem_cons_self r rest)
    rw [findRouteGo]
    simp only [hpr, hex]
    exact ih fun r2 hr2 => h r2 (List.mem_cons_of_mem r hr2)

lemma findRouteGo_first (path : List Char) (rawQ : RawQuery) (rel frag : String)
    (pre : List Route) (r : Route) (post : List Route)
    (hpre : ∀ r2 ∈ pre, ∃ pr, pathToRegex r2.path = .ok pr ∧ regexExec pr path = none)
    (pr : PathRegex) (caps decoded : List String)
    (hpr : pathToRegex r.path = .ok pr)
    (hex : regexExec pr path = some caps)
    (hdec : caps.mapM decodeURIComponent = some decoded) :
    findRouteGo (pre ++ r :: post) path rawQ rel frag = .ok (some
      { route := r
        params := pr.paramNames.zip decoded
        query := (r.getQuery.getD fun _ => []) rawQ
        meta := (r.getMeta.map (· ())).getD []
        fullPath := rel
        fragment := frag }) := by
  induction pre with
  | nil =>
    rw [List.nil_append, findRouteGo]
    simp only [hpr, hex, hdec]
  | cons p pre2 ih =>
    obtain ⟨pr2, hpr2, hex2⟩ := hpre p (List.mem_cons_self p pre2)
    rw [List.cons_append, findRouteGo]
    simp only [hpr2, hex2]
    exact ih fun r2 hr2 => hpre r2 (List.mem_cons_of_mem p hr2)

/-- C3 (amended).  For every URL that resolves to a relative part whose second
parse succeeds and whose path and fragment percent-decode cleanly, and every
route list: if every route compiles and fails to match the decoded path the
result is absent (`.ok none`, not an error); and the first route in table
order whose compiled pattern matches (with captures that decode) wins,
independently of everything after it. -/
theorem c3_findRoute_first_match :
    ∀ (url : String) (routes : List Route) (rel : String) (u : ParsedUrl)
      (path fragChars : List Char),
      getRelativePart url = some rel →
      parseAgainstLocalhost rel.data = some u →
      decodeURIComponentL (stripLeadingSlashes u.pathname) = some path →
      decodeURIComponentL u.frag = some fragChars →
      ((∀ r ∈ routes, ∃ pr, pathToRegex r.path = .ok pr ∧ regexExec pr path = none) →
        findRoute url routes = .ok none) ∧
      (∀ (pre : List Route) (r : Route) (post : List Route),
        routes = pre ++ r :: post →
        (∀ r2 ∈ pre, ∃ pr, pathToRegex r2.path = .ok pr ∧ regexExec pr path = none) →
        ∀ (pr : PathRegex) (caps decoded : List String),
          pathToRegex r.path = .ok pr →
          regexExec pr path = some caps →
          caps.mapM decodeURIComponent = some decoded →
          findRoute url routes = .ok (some
            { route := r
              params := pr.paramNames.zip decoded
              query := (r.getQuery.getD fun _ => []) (buildRawQuery (formParse u.query))
              meta := (r.getMeta.map (· ())).getD []
              fullPath := rel
              fragment := ⟨fragChars⟩ })) := by
  intro url routes rel u path fragChars hrel hu hpath hfrag
  have hfr : findRoute url routes =
      findRouteGo routes path (buildRawQuery (formParse u.query)) rel ⟨fragChars⟩ := by
    rw [findRoute]
    simp only [hrel, hu, hpath, hfrag]
  constructor
  · intro hnone
    rw [hfr]
    exact findRouteGo_none _ _ _ _ _ hnone
  · intro pre r post hsplit hpre pr caps decoded hpr hex hdec
    rw [hfr, hsplit]
    exact findRouteGo_first _ _ _ _ _ _ _ hpre _ _ _ hpr hex hdec

/-- Witness for C3: a URL matching no route yields an absent result, and with
a matching route prepended by a non-matching one, the matching route wins. -/
theorem c3_findRoute_first_match_witness :
    findRoute "/x" [({ path := "a" } : Route)] = .ok none ∧
    findRoute "/x" [({ path := "a" } : Route), ({ path := "x" } : Route)] = .ok (some
      { route := { path := "x" }
        params := []
        query := []
        meta := []
        fullPath := "x"
        fragment := "" }) := by
  constructor
  · refine (c3_findRoute_first_match "/x" [({ path := "a" } : Route)] "x"
      { pathname := ['/', 'x'], query := [], frag := [] } ['x'] [] (by decide) (by decide)
      (by decide) (by decide)).1 ?_
    intro r hr
    rw [List.mem_singleton] at hr
    subst hr
    exact ⟨{ segPieces := [[.lit ['a']]], paramNames := [] }, by decide, by decide⟩
  · refine (c3_findRoute_first_match "/x"
      [({ path := "a" } : Route), ({ path := "x" } : Route)] "x"
      { pathname := ['/', 'x'], query := [], frag := [] } ['x'] [] (by decide) (by decide)
      (by decide) (by decide)).2 [({ path := "a" } : Route)] ({ path := "x" } : Route) []
      rfl ?_ { segPieces := [[.lit ['x']]], paramNames := [] } [] [] (by decide) (by decide)
      (by decide)
    intro r hr
    rw [List.mem_singleton] at hr
    subst hr
    exact ⟨{ segPieces := [[.lit ['a']]], paramNames := [] }, by decide, by decide⟩

/-- C3 (counterexample to the claim as stated): `/100%` is resolvable (its
relative part is extracted), yet `findRoute` throws a `URIError` from
percent-decoding the path — even with an empty route list — instead of
returning an absent result. -/
theorem c3_counterexample :
    (getRelativePart "/100%").isSome = true ∧
    findRoute "/100%" [] = .error "URIError: URI malformed" :=
  ⟨by decide, by rfl⟩

/-! ## Round trip (C1): character-class facts -/

lemma wordChar_facts (c : Char) (h : isWordChar c = true) :
    c ≠ '[' ∧ c ≠ ']' ∧ c ≠ '/' ∧ c ≠ '%' := by
  simp only [isWordChar, decide_eq_true_eq] at h
  refine ⟨?_, ?_, ?_, ?_⟩ <;> intro he <;> rw [char_eq_iff_toNat] at he <;>
    simp only [show ('[' : Char).toNat = 0x5B from rfl, show (']' : Char).toNat = 0x5D from rfl,
      show ('/' : Char).toNat = 0x2F from rfl, show ('%' : Char).toNat = 0x25 from rfl] at he <;>
    omega

lemma safeLit_ne (c : Char) (h : isSafeLitChar c = true) (d : Char)
    (hd : d.toNat < 0x21 ∨ d.toNat > 0x7E ∨ d.toNat = 0x2F ∨ d.toNat = 0x5C ∨ d.toNat = 0x3F ∨
      d.toNat = 0x23 ∨ d.toNat = 0x25 ∨ d.toNat = 0x5B ∨ d.toNat = 0x5D ∨ d.toNat = 0x3A ∨
      d.toNat = 0x22 ∨ d.toNat = 0x3C ∨ d.toNat = 0x3E ∨ d.toNat = 0x60 ∨ d.toNat = 0x7B ∨
      d.toNat = 0x7D) :
    c ≠ d := by
  simp only [isSafeLitChar, decide_eq_true_eq] at h
  intro he
  rw [char_eq_iff_toNat] at he
  omega

lemma safeLit_not_ws (c : Char) (h : isSafeLitChar c = true) : isJsWs c = false := by
  simp only [isSafeLitChar, decide_eq_true_eq] at h
  rw [Bool.eq_false_iff]
  intro hw
  simp only [isJsWs, decide_eq_true_eq] at hw
  omega

lemma safeLit_not_pathEnc (c : Char) (h : isSafeLitChar c = true) : inPathEncSet c = false := by
  simp only [isSafeLitChar, decide_eq_true_eq] at h
  rw [Bool.eq_false_iff]
  intro hw
  simp only [inPathEncSet, inC0High, decide_eq_true_eq, char_eq_iff_toNat,
    show (' ' : Char).toNat = 0x20 from rfl, show ('"' : Char).toNat = 0x22 from rfl,
    show ('#' : Char).toNat = 0x23 from rfl, show ('<' : Char).toNat = 0x3C from rfl,
    show ('>' : Char).toNat = 0x3E from rfl, show ('?' : Char).toNat = 0x3F from rfl] at hw
  omega

lemma safeLit_not_c0sp (c : Char) (h : isSafeLitChar c = true) : isC0OrSpace c = false := by
  simp only [isSafeLitChar, decide_eq_true_eq] at h
  rw [Bool.eq_false_iff]
  intro hw
  simp only [isC0OrSpace, decide_eq_true_eq] at hw
  omega

/-- Hex digits are unreserved. -/
lemma hexUpper_unreserved (n : Nat) (h : n < 16) : isUriUnreserved (hexUpper n) = true := by
  interval_cases n <;> decide

/-- Characters emitted by `encodeURIComponent` are unreserved or `%`. -/
lemma encChar_class (s : List Char) (c : Char) (hc : c ∈ encodeURIComponentL s) :
    isUriUnreserved c = true ∨ c = '%' := by
  rw [encodeURIComponentL, List.mem_flatMap] at hc
  obtain ⟨a, _, hc⟩ := hc
  by_cases hu : isUriUnreserved a = true
  · rw [if_pos hu, List.mem_singleton] at hc
    subst hc
    exact Or.inl hu
  · rw [if_neg hu, List.mem_flatMap] at hc
    obtain ⟨b, hb, hc⟩ := hc
    have hblt : b < 256 := utf8Encode_lt256 a.toNat (char_toNat_lt a) b hb
    have h1 : b / 16 < 16 := by omega
    have h2 : b % 16 < 16 := by omega
    rw [pctByte] at hc
    simp only [List.mem_cons, List.not_mem_nil, or_false] at hc
    rcases hc with hc | hc | hc
    · exact Or.inr hc
    · subst hc
      exact Or.inl (hexUpper_unreserved _ h1)
    · subst hc
      exact Or.inl (hexUpper_unreserved _ h2)

/-- Unreserved characters are printable ASCII and none of the special
characters relevant to parsing. -/
lemma unreserved_facts (c : Char) (h : isUriUnreserved c = true) :
    0x21 ≤ c.toNat ∧ c.toNat ≤ 0x7E ∧ c.toNat ≠ 0x2F ∧ c.toNat ≠ 0x5C ∧ c.toNat ≠ 0x3F ∧
    c.toNat ≠ 0x23 ∧ c.toNat ≠ 0x5B ∧ c.toNat ≠ 0x3A ∧ c.toNat ≠ 0x22 ∧ c.toNat ≠ 0x3C ∧
    c.toNat ≠ 0x3E ∧ c.toNat ≠ 0x60 ∧ c.toNat ≠ 0x7B ∧ c.toNat ≠ 0x7D := by
  simp only [isUriUnreserved, decide_eq_true_eq] at h
  omega

lemma pathChar_not_ws (c : Char) (h : isPathChar c) : isJsWs c = false := by
  rcases h with h | h | h | h
  · exact safeLit_not_ws c h
  · have := unreserved_facts c h
    rw [Bool.eq_false_iff]
    intro hw
    simp only [isJsWs, decide_eq_true_eq] at hw
    omega
  · subst h
    decide
  · subst h
    decide

lemma pathChar_not_tabnl (c : Char) (h : isPathChar c) :
    ¬ (c = '\t' ∨ c = '\n' ∨ c = '\r') := by
  have hw := pathChar_not_ws c h
  intro hc
  rcases hc with hc | hc | hc <;> subst hc <;> simp [isJsWs] at hw

lemma pathChar_not_c0sp (c : Char) (h : isPathChar c) : isC0OrSpace c = false := by
  rcases h with h | h | h | h
  · exact safeLit_not_c0sp c h
  · have := unreserved_facts c h
    rw [Bool.eq_false_iff]
    intro hw
    simp only [isC0OrSpace, decide_eq_true_eq] at hw
    omega
  · subst h
    decide
  · subst h
    decide

lemma pathChar_not_pathEnc (c : Char) (h : isPathChar c) : inPathEncSet c = false := by
  rcases h with h | h | h | h
  · exact safeLit_not_pathEnc c h
  · have := unreserved_facts c h
    rw [Bool.eq_false_iff]
    intro hw
    simp only [inPathEncSet, inC0High, decide_eq_true_eq, char_eq_iff_toNat,
      show (' ' : Char).toNat = 0x20 from rfl, show ('"' : Char).toNat = 0x22 from rfl,
      show ('#' : Char).toNat = 0x23 from rfl, show ('<' : Char).toNat = 0x3C from rfl,
      show ('>' : Char).toNat = 0x3E from rfl, show ('?' : Char).toNat = 0x3F from rfl] at hw
    omega
  · subst h
    decide
  · subst h
    decide

lemma pathChar_ne_of (c : Char) (h : isPathChar c) (d : Char)
    (hd : d.toNat = 0x3F ∨ d.toNat = 0x23 ∨ d.toNat = 0x5C ∨ d.toNat = 0x3A) : c ≠ d := by
  intro he
  subst he
  rcases h with h | h | h | h
  · exact absurd rfl (safeLit_ne c h c (by omega))
  · have := unreserved_facts c h
    omega
  · rw [char_eq_iff_toNat] at h
    simp only [show ('%' : Char).toNat = 0x25 from rfl] at h
    omega
  · rw [char_eq_iff_toNat] at h
    simp only [show ('/' : Char).toNat = 0x2F from rfl] at h
    omega

/-! ## Round trip (C1): splitting, trimming, normalization lemmas -/

lemma dropWhile_of_none {α : Type} (p : α → Bool) (l : List α)
    (h : ∀ c ∈ l, p c = false) : l.dropWhile p = l := by
  cases l with
  | nil => rfl
  | cons c rest =>
    rw [List.dropWhile_cons, if_neg (by simp [h c (by simp)])]

lemma trimTrailC0_of_clean (s : List Char) (h : ∀ c ∈ s, isC0OrSpace c = false) :
    trimTrailC0 s = s := by
  rw [trimTrailC0, dropWhile_of_none _ _ (by intro c hc; exact h c (List.mem_reverse.mp hc)),
    List.reverse_reverse]

lemma trimC0Both_of_clean (s : List Char) (h : ∀ c ∈ s, isC0OrSpace c = false) :
    trimC0Both s = s := by
  rw [trimC0Both, dropWhile_of_none _ _ h]
  rw [dropWhile_of_none _ _ (by intro c hc; exact h c (List.mem_reverse.mp hc)),
    List.reverse_reverse]

lemma stripTabNL_of_clean (s : List Char) (h : ∀ c ∈ s, ¬ (c = '\t' ∨ c = '\n' ∨ c = '\r')) :
    stripTabNL s = s := by
  rw [stripTabNL, List.filter_eq_self]
  intro c hc
  simp [h c hc]

/-- Trailing C0 trim over a clean prefix followed by a marked suffix keeps the
prefix and the marker. -/
lemma trimTrailC0_append_marked (a : List Char) (m : Char) (b : List Char)
    (hm : isC0OrSpace m = false) :
    ∃ b2, trimTrailC0 (a ++ m :: b) = a ++ m :: b2 := by
  rw [trimTrailC0, List.reverse_append, List.reverse_cons, List.append_assoc,
    List.singleton_append, List.dropWhile_append]
  split
  · rw [List.dropWhile_cons, if_neg (by simp [hm])]
    exact ⟨[], by simp⟩
  · exact ⟨(List.dropWhile isC0OrSpace b.reverse).reverse, by simp⟩

lemma splitFirst_of_none (p : Char → Bool) (a : List Char) (h : ∀ c ∈ a, p c = false) :
    splitFirst p a = (a, none) := by
  induction a with
  | nil => rfl
  | cons c rest ih =>
    rw [splitFirst, if_neg (by simp [h c (by simp)])]
    rw [ih fun d hd => h d (by simp [hd])]

lemma splitFirst_append (p : Char → Bool) (a b : List Char) (h : ∀ c ∈ a, p c = false) :
    splitFirst p (a ++ b) = (a ++ (splitFirst p b).1, (splitFirst p b).2) := by
  induction a with
  | nil => simp
  | cons c rest ih =>
    rw [List.cons_append, splitFirst, if_neg (by simp [h c (by simp)]),
      ih fun d hd => h d (by simp [hd])]
    rfl

lemma splitOnPred_of_none (p : Char → Bool) (a : List Char) (h : ∀ c ∈ a, p c = false) :
    splitOnPred p a = [a] := by
  induction a with
  | nil => rfl
  | cons c rest ih =>
    rw [splitOnPred, if_neg (by simp [h c (by simp)]), ih fun d hd => h d (by simp [hd])]

lemma splitOnPred_append_sep (p : Char → Bool) (a : List Char) (sep : Char) (b : List Char)
    (ha : ∀ c ∈ a, p c = false) (hsep : p sep = true) :
    splitOnPred p (a ++ sep :: b) = a :: splitOnPred p b := by
  induction a with
  | nil =>
    rw [List.nil_append, splitOnPred, if_pos hsep]
  | cons c rest ih =>
    rw [List.cons_append, splitOnPred, if_neg (by simp [ha c (by simp)]),
      ih fun d hd => ha d (by simp [hd])]

lemma intercalate_cons_cons {α : Type} (sep : List α) (a b : List α) (rest : List (List α)) :
    List.intercalate sep (a :: b :: rest) = a ++ sep ++ List.intercalate sep (b :: rest) := by
  simp [List.intercalate, List.intersperse]

lemma intercalate_single {α : Type} (sep : List α) (a : List α) :
    List.intercalate sep [a] = a := by
  simp [List.intercalate, List.intersperse]

lemma splitOnPred_intercalate (p : Char → Bool) (sep : Char) (parts : List (List Char))
    (hsep : p sep = true) (hparts : ∀ q ∈ parts, ∀ c ∈ q, p c = false) (hne : parts ≠ []) :
    splitOnPred p (List.intercalate [sep] parts) = parts := by
  induction parts with
  | nil => exact absurd rfl hne
  | cons a rest ih =>
    cases rest with
    | nil =>
      rw [intercalate_single]
      exact splitOnPred_of_none p a (hparts a (by simp))
    | cons b rest2 =>
      rw [intercalate_cons_cons, List.append_assoc, List.singleton_append,
        splitOnPred_append_sep p a sep _ (hparts a (by simp)) hsep]
      rw [ih (by intro q hq; exact hparts q (by simp [hq])) (by simp)]

lemma normSegsGo_no_dots (out : List (List Char)) (parts : List (List Char))
    (h : ∀ q ∈ parts, isDoubleDotSeg q = false ∧ isSingleDotSeg q = false) :
    normSegsGo out parts = out ++ parts := by
  induction parts generalizing out with
  | nil => simp [normSegsGo]
  | cons a rest ih =>
    cases rest with
    | nil =>
      have e : normSegsGo out [a] =
          if isDoubleDotSeg a then out.dropLast ++ [[]]
          else if isSingleDotSeg a then out ++ [[]]
          else out ++ [a] := rfl
      rw [e, if_neg (by simp [(h a (by simp)).1]),
        if_neg (by simp [(h a (by simp)).2])]
    | cons b rest2 =>
      have e : normSegsGo out (a :: b :: rest2) =
          if isDoubleDotSeg a then normSegsGo out.dropLast (b :: rest2)
          else if isSingleDotSeg a then normSegsGo out (b :: rest2)
          else normSegsGo (out ++ [a]) (b :: rest2) := rfl
      rw [e, if_neg (by simp [(h a (by simp)).1]),
        if_neg (by simp [(h a (by simp)).2])]
      rw [ih _ (by intro q hq; exact h q (by simp [hq]))]
      simp

lemma pctEncodeSet_of_clean (p : Char → Bool) (s : List Char) (h : ∀ c ∈ s, p c = false) :
    pctEncodeSet p s = s := by
  rw [pctEncodeSet]
  induction s with
  | nil => rfl
  | cons c rest ih =>
    rw [List.flatMap_cons, if_neg (by simp [h c (by simp)]), ih fun d hd => h d (by simp [hd])]
    rfl

/-! ## Round trip (C1): percent-decode of encoded output -/

lemma char_valid_nat (c : Char) :
    c.toNat < 0xD800 ∨ (0xE000 ≤ c.toNat ∧ c.toNat < 0x110000) := by
  have h := c.valid
  unfold UInt32.isValidChar Nat.isValidChar at h
  exact h

lemma hexVal_hexUpper (n : Nat) (h : n < 16) :
    hexVal (hexUpper n) = n ∧ isHexDigitCh (hexUpper n) = true := by
  interval_cases n <;> exact ⟨by decide, by decide⟩

lemma pctTokens_cons_ne (c : Char) (t : List Char) (hc : c ≠ '%') :
    pctTokens (c :: t) = (pctTokens t).map (PctTok.ch c :: ·) := by
  cases t with
  | nil => simp [pctTokens, hc]
  | cons d t2 =>
    cases t2 with
    | nil => simp [pctTokens, hc]
    | cons e t3 => simp [pctTokens, hc]

lemma pctTokens_pctByte (b : Nat) (hb : b < 256) (rest : List Char) :
    pctTokens (pctByte b ++ rest) = (pctTokens rest).map (PctTok.byte b :: ·) := by
  have h1 := hexVal_hexUpper (b / 16) (by omega)
  have h2 := hexVal_hexUpper (b % 16) (by omega)
  have e : pctTokens (pctByte b ++ rest) =
      if isHexDigitCh (hexUpper (b / 16)) ∧ isHexDigitCh (hexUpper (b % 16)) then
        (pctTokens rest).map
          (PctTok.byte (hexVal (hexUpper (b / 16)) * 16 + hexVal (hexUpper (b % 16))) :: ·)
      else none := rfl
  have hdm : hexVal (hexUpper (b / 16)) * 16 + hexVal (hexUpper (b % 16)) = b := by
    rw [h1.1, h2.1]
    omega
  rw [e, if_pos ⟨h1.2, h2.2⟩, hdm]

lemma pctAssemble_ch (c : Char) (ts : List PctTok) :
    pctAssemble (PctTok.ch c :: ts) = (pctAssemble ts).map (c :: ·) := rfl

lemma pctAssemble_ch_span (a : List Char) (ts : List PctTok) :
    pctAssemble (a.map PctTok.ch ++ ts) = (pctAssemble ts).map (a ++ ·) := by
  induction a with
  | nil =>
    simp only [List.map_nil, List.nil_append]
    cases pctAssemble ts <;> simp
  | cons c a ih =>
    rw [List.map_cons, List.cons_append, pctAssemble_ch, ih]
    cases pctAssemble ts <;> simp

lemma pctAsmSt_byte (b1 : Nat) (ts : List PctTok) :
    pctAsmSt none (PctTok.byte b1 :: ts) =
      (if b1 < 0x80 then (pctAsmSt none ts).map (Char.ofNat b1 :: ·)
      else if 0xC2 ≤ b1 ∧ b1 ≤ 0xDF then pctAsmSt (some (b1 - 0xC0, 1, 0x80, 0xBF)) ts
      else if 0xE0 ≤ b1 ∧ b1 ≤ 0xEF then
        pctAsmSt (some (b1 - 0xE0, 2, if b1 = 0xE0 then 0xA0 else 0x80,
          if b1 = 0xED then 0x9F else 0xBF)) ts
      else if 0xF0 ≤ b1 ∧ b1 ≤ 0xF4 then
        pctAsmSt (some (b1 - 0xF0, 3, if b1 = 0xF0 then 0x90 else 0x80,
          if b1 = 0xF4 then 0x8F else 0xBF)) ts
      else none) := rfl

lemma pctAsmSt_cont (acc need lo hi b : Nat) (ts : List PctTok) :
    pctAsmSt (some (acc, need, lo, hi)) (PctTok.byte b :: ts) =
      (if lo ≤ b ∧ b ≤ hi then
        if need ≤ 1 then (pctAsmSt none ts).map (Char.ofNat (acc * 64 + (b - 0x80)) :: ·)
        else pctAsmSt (some (acc * 64 + (b - 0x80), need - 1, 0x80, 0xBF)) ts
      else none) := rfl

lemma pctAssemble_b1 (b1 : Nat) (h : b1 < 0x80) (ts : List PctTok) :
    pctAssemble (PctTok.byte b1 :: ts) = (pctAssemble ts).map (Char.ofNat b1 :: ·) := by
  rw [pctAssemble, pctAsmSt_byte, if_pos h]
  rfl

lemma pctAssemble_b2 (b1 b2 : Nat) (h1 : 0xC2 ≤ b1 ∧ b1 ≤ 0xDF) (h2 : 0x80 ≤ b2 ∧ b2 ≤ 0xBF)
    (ts : List PctTok) :
    pctAssemble (PctTok.byte b1 :: PctTok.byte b2 :: ts) =
      (pctAssemble ts).map (Char.ofNat ((b1 - 0xC0) * 64 + (b2 - 0x80)) :: ·) := by
  rw [pctAssemble, pctAsmSt_byte, if_neg (by omega), if_pos h1, pctAsmSt_cont, if_pos h2,
    if_pos (by omega)]
  rfl

lemma pctAssemble_b3 (b1 b2 b3 : Nat) (h1 : 0xE0 ≤ b1 ∧ b1 ≤ 0xEF)
    (h2 : ((if b1 = 0xE0 then 0xA0 else 0x80) ≤ b2 ∧ b2 ≤ (if b1 = 0xED then 0x9F else 0xBF)) ∧
      (0x80 ≤ b3 ∧ b3 ≤ 0xBF))
    (ts : List PctTok) :
    pctAssemble (PctTok.byte b1 :: PctTok.byte b2 :: PctTok.byte b3 :: ts) =
      (pctAssemble ts).map
        (Char.ofNat ((b1 - 0xE0) * 4096 + (b2 - 0x80) * 64 + (b3 - 0x80)) :: ·) := by
  rw [pctAssemble, pctAsmSt_byte, if_neg (by omega), if_neg (by omega), if_pos h1,
    pctAsmSt_cont, if_pos h2.1, if_neg (by omega), pctAsmSt_cont, if_pos h2.2,
    if_pos (by omega)]
  have hval : ((b1 - 0xE0) * 64 + (b2 - 0x80)) * 64 + (b3 - 0x80) =
      (b1 - 0xE0) * 4096 + (b2 - 0x80) * 64 + (b3 - 0x80) := by
    ring
  rw [hval]
  rfl

lemma pctAssemble_b4 (b1 b2 b3 b4 : Nat) (h1 : 0xF0 ≤ b1 ∧ b1 ≤ 0xF4)
    (h2 : ((if b1 = 0xF0 then 0x90 else 0x80) ≤ b2 ∧ b2 ≤ (if b1 = 0xF4 then 0x8F else 0xBF)) ∧
      (0x80 ≤ b3 ∧ b3 ≤ 0xBF) ∧ (0x80 ≤ b4 ∧ b4 ≤ 0xBF))
    (ts : List PctTok) :
    pctAssemble (PctTok.byte b1 :: PctTok.byte b2 :: PctTok.byte b3 :: PctTok.byte b4 :: ts) =
      (pctAssemble ts).map
        (Char.ofNat ((b1 - 0xF0) * 0x40000 + (b2 - 0x80) * 4096 +
          (b3 - 0x80) * 64 + (b4 - 0x80)) :: ·) := by
  rw [pctAssemble, pctAsmSt_byte, if_neg (by omega), if_neg (by omega), if_neg (by omega),
    if_pos h1, pctAsmSt_cont, if_pos h2.1, if_neg (by omega), pctAsmSt_cont, if_pos h2.2.1,
    if_neg (by omega), pctAsmSt_cont, if_pos h2.2.2, if_pos (by omega)]
  have hval : (((b1 - 0xF0) * 64 + (b2 - 0x80)) * 64 + (b3 - 0x80)) * 64 + (b4 - 0x80) =
      (b1 - 0xF0) * 0x40000 + (b2 - 0x80) * 4096 + (b3 - 0x80) * 64 + (b4 - 0x80) := by
    ring
  rw [hval]
  rfl

/-- Decoding inverts the per-character UTF-8 percent-encoding. -/
lemma pctAssemble_utf8Char (c : Char) (ts : List PctTok) :
    pctAssemble ((utf8Encode c.toNat).map PctTok.byte ++ ts) =
      (pctAssemble ts).map (c :: ·) := by
  have hv := char_valid_nat c
  have hofnat := Char.ofNat_toNat c
  by_cases h1 : c.toNat < 0x80
  · rw [utf8Encode, if_pos h1]
    simp only [List.map_cons, List.map_nil, List.cons_append, List.nil_append]
    rw [pctAssemble_b1 _ h1, hofnat]
  · by_cases h2 : c.toNat < 0x800
    · rw [utf8Encode, if_neg h1, if_pos h2]
      simp only [List.map_cons, List.map_nil, List.cons_append, List.nil_append]
      rw [pctAssemble_b2 _ _ (by omega) (by omega)]
      have hval : (0xC0 + c.toNat / 64 - 0xC0) * 64 + (0x80 + c.toNat % 64 - 0x80) = c.toNat := by
        omega
      rw [hval, hofnat]
    · by_cases h3 : c.toNat < 0x10000
      · rw [utf8Encode, if_neg h1, if_neg h2, if_pos h3]
        simp only [List.map_cons, List.map_nil, List.cons_append, List.nil_append]
        have hb2l : (if 0xE0 + c.toNat / 4096 = 0xE0 then 0xA0 else 0x80) ≤
            0x80 + c.toNat / 64 % 64 := by
          split <;> omega
        have hb2r : 0x80 + c.toNat / 64 % 64 ≤
            (if 0xE0 + c.toNat / 4096 = 0xED then 0x9F else 0xBF) := by
          split <;> omega
        rw [pctAssemble_b3 _ _ _ (by omega) ⟨⟨hb2l, hb2r⟩, by omega⟩]
        have hval : (0xE0 + c.toNat / 4096 - 0xE0) * 4096 +
            (0x80 + c.toNat / 64 % 64 - 0x80) * 64 + (0x80 + c.toNat % 64 - 0x80) = c.toNat := by
          omega
        rw [hval, hofnat]
      · rw [utf8Encode, if_neg h1, if_neg h2, if_neg h3]
        simp only [List.map_cons, List.map_nil, List.cons_append, List.nil_append]
        have hb2l : (if 0xF0 + c.toNat / 0x40000 = 0xF0 then 0x90 else 0x80) ≤
            0x80 + c.toNat / 4096 % 64 := by
          split <;> omega
        have hb2r : 0x80 + c.toNat / 4096 % 64 ≤
            (if 0xF0 + c.toNat / 0x40000 = 0xF4 then 0x8F else 0xBF) := by
          split <;> omega
        rw [pctAssemble_b4 _ _ _ _ (by omega) ⟨⟨hb2l, hb2r⟩, by omega, by omega⟩]
        have hval : (0xF0 + c.toNat / 0x40000 - 0xF0) * 0x40000 +
            (0x80 + c.toNat / 4096 % 64 - 0x80) * 4096 +
            (0x80 + c.toNat / 64 % 64 - 0x80) * 64 + (0x80 + c.toNat % 64 - 0x80) = c.toNat := by
          omega
        rw [hval, hofnat]

lemma pctTokens_clean_append (a b : List Char) (ha : ∀ c ∈ a, c ≠ '%') :
    pctTokens (a ++ b) = (pctTokens b).map (a.map PctTok.ch ++ ·) := by
  induction a with
  | nil =>
    simp only [List.map_nil, List.nil_append]
    cases pctTokens b <;> simp
  | cons c a ih =>
    rw [List.cons_append, pctTokens_cons_ne c _ (ha c (by simp)),
      ih fun d hd => ha d (by simp [hd])]
    cases pctTokens b <;> simp

lemma decodeURIComponentL_append_clean (a b : List Char) (ha : ∀ c ∈ a, c ≠ '%') :
    decodeURIComponentL (a ++ b) = (decodeURIComponentL b).map (a ++ ·) := by
  rw [decodeURIComponentL, decodeURIComponentL, pctTokens_clean_append a b ha]
  cases pctTokens b with
  | none => rfl
  | some ts => simp [pctAssemble_ch_span]

lemma decode_clean (v : List Char) (hv : ∀ c ∈ v, c ≠ '%') :
    decodeURIComponentL v = some v := by
  have h := decodeURIComponentL_append_clean v [] hv
  rw [List.append_nil] at h
  rw [h, show decodeURIComponentL [] = some [] from rfl]
  simp

lemma encodeURIComponentL_cons (c : Char) (v : List Char) :
    encodeURIComponentL (c :: v) =
      (if isUriUnreserved c then [c] else (utf8Encode c.toNat).flatMap pctByte) ++
        encodeURIComponentL v := by
  simp [encodeURIComponentL]

lemma encodeURIComponentL_cons_ne_nil (c : Char) (v : List Char) :
    encodeURIComponentL (c :: v) ≠ [] := by
  rw [encodeURIComponentL_cons]
  by_cases hu : isUriUnreserved c
  · simp [hu]
  · rw [if_neg hu, utf8Encode]
    split_ifs <;> simp [pctByte]

lemma pctTokens_bytes (bs : List Nat) (h : ∀ x ∈ bs, x < 256) (b : List Char) :
    pctTokens (bs.flatMap pctByte ++ b) = (pctTokens b).map (bs.map PctTok.byte ++ ·) := by
  induction bs with
  | nil =>
    simp only [List.map_nil, List.nil_append, List.flatMap_nil]
    cases pctTokens b <;> simp
  | cons x bs ih =>
    rw [List.flatMap_cons, List.append_assoc, pctTokens_pctByte x (h x (by simp)) _,
      ih fun y hy => h y (by simp [hy])]
    cases pctTokens b <;> simp

lemma decode_enc_char (c : Char) (b : List Char) :
    decodeURIComponentL
        ((if isUriUnreserved c then [c] else (utf8Encode c.toNat).flatMap pctByte) ++ b) =
      (decodeURIComponentL b).map (c :: ·) := by
  by_cases hu : isUriUnreserved c
  · rw [if_pos hu]
    have hne : ∀ d ∈ [c], d ≠ '%' := by
      intro d hd
      simp only [List.mem_singleton] at hd
      subst hd
      intro he
      subst he
      exact absurd hu (by decide)
    rw [decodeURIComponentL_append_clean [c] b hne]
    cases decodeURIComponentL b <;> simp
  · rw [if_neg hu, decodeURIComponentL, decodeURIComponentL,
      pctTokens_bytes _ (fun y hy => utf8Encode_lt256 c.toNat (char_toNat_lt c) y hy) b]
    cases pctTokens b with
    | none => rfl
    | some ts => simp [pctAssemble_utf8Char]

lemma decode_enc_append (v b : List Char) :
    decodeURIComponentL (encodeURIComponentL v ++ b) = (decodeURIComponentL b).map (v ++ ·) := by
  induction v with
  | nil =>
    rw [show encodeURIComponentL [] = [] from rfl, List.nil_append]
    cases decodeURIComponentL b <;> simp
  | cons c v ih =>
    rw [encodeURIComponentL_cons, List.append_assoc, decode_enc_char c _, ih]
    cases decodeURIComponentL b <;> simp

/-- Safe literal spans have no `%`. -/
lemma safeLit_span_clean (l : List Char) (hl : ∀ c ∈ l, isSafeLitChar c = true) :
    ∀ c ∈ l, c ≠ '%' := fun c hc =>
  safeLit_ne c (hl c hc) '%' (by simp [show ('%' : Char).toNat = 0x25 from rfl])

lemma decode_seg (s : Seg) (vf : String → String) (hs : s.valid) (b : List Char) :
    decodeURIComponentL (s.renderEnc vf ++ b) =
      (decodeURIComponentL b).map (s.renderDec vf ++ ·) := by
  cases s with
  | lit l =>
    exact decodeURIComponentL_append_clean l b (safeLit_span_clean l hs.2.1)
  | pref l name =>
    rw [Seg.renderEnc, List.append_assoc,
      decodeURIComponentL_append_clean l _ (safeLit_span_clean l hs.1),
      decode_enc_append]
    rw [Seg.renderDec]
    cases decodeURIComponentL b <;> simp

lemma decode_path_aux (vf : String → String) (segs : List Seg)
    (hs : ∀ s ∈ segs, s.valid) (hne : segs ≠ []) (b : List Char) :
    decodeURIComponentL (renderEncPath vf segs ++ b) =
      (decodeURIComponentL b).map (renderDecPath vf segs ++ ·) := by
  induction segs with
  | nil => exact absurd rfl hne
  | cons s rest ih =>
    cases rest with
    | nil =>
      rw [renderEncPath, List.map_cons, List.map_nil, intercalate_single,
        renderDecPath, List.map_cons, List.map_nil, intercalate_single]
      exact decode_seg s vf (hs s (by simp)) b
    | cons s2 rest2 =>
      rw [renderEncPath, List.map_cons, List.map_cons, intercalate_cons_cons,
        List.append_assoc, List.append_assoc, decode_seg s vf (hs s (by simp)),
        decodeURIComponentL_append_clean ['/'] _ (by intro d hd; simp at hd; subst hd; decide)]
      rw [show List.intercalate ['/'] (Seg.renderEnc vf s2 :: List.map (Seg.renderEnc vf) rest2) =
        renderEncPath vf (s2 :: rest2) from rfl,
        ih (fun t ht => hs t (by simp [ht])) (by simp)]
      have hr : renderDecPath vf (s :: s2 :: rest2) =
          Seg.renderDec vf s ++ '/' :: renderDecPath vf (s2 :: rest2) := by
        rw [renderDecPath, List.map_cons, List.map_cons, intercalate_cons_cons]
        rw [show List.intercalate ['/'] (Seg.renderDec vf s2 :: List.map (Seg.renderDec vf) rest2) =
          renderDecPath vf (s2 :: rest2) from rfl]
        simp
      rw [hr]
      cases decodeURIComponentL b <;> simp

/-- The substituted path percent-decodes to the raw-value path. -/
lemma decode_renderEncPath (vf : String → String) (segs : List Seg)
    (hs : ∀ s ∈ segs, s.valid) (hne : segs ≠ []) :
    decodeURIComponentL (renderEncPath vf segs) = some (renderDecPath vf segs) := by
  have h := decode_path_aux vf segs hs hne []
  rw [List.append_nil] at h
  rw [h, show decodeURIComponentL [] = some [] from rfl]
  simp

/-! ## Round trip (C1): pattern compilation -/

lemma segScan_lbracket (t : List Char) : segScan ('[' :: t) = segScan.segScanName [] t := rfl

lemma segScanName_close (acc rest : List Char) :
    segScan.segScanName acc (']' :: rest) = .lit [] :: .par acc.reverse :: segScan rest := rfl

lemma segScanName_cons_ne (acc : List Char) (c : Char) (t : List Char) (hc : c ≠ ']') :
    segScan.segScanName acc (c :: t) = segScan.segScanName (c :: acc) t := by
  simp [segScan.segScanName, hc]

lemma segScan_cons_ne (c : Char) (t : List Char) (hc : c ≠ '[') :
    segScan (c :: t) = match segScan t with
      | .lit l :: more => .lit (c :: l) :: more
      | more => .lit [c] :: more := by
  simp [segScan, hc]

lemma segScanName_go (name : List Char) (acc rest : List Char)
    (hn : ∀ c ∈ name, c ≠ ']') :
    segScan.segScanName acc (name ++ ']' :: rest) =
      .lit [] :: .par (acc.reverse ++ name) :: segScan rest := by
  induction name generalizing acc with
  | nil => rw [List.nil_append, segScanName_close, List.append_nil]
  | cons c name ih =>
    rw [List.cons_append, segScanName_cons_ne _ _ _ (hn c (by simp)),
      ih _ fun d hd => hn d (by simp [hd])]
    simp

lemma segScan_prepend (l r : List Char) (hl : ∀ c ∈ l, c ≠ '[') (x : List Char)
    (more : List Piece) (hr : segScan r = .lit x :: more) :
    segScan (l ++ r) = .lit (l ++ x) :: more := by
  induction l with
  | nil => simpa using hr
  | cons c l ih =>
    rw [List.cons_append, segScan_cons_ne c _ (hl c (by simp)),
      ih fun d hd => hl d (by simp [hd])]
    rfl

lemma segScan_clean (l : List Char) (hl : ∀ c ∈ l, c ≠ '[') : segScan l = [.lit l] := by
  have h := segScan_prepend l [] hl [] [] rfl
  simpa using h

lemma segScan_token (l name : List Char) (hl : ∀ c ∈ l, c ≠ '[')
    (hn : ∀ c ∈ name, c ≠ ']') :
    segScan (l ++ '[' :: (name ++ [']'])) = [.lit l, .par name, .lit []] := by
  have hbr : segScan ('[' :: (name ++ [']'])) = .lit [] :: .par name :: [.lit []] := by
    rw [segScan_lbracket, show name ++ [']'] = name ++ ']' :: [] from rfl,
      segScanName_go name [] [] hn]
    rfl
  have h := segScan_prepend l _ hl [] (.par name :: [.lit []]) hbr
  simpa using h

lemma segScan_render (s : Seg) (hs : s.valid) : segScan s.render = segPieceOf s := by
  cases s with
  | lit l =>
    exact segScan_clean l fun c hc => safeLit_ne c (hs.2.1 c hc) '[' (by decide)
  | pref l name =>
    rw [Seg.render]
    exact segScan_token l name (fun c hc => safeLit_ne c (hs.1 c hc) '[' (by decide))
      (fun c hc => (wordChar_facts c (hs.2.2 c hc)).2.1)

lemma pieceNames_segPieceOf (s : Seg) : pieceNames (segPieceOf s) = s.names := by
  cases s <;> rfl

lemma mem_intercalate_sep {α : Type} (sep : α) (parts : List (List α)) (c : α)
    (hc : c ∈ List.intercalate [sep] parts) : c = sep ∨ ∃ p ∈ parts, c ∈ p := by
  induction parts with
  | nil => simp [List.intercalate] at hc
  | cons p rest ih =>
    cases rest with
    | nil =>
      rw [intercalate_single] at hc
      exact Or.inr ⟨p, by simp, hc⟩
    | cons q rest2 =>
      rw [intercalate_cons_cons] at hc
      simp only [List.mem_append, List.mem_singleton] at hc
      rcases hc with (hc | hc) | hc
      · exact Or.inr ⟨p, by simp, hc⟩
      · exact Or.inl hc
      · rcases ih hc with h | ⟨q2, hq2, hcq⟩
        · exact Or.inl h
        · exact Or.inr ⟨q2, by simp [hq2], hcq⟩

lemma render_char_class (s : Seg) (hs : s.valid) (c : Char) (hc : c ∈ s.render) :
    isSafeLitChar c = true ∨ isWordChar c = true ∨ c = '[' ∨ c = ']' := by
  cases s with
  | lit l => exact Or.inl (hs.2.1 c hc)
  | pref l name =>
    rw [Seg.render] at hc
    simp only [List.mem_append, List.mem_cons, List.not_mem_nil, or_false] at hc
    rcases hc with hc | hc | hc | hc
    · exact Or.inl (hs.1 c hc)
    · exact Or.inr (Or.inr (Or.inl hc))
    · exact Or.inr (Or.inl (hs.2.2 c hc))
    · exact Or.inr (Or.inr (Or.inr hc))

lemma wordChar_not_ws (c : Char) (h : isWordChar c = true) : isJsWs c = false := by
  simp only [isWordChar, decide_eq_true_eq] at h
  rw [Bool.eq_false_iff]
  intro hw
  simp only [isJsWs, decide_eq_true_eq] at hw
  omega

lemma renderPattern_no_ws (segs : List Seg) (hv : ∀ s ∈ segs, s.valid) :
    ∀ c ∈ (renderPattern segs).data, isJsWs c = false := by
  intro c hc
  have hc2 : c ∈ List.intercalate ['/'] (segs.map Seg.render) := hc
  rcases mem_intercalate_sep '/' _ c hc2 with h | ⟨p, hp, hcp⟩
  · subst h
    decide
  · rw [List.mem_map] at hp
    obtain ⟨s, hsin, rfl⟩ := hp
    rcases render_char_class s (hv s hsin) c hcp with h | h | h | h
    · exact safeLit_not_ws c h
    · exact wordChar_not_ws c h
    · subst h
      decide
    · subst h
      decide

lemma jsTrimL_of_no_ws (s : List Char) (h : ∀ c ∈ s, isJsWs c = false) : jsTrimL s = s := by
  rw [jsTrimL, dropWhile_of_none _ _ h, dropWhile_of_none, List.reverse_reverse]
  intro c hc
  exact h c (List.mem_reverse.mp hc)

lemma containsStr_cons (c : Char) (t pat : List Char) :
    containsStr (c :: t) pat = (pat.isPrefixOf (c :: t) || containsStr t pat) := rfl

lemma dd_not_prefix_of_ne (c : Char) (t : List Char) (hc : c ≠ '/') :
    List.isPrefixOf ['/', '/'] (c :: t) = false := by
  simp only [List.isPrefixOf, Bool.and_eq_false_iff]
  left
  simp [beq_eq_false_iff_ne]
  exact fun h => hc h.symm

lemma containsStr_append_no (p x : List Char) (hp : ∀ c ∈ p, c ≠ '/')
    (hx : containsStr x ['/', '/'] = false) :
    containsStr (p ++ x) ['/', '/'] = false := by
  induction p with
  | nil => simpa using hx
  | cons c p ih =>
    rw [List.cons_append, containsStr_cons, dd_not_prefix_of_ne c _ (hp c (by simp)),
      ih fun d hd => hp d (by simp [hd])]
    rfl

lemma containsStr_slash_cons (x : List Char) (hx0 : ∀ t, x ≠ '/' :: t)
    (hx : containsStr x ['/', '/'] = false) :
    containsStr ('/' :: x) ['/', '/'] = false := by
  rw [containsStr_cons, hx]
  cases x with
  | nil => rfl
  | cons c t =>
    have hc : c ≠ '/' := fun h => hx0 t (by rw [h])
    simp only [List.isPrefixOf, Bool.or_false]
    simp [beq_eq_false_iff_ne]
    intro h
    exact absurd h.symm hc

lemma containsStr_intercalate_dd (parts : List (List Char))
    (h1 : ∀ p ∈ parts, p ≠ [] ∧ ∀ c ∈ p, c ≠ '/') :
    containsStr (List.intercalate ['/'] parts) ['/', '/'] = false := by
  induction parts with
  | nil => rfl
  | cons p rest ih =>
    cases rest with
    | nil =>
      rw [intercalate_single]
      have h := containsStr_append_no p [] (h1 p (by simp)).2 rfl
      simpa using h
    | cons q rest2 =>
      rw [intercalate_cons_cons, List.append_assoc, List.singleton_append]
      apply containsStr_append_no p _ (h1 p (by simp)).2
      have hq := h1 q (by simp)
      have hI := ih fun r hr => h1 r (by simp [hr])
      apply containsStr_slash_cons _ _ hI
      obtain ⟨c, q2, rfl⟩ := List.exists_cons_of_ne_nil hq.1
      intro t ht
      cases rest2 with
      | nil =>
        rw [intercalate_single] at ht
        exact hq.2 c (by simp) ((List.cons_eq_cons.mp ht).1)
      | cons r rest3 =>
        rw [intercalate_cons_cons, List.cons_append, List.cons_append] at ht
        exact hq.2 c (by simp) ((List.cons_eq_cons.mp ht).1)

lemma intercalate_head (p : List Char) (rest : List (List Char)) (hp : p ≠ []) :
    (List.intercalate ['/'] (p :: rest)).head? = p.head? := by
  obtain ⟨c, p2, rfl⟩ := List.exists_cons_of_ne_nil hp
  cases rest with
  | nil => rw [intercalate_single]
  | cons q rest2 =>
    rw [intercalate_cons_cons]
    simp

lemma intercalate_ne_nil (p : List Char) (rest : List (List Char)) (hp : p ≠ []) :
    List.intercalate ['/'] (p :: rest) ≠ [] := by
  intro h
  have h2 := intercalate_head p rest hp
  rw [h] at h2
  obtain ⟨c, p2, rfl⟩ := List.exists_cons_of_ne_nil hp
  simp at h2

lemma intercalate_last_ne_slash (parts : List (List Char)) (hne : parts ≠ [])
    (h1 : ∀ p ∈ parts, p ≠ [] ∧ p.getLast? ≠ some '/') :
    (List.intercalate ['/'] parts).getLast? ≠ some '/' := by
  induction parts with
  | nil => exact absurd rfl hne
  | cons p rest ih =>
    cases rest with
    | nil =>
      rw [intercalate_single]
      exact (h1 p (by simp)).2
    | cons q rest2 =>
      rw [intercalate_cons_cons, List.append_assoc]
      rw [List.getLast?_append_of_ne_nil _ (by
        intro h
        simp only [List.singleton_append] at h
        exact absurd h (by simp))]
      rw [List.singleton_append,
        show ('/' :: List.intercalate ['/'] (q :: rest2)) =
          ['/'] ++ List.intercalate ['/'] (q :: rest2) from rfl,
        List.getLast?_append_of_ne_nil _ (intercalate_ne_nil q rest2 (h1 q (by simp)).1)]
      exact ih (by simp) fun r hr => h1 r (by simp [hr])

lemma render_last_ne_slash (s : Seg) (hs : s.valid) : s.render.getLast? ≠ some '/' := by
  cases s with
  | lit l =>
    intro h
    exact absurd rfl (safeLit_ne '/' (hs.2.1 '/' (List.mem_of_mem_getLast? h)) '/' (by decide))
  | pref l name =>
    rw [Seg.render, List.getLast?_append_of_ne_nil _ (by simp),
      show ('[' :: (name ++ [']'])) = ('[' :: name) ++ [']'] from rfl,
      List.getLast?_append_of_ne_nil _ (by simp)]
    simp

lemma render_ne_nil (s : Seg) (hs : s.valid) : s.render ≠ [] := by
  cases s with
  | lit l => exact hs.1
  | pref l name =>
    rw [Seg.render]
    intro h
    exact List.cons_ne_nil _ _ (List.append_eq_nil.mp h).2

lemma render_head_ne_slash (s : Seg) (hs : s.valid) : s.render.head? ≠ some '/' := by
  cases s with
  | lit l =>
    intro h
    rw [show (Seg.lit l).render = l from rfl] at h
    cases l with
    | nil => simp at h
    | cons c t =>
      have h2 : c = '/' := by simpa using h
      subst h2
      exact absurd rfl (safeLit_ne '/' (hs.2.1 '/' (by simp)) '/' (by decide))
  | pref l name =>
    intro h
    rw [Seg.render] at h
    cases l with
    | nil =>
      have h2 : '[' = '/' := by simpa using h
      exact absurd h2 (by decide)
    | cons c t =>
      have h2 : c = '/' := by simpa using h
      subst h2
      exact absurd rfl (safeLit_ne '/' (hs.1 '/' (by simp)) '/' (by decide))

lemma renderPattern_parts_facts (segs : List Seg) (hv : ∀ s ∈ segs, s.valid) :
    ∀ p ∈ segs.map Seg.render, p ≠ [] ∧ ∀ c ∈ p, c ≠ '/' := by
  intro p hp
  rw [List.mem_map] at hp
  obtain ⟨s, hsin, rfl⟩ := hp
  refine ⟨render_ne_nil s (hv s hsin), ?_⟩
  intro c hc
  rcases render_char_class s (hv s hsin) c hc with h | h | h | h
  · exact safeLit_ne c h '/' (by decide)
  · exact (wordChar_facts c h).2.2.1
  · subst h
    decide
  · subst h
    decide

lemma splitOnPred_renderPattern (segs : List Seg) (hv : ∀ s ∈ segs, s.valid)
    (hne : segs ≠ []) :
    splitOnPred (· = '/') (renderPattern segs).data = segs.map Seg.render := by
  have hc2 : (renderPattern segs).data = List.intercalate ['/'] (segs.map Seg.render) := rfl
  rw [hc2]
  apply splitOnPred_intercalate
  · simp
  · intro q hq c hcq
    have hcc := (renderPattern_parts_facts segs hv q hq).2 c hcq
    simp [hcc]
  · simp [hne]

lemma flatMap_pieceNames (segs : List Seg) :
    (segs.map segPieceOf).flatMap pieceNames = segNames segs := by
  induction segs with
  | nil => rfl
  | cons s rest ih =>
    simp only [List.map_cons, List.flatMap_cons, pieceNames_segPieceOf, ih, segNames]

/-- `pathToRegex` compiles a rendered restricted pattern without error, into
the per-segment pieces and the parameter names in order. -/
lemma pathToRegex_render (segs : List Seg) (h : ValidSegs segs) :
    pathToRegex (renderPattern segs) =
      .ok { segPieces := segs.map segPieceOf, paramNames := segNames segs } := by
  obtain ⟨hne, hv, -⟩ := h
  have hparts := renderPattern_parts_facts segs hv
  have htrim : jsTrim (renderPattern segs) = renderPattern segs := by
    rw [jsTrim, jsTrimL_of_no_ws _ (renderPattern_no_ws segs hv)]
  have hdd : containsStr (renderPattern segs).data ['/', '/'] = false :=
    containsStr_intercalate_dd _ hparts
  have hws : (renderPattern segs).data.any isJsWs = false := by
    rw [List.any_eq_false]
    intro c hc
    simp [renderPattern_no_ws segs hv c hc]
  have hhead : ¬ ((renderPattern segs).data.head? = some '/') := by
    obtain ⟨s, rest, rfl⟩ := List.exists_cons_of_ne_nil hne
    have e : (renderPattern (s :: rest)).data =
        List.intercalate ['/'] (Seg.render s :: rest.map Seg.render) := rfl
    rw [e, intercalate_head _ _ (render_ne_nil s (hv s (by simp)))]
    exact render_head_ne_slash s (hv s (by simp))
  have hlast : ¬ ((renderPattern segs).data.getLast? = some '/' ∧ renderPattern segs ≠ "") := by
    intro hcon
    refine intercalate_last_ne_slash (segs.map Seg.render) (by simp [hne]) ?_ hcon.1
    intro p hp
    refine ⟨(hparts p hp).1, ?_⟩
    rw [List.mem_map] at hp
    obtain ⟨s, hsin, rfl⟩ := hp
    exact render_last_ne_slash s (hv s hsin)
  have hmap : (segs.map Seg.render).map segScan = segs.map segPieceOf := by
    rw [List.map_map]
    exact List.map_congr_left fun s hs => segScan_render s (hv s hs)
  rw [pathToRegex, htrim, if_neg (by simp [hdd]), if_neg (by simp [hws]),
    if_neg hhead, if_neg hlast, splitOnPred_renderPattern segs hv hne, hmap]
  simp only [flatMap_pieceNames]

/-- `extractParamNames` on a rendered restricted pattern yields the parameter
names in order. -/
lemma extractParamNames_render (segs : List Seg) (h : ValidSegs segs) :
    extractParamNames (renderPattern segs) = segNames segs := by
  obtain ⟨hne, hv, -⟩ := h
  have hmap : (segs.map Seg.render).map segScan = segs.map segPieceOf := by
    rw [List.map_map]
    exact List.map_congr_left fun s hs => segScan_render s (hv s hs)
  rw [extractParamNames, splitOnPred_renderPattern segs hv hne, hmap, flatMap_pieceNames]

/-! ## Round trip (C1): matching the decoded path -/

lemma renderDecPath_cons_cons (vf : String → String) (s s2 : Seg) (rest : List Seg) :
    renderDecPath vf (s :: s2 :: rest) =
      Seg.renderDec vf s ++ '/' :: renderDecPath vf (s2 :: rest) := by
  rw [renderDecPath, List.map_cons, List.map_cons, intercalate_cons_cons]
  rw [show List.intercalate ['/'] (Seg.renderDec vf s2 :: List.map (Seg.renderDec vf) rest) =
    renderDecPath vf (s2 :: rest) from rfl]
  simp

lemma renderEncPath_cons_cons (vf : String → String) (s s2 : Seg) (rest : List Seg) :
    renderEncPath vf (s :: s2 :: rest) =
      Seg.renderEnc vf s ++ '/' :: renderEncPath vf (s2 :: rest) := by
  rw [renderEncPath, List.map_cons, List.map_cons, intercalate_cons_cons]
  rw [show List.intercalate ['/'] (Seg.renderEnc vf s2 :: List.map (Seg.renderEnc vf) rest) =
    renderEncPath vf (s2 :: rest) from rfl]
  simp

lemma matchPieces_nil_eq (s : List Char) :
    matchPieces [] s = if s.isEmpty then some [] else none := rfl

lemma matchPieces_lit (l : List Char) (ps : List Piece) (s : List Char) :
    matchPieces (.lit l :: ps) s =
      if l.isPrefixOf s then matchPieces ps (s.drop l.length) else none := rfl

lemma matchPieces_par (n : List Char) (ps : List Piece) (s : List Char) :
    matchPieces (.par n :: ps) s =
      tryLens (fun s2 => matchPieces ps s2) s ((s.takeWhile (· ≠ '/')).length) := rfl

lemma tryLens_succ (f : List Char → Option (List String)) (s : List Char) (k : Nat) :
    tryLens f s (k + 1) =
      match f (s.drop (k + 1)) with
      | some caps => some ((⟨s.take (k + 1)⟩ : String) :: caps)
      | none => tryLens f s k := rfl

lemma isPrefixOf_append_self (l x : List Char) : l.isPrefixOf (l ++ x) = true := by
  rw [List.isPrefixOf_iff_prefix]
  exact List.prefix_append l x

lemma takeWhile_append_all (p : Char → Bool) (v t : List Char) (h : ∀ c ∈ v, p c = true) :
    (v ++ t).takeWhile p = v ++ t.takeWhile p := by
  induction v with
  | nil => simp
  | cons c v ih =>
    rw [List.cons_append, List.takeWhile_cons, if_pos (by simp [h c (by simp)]),
      ih fun d hd => h d (by simp [hd])]
    rfl

/-- Matching one rendered segment's pieces against its raw-value text, with an
arbitrary continuation: the greedy group captures exactly the value. -/
lemma match_seg (s : Seg) (vf : String → String) (hs : s.valid)
    (hv : ∀ st ∈ s.names, ValidValue (vf st))
    (ps : List Piece) (t : List Char) (caps : List String)
    (hshape : t = [] ∨ ∃ t2, t = '/' :: t2)
    (hcont : matchPieces ps t = some caps) :
    matchPieces (segPieceOf s ++ ps) (s.renderDec vf ++ t) =
      some (s.names.map vf ++ caps) := by
  cases s with
  | lit l =>
    rw [segPieceOf, Seg.renderDec, List.cons_append, List.nil_append, matchPieces_lit,
      if_pos (isPrefixOf_append_self l t), List.drop_left, hcont]
    rfl
  | pref l name =>
    have hval := hv ⟨name⟩ (by rw [Seg.names]; simp)
    obtain ⟨hvne, hvchars, -, -⟩ := hval
    set v : List Char := (vf ⟨name⟩).data with hvdef
    have hvnil : v ≠ [] := fun hh => hvne (String.ext hh)
    have hslash : ∀ c ∈ v, c ≠ '/' := fun c hc => (hvchars c hc).1
    rw [segPieceOf, Seg.renderDec, List.cons_append, List.cons_append, List.singleton_append,
      List.append_assoc, matchPieces_lit, if_pos (isPrefixOf_append_self l _),
      List.drop_left, matchPieces_par]
    have htw : ((v ++ t).takeWhile (· ≠ '/')).length = v.length := by
      rw [takeWhile_append_all _ v t (by intro c hc; simp [hslash c hc])]
      have ht0 : t.takeWhile (fun c => decide (c ≠ '/')) = [] := by
        rcases hshape with rfl | ⟨t2, rfl⟩
        · rfl
        · rw [List.takeWhile_cons, if_neg (by simp)]
      rw [ht0, List.append_nil]
    rw [htw]
    obtain ⟨c0, v2, hv2⟩ := List.exists_cons_of_ne_nil hvnil
    have hlen : v.length = v2.length + 1 := by rw [hv2]; simp
    rw [hlen, tryLens_succ, ← hlen]
    have hdropv : (v ++ t).drop v.length = t := List.drop_left v t
    have htakev : (v ++ t).take v.length = v := List.take_left v t
    rw [hdropv, htakev]
    have hcont0 : matchPieces (Piece.lit [] :: ps) t = some caps := by
      rw [matchPieces_lit, if_pos (by simp [List.isPrefixOf])]
      exact hcont
    rw [hcont0]
    rw [Seg.names, List.map_cons, List.map_nil]
    rfl

/-- The compiled pieces of a valid pattern match the decoded substituted path,
capturing the values in parameter order. -/
lemma match_path (vf : String → String) (segs : List Seg)
    (hs : ∀ s ∈ segs, s.valid) (hvals : ∀ n ∈ segNames segs, ValidValue (vf n))
    (hne : segs ≠ []) :
    matchPieces (flatPieces (segs.map segPieceOf)) (renderDecPath vf segs) =
      some ((segNames segs).map vf) := by
  induction segs with
  | nil => exact absurd rfl hne
  | cons s rest ih =>
    cases rest with
    | nil =>
      rw [show flatPieces ([s].map segPieceOf) = segPieceOf s from by
        rw [List.map_cons, List.map_nil, flatPieces, intercalate_single]]
      rw [show renderDecPath vf [s] = s.renderDec vf from by
        rw [renderDecPath, List.map_cons, List.map_nil, intercalate_single]]
      have h := match_seg s vf (hs s (by simp))
        (fun st hst => hvals st (by rw [segNames]; simp [hst])) [] [] []
        (Or.inl rfl) rfl
      rw [show segNames [s] = s.names from by rw [segNames]; simp]
      simpa using h
    | cons s2 rest2 =>
      rw [show flatPieces ((s :: s2 :: rest2).map segPieceOf) =
          segPieceOf s ++ (Piece.lit ['/'] :: flatPieces ((s2 :: rest2).map segPieceOf)) from by
        rw [List.map_cons, List.map_cons, flatPieces, intercalate_cons_cons,
          List.append_assoc, List.singleton_append]
        rfl]
      rw [renderDecPath_cons_cons]
      have hcont : matchPieces (Piece.lit ['/'] :: flatPieces ((s2 :: rest2).map segPieceOf))
          ('/' :: renderDecPath vf (s2 :: rest2)) =
            some ((segNames (s2 :: rest2)).map vf) := by
        rw [matchPieces_lit, show List.isPrefixOf ['/'] ('/' :: renderDecPath vf (s2 :: rest2)) =
          true from by simp [List.isPrefixOf]]
        rw [if_pos rfl, show ('/' :: renderDecPath vf (s2 :: rest2)).drop
          (['/'].length) = renderDecPath vf (s2 :: rest2) from rfl]
        exact ih (fun q hq => hs q (by simp [hq]))
          (fun n hn => hvals n (by rw [segNames] at hn ⊢; simp at hn ⊢; tauto)) (by simp)
      have h := match_seg s vf (hs s (by simp))
        (fun st hst => hvals st (by rw [segNames]; simp [hst]))
        _ _ _ (Or.inr ⟨renderDecPath vf (s2 :: rest2), rfl⟩) hcont
      rw [h]
      rw [show segNames (s :: s2 :: rest2) = s.names ++ segNames (s2 :: rest2) from by
        rw [segNames, segNames, List.flatMap_cons]]
      rw [List.map_append]

/-! ## Round trip (C1): `buildPath` token substitution -/

lemma rendUnits_nil : rendUnits [] = [] := rfl

lemma rendUnits_cons (u : RUnit) (us : List RUnit) :
    rendUnits (u :: us) = u.render ++ rendUnits us := by
  simp [rendUnits]

lemma rendUnits_append (a b : List RUnit) :
    rendUnits (a ++ b) = rendUnits a ++ rendUnits b := by
  simp [rendUnits]

lemma tokOf_render (m : List Char) : (RUnit.tokenB m).render = tokOf m := rfl

lemma findOccIdx_nil_eq (sep : List Char) :
    findOccIdx sep [] = if sep.isEmpty then some 0 else none := rfl

lemma findOccIdx_cons_eq (sep : List Char) (c : Char) (rest : List Char) :
    findOccIdx sep (c :: rest) =
      if sep.isPrefixOf (c :: rest) then some 0
      else (findOccIdx sep rest).map (· + 1) := rfl

lemma tok_prefix_false_of_ne (k : List Char) (c : Char) (t : List Char) (hc : c ≠ '[') :
    (tokOf k).isPrefixOf (c :: t) = false := by
  rw [tokOf]
  simp only [List.isPrefixOf, Bool.and_eq_false_iff]
  left
  simp [beq_eq_false_iff_ne]
  exact fun h => hc h.symm

/-- Token texts for distinct `\w+` names never overlap. -/
lemma tok_body_not_prefix (k m : List Char) (hk : ∀ c ∈ k, isWordChar c = true)
    (hm : ∀ c ∈ m, isWordChar c = true) (hne : m ≠ k) (rest : List Char) :
    (k ++ [']']).isPrefixOf (m ++ ']' :: rest) = false := by
  induction k generalizing m with
  | nil =>
    cases m with
    | nil => exact absurd rfl hne
    | cons c m2 =>
      simp only [List.nil_append, List.cons_append, List.isPrefixOf, Bool.and_eq_false_iff]
      left
      simp [beq_eq_false_iff_ne]
      exact fun h => (wordChar_facts c (hm c (by simp))).2.1 h.symm
  | cons a k2 ih =>
    cases m with
    | nil =>
      simp only [List.cons_append, List.nil_append, List.isPrefixOf, Bool.and_eq_false_iff]
      left
      simp [beq_eq_false_iff_ne]
      exact fun h => (wordChar_facts a (hk a (by simp))).2.1 h
    | cons c m2 =>
      simp only [List.cons_append, List.isPrefixOf, Bool.and_eq_false_iff]
      by_cases hac : a = c
      · subst hac
        right
        exact ih m2 (fun d hd => hk d (by simp [hd])) (fun d hd => hm d (by simp [hd]))
          (fun h => hne (by rw [h]))
      · left
        simp [beq_eq_false_iff_ne]
        exact fun h => hac h

lemma tok_not_prefix_tok (k m : List Char) (hk : ∀ c ∈ k, isWordChar c = true)
    (hm : ∀ c ∈ m, isWordChar c = true) (hne : m ≠ k) (rest : List Char) :
    (tokOf k).isPrefixOf ('[' :: (m ++ ']' :: rest)) = false := by
  rw [tokOf]
  simp only [List.isPrefixOf, Bool.and_eq_false_iff]
  right
  exact tok_body_not_prefix k m hk hm hne rest

lemma tok_prefix_self (k : List Char) (rest : List Char) :
    (tokOf k).isPrefixOf ('[' :: (k ++ ']' :: rest)) = true := by
  have e : '[' :: (k ++ ']' :: rest) = tokOf k ++ rest := by
    rw [tokOf]
    simp
  rw [e]
  exact isPrefixOf_append_self _ _

lemma findOccIdx_skip (k p rest : List Char) (hp : ∀ c ∈ p, c ≠ '[') :
    findOccIdx (tokOf k) (p ++ rest) = (findOccIdx (tokOf k) rest).map (· + p.length) := by
  induction p with
  | nil =>
    simp only [List.nil_append, List.length_nil]
    cases h : findOccIdx (tokOf k) rest <;> simp [h]
  | cons c p2 ih =>
    rw [List.cons_append, findOccIdx_cons_eq,
      if_neg (by simp [tok_prefix_false_of_ne k c _ (hp c (by simp))]),
      ih fun d hd => hp d (by simp [hd])]
    cases findOccIdx (tokOf k) rest <;> simp
    omega

lemma findOccIdx_skip_tok (k m rest : List Char) (hk : ∀ c ∈ k, isWordChar c = true)
    (hm : ∀ c ∈ m, isWordChar c = true) (hne : m ≠ k) :
    findOccIdx (tokOf k) ('[' :: (m ++ ']' :: rest)) =
      (findOccIdx (tokOf k) rest).map (· + (m.length + 2)) := by
  rw [findOccIdx_cons_eq, if_neg (by simp [tok_not_prefix_tok k m hk hm hne rest])]
  rw [findOccIdx_skip k m (']' :: rest) fun c hc =>
    fun h => absurd h (wordChar_facts c (hm c hc)).1]
  rw [findOccIdx_cons_eq, if_neg (by simp [tok_prefix_false_of_ne k ']' rest (by decide)])]
  cases findOccIdx (tokOf k) rest <;> simp
  omega

lemma findOccIdx_at_tok (k rest : List Char) :
    findOccIdx (tokOf k) ('[' :: (k ++ ']' :: rest)) = some 0 := by
  rw [findOccIdx_cons_eq, if_pos (by simp [tok_prefix_self k rest])]

/-- No occurrence of the token text when the unit list has no matching token. -/
lemma findOcc_units_none (k : List Char) (hk : ∀ c ∈ k, isWordChar c = true)
    (us : List RUnit) (hc : CleanUnits us) (hno : RUnit.tokenB k ∉ us) :
    findOccIdx (tokOf k) (rendUnits us) = none := by
  induction us with
  | nil => simp [rendUnits_nil, findOccIdx_nil_eq, tokOf]
  | cons u us ih =>
    have htail := ih (fun v hv => hc v (by simp [hv])) (fun h => hno (by simp [h]))
    cases u with
    | plain p =>
      rw [rendUnits_cons, show (RUnit.plain p).render = p from rfl,
        findOccIdx_skip k p _ (hc (RUnit.plain p) (by simp)), htail]
      rfl
    | tokenB m =>
      have hm := hc (RUnit.tokenB m) (by simp)
      have hmne : m ≠ k := fun h => hno (by simp [h])
      rw [rendUnits_cons, tokOf_render, show tokOf m ++ rendUnits us =
        '[' :: (m ++ ']' :: rendUnits us) from by rw [tokOf]; simp,
        findOccIdx_skip_tok k m _ hk hm.2 hmne, htail]
      rfl

lemma findOcc_units_first (k : List Char) (hk : ∀ c ∈ k, isWordChar c = true)
    (usA usB : List RUnit) (hcA : CleanUnits usA) (hnoA : RUnit.tokenB k ∉ usA) :
    findOccIdx (tokOf k) (rendUnits (usA ++ RUnit.tokenB k :: usB)) =
      some (rendUnits usA).length := by
  induction usA with
  | nil =>
    rw [List.nil_append, rendUnits_cons, tokOf_render, show tokOf k ++ rendUnits usB =
      '[' :: (k ++ ']' :: rendUnits usB) from by rw [tokOf]; simp,
      findOccIdx_at_tok]
    rfl
  | cons u usA ih =>
    have htail := ih (fun v hv => hcA v (by simp [hv])) (fun h => hnoA (by simp [h]))
    cases u with
    | plain p =>
      rw [List.cons_append, rendUnits_cons, show (RUnit.plain p).render = p from rfl,
        findOccIdx_skip k p _ (hcA (RUnit.plain p) (by simp)), htail, rendUnits_cons,
        show (RUnit.plain p).render = p from rfl]
      simp [Nat.add_comm]
    | tokenB m =>
      have hm := hcA (RUnit.tokenB m) (by simp)
      have hmne : m ≠ k := fun h => hnoA (by simp [h])
      rw [List.cons_append, rendUnits_cons, tokOf_render, show tokOf m ++
        rendUnits (usA ++ RUnit.tokenB k :: usB) =
        '[' :: (m ++ ']' :: rendUnits (usA ++ RUnit.tokenB k :: usB)) from by rw [tokOf]; simp,
        findOccIdx_skip_tok k m _ hk hm.2 hmne, htail, rendUnits_cons, tokOf_render, tokOf]
      simp
      omega

lemma splitUnits_ne_nil (k : List Char) (us : List RUnit) : splitUnits k us ≠ [] := by
  induction us with
  | nil => simp [splitUnits]
  | cons u us ih =>
    cases u with
    | plain p =>
      rw [splitUnits]
      obtain ⟨h, t, he⟩ := List.exists_cons_of_ne_nil ih
      rw [he]
      simp
    | tokenB m =>
      rw [splitUnits]
      split
      · simp
      · obtain ⟨h, t, he⟩ := List.exists_cons_of_ne_nil ih
        rw [he]
        simp

lemma splitUnits_no_tok (k : List Char) (us : List RUnit) (hno : RUnit.tokenB k ∉ us) :
    splitUnits k us = [rendUnits us] := by
  induction us with
  | nil => rfl
  | cons u us ih =>
    have htail := ih fun h => hno (by simp [h])
    cases u with
    | plain p =>
      rw [splitUnits, htail, rendUnits_cons]
      rfl
    | tokenB m =>
      have hmne : m ≠ k := fun h => hno (by simp [h])
      rw [splitUnits, if_neg hmne, htail, rendUnits_cons, tokOf_render]

lemma splitUnits_first (k : List Char) (usA usB : List RUnit)
    (hnoA : RUnit.tokenB k ∉ usA) :
    splitUnits k (usA ++ RUnit.tokenB k :: usB) = rendUnits usA :: splitUnits k usB := by
  induction usA with
  | nil =>
    rw [List.nil_append, splitUnits, if_pos rfl, rendUnits_nil]
  | cons u usA ih =>
    have htail := ih fun h => hnoA (by simp [h])
    cases u with
    | plain p =>
      rw [List.cons_append, splitUnits, htail, rendUnits_cons]
      rfl
    | tokenB m =>
      have hmne : m ≠ k := fun h => hnoA (by simp [h])
      rw [List.cons_append, splitUnits, if_neg hmne, htail, rendUnits_cons, tokOf_render]

lemma first_tok_split (k : List Char) (us : List RUnit) (hmem : RUnit.tokenB k ∈ us) :
    ∃ usA usB, us = usA ++ RUnit.tokenB k :: usB ∧ RUnit.tokenB k ∉ usA := by
  induction us with
  | nil => simp at hmem
  | cons u us ih =>
    by_cases hu : u = RUnit.tokenB k
    · exact ⟨[], us, by rw [hu]; rfl, by simp⟩
    · have hmem2 : RUnit.tokenB k ∈ us := by
        rcases List.mem_cons.mp hmem with h | h
        · exact absurd h.symm hu
        · exact h
      obtain ⟨usA, usB, he, hno⟩ := ih hmem2
      refine ⟨u :: usA, usB, by rw [he]; rfl, ?_⟩
      intro h
      rcases List.mem_cons.mp h with h1 | h1
      · exact hu h1.symm
      · exact hno h1

lemma countTok_decompose (k : List Char) (usA usB : List RUnit)
    (hnoA : RUnit.tokenB k ∉ usA) :
    (usA ++ RUnit.tokenB k :: usB).count (RUnit.tokenB k) =
      usB.count (RUnit.tokenB k) + 1 := by
  rw [List.count_append, List.count_cons_self, List.count_eq_zero.mpr hnoA]
  omega

/-- `splitOnStrGo` on the rendered units computes the unit-level split, for any
sufficient fuel. -/
lemma splitGo_units (k : List Char) (hk : ∀ c ∈ k, isWordChar c = true) :
    ∀ (n : Nat) (us : List RUnit), CleanUnits us →
      us.count (RUnit.tokenB k) = n →
      ∀ fuel, (rendUnits us).length ≤ fuel →
        splitOnStrGo (tokOf k) fuel (rendUnits us) = splitUnits k us := by
  intro n
  induction n with
  | zero =>
    intro us hc hcount fuel hfuel
    have hno : RUnit.tokenB k ∉ us := List.count_eq_zero.mp hcount
    have hocc := findOcc_units_none k hk us hc hno
    rw [splitUnits_no_tok k us hno]
    cases fuel with
    | zero => rfl
    | succ f =>
      rw [splitOnStrGo, hocc]
  | succ n ih =>
    intro us hc hcount fuel hfuel
    have hmem : RUnit.tokenB k ∈ us := by
      rw [← List.count_pos_iff]
      omega
    obtain ⟨usA, usB, rfl, hnoA⟩ := first_tok_split k us hmem
    have hcA : CleanUnits usA := fun v hv => hc v (by simp [hv])
    have hcB : CleanUnits usB := fun v hv => hc v (by simp [hv])
    have hcountB : usB.count (RUnit.tokenB k) = n := by
      have := countTok_decompose k usA usB hnoA
      omega
    have hocc := findOcc_units_first k hk usA usB hcA hnoA
    have hlen : (rendUnits (usA ++ RUnit.tokenB k :: usB)).length =
        (rendUnits usA).length + (k.length + 2) + (rendUnits usB).length := by
      rw [rendUnits_append, rendUnits_cons, tokOf_render, tokOf]
      simp
      omega
    cases fuel with
    | zero => omega
    | succ f =>
      rw [splitOnStrGo]
      simp only [hocc]
      have he : rendUnits (usA ++ RUnit.tokenB k :: usB) =
          (rendUnits usA ++ tokOf k) ++ rendUnits usB := by
        rw [rendUnits_append, rendUnits_cons, tokOf_render]
        simp
      have htake : (rendUnits (usA ++ RUnit.tokenB k :: usB)).take (rendUnits usA).length =
          rendUnits usA := by
        rw [rendUnits_append, rendUnits_cons, tokOf_render, ← List.append_assoc]
        rw [List.take_append_of_le_length (by simp)]
        exact List.take_left _ _
      have hdrop : (rendUnits (usA ++ RUnit.tokenB k :: usB)).drop
          ((rendUnits usA).length + (tokOf k).length) = rendUnits usB := by
        rw [he, show (rendUnits usA).length + (tokOf k).length =
          (rendUnits usA ++ tokOf k).length from by simp]
        exact List.drop_left _ _
      rw [htake, hdrop, splitUnits_first k usA usB hnoA,
        ih usB hcB hcountB f (by omega)]

lemma splitOnStr_units (k : List Char) (hk : ∀ c ∈ k, isWordChar c = true)
    (us : List RUnit) (hc : CleanUnits us) :
    splitOnStr (tokOf k) (rendUnits us) = splitUnits k us := by
  rw [splitOnStr, if_neg (by simp [tokOf])]
  exact splitGo_units k hk (us.count (RUnit.tokenB k)) us hc rfl _ (le_refl _)

lemma intercalate_cons_head {α : Type} (sep p h : List α) (t : List (List α)) :
    List.intercalate sep ((p ++ h) :: t) = p ++ List.intercalate sep (h :: t) := by
  cases t with
  | nil => rw [intercalate_single, intercalate_single]
  | cons q t2 =>
    rw [intercalate_cons_cons, intercalate_cons_cons]
    simp

/-- Joining the unit-level split with the encoded value is the unit-level
substitution. -/
lemma intercalate_splitUnits (k enc : List Char) (us : List RUnit) :
    List.intercalate enc (splitUnits k us) = rendUnits (substU k enc us) := by
  induction us with
  | nil => rw [splitUnits, intercalate_single, substU, List.map_nil, rendUnits_nil]
  | cons u us ih =>
    obtain ⟨h, t, he⟩ := List.exists_cons_of_ne_nil (splitUnits_ne_nil k us)
    cases u with
    | plain p =>
      rw [splitUnits, he, ← he, show (match splitUnits k us with
        | h :: t => (p ++ h) :: t
        | [] => [p]) = (p ++ h) :: t from by rw [he]]
      rw [intercalate_cons_head, ← he, ih, substU, List.map_cons, rendUnits_cons]
      rfl
    | tokenB m =>
      by_cases hmk : m = k
      · subst hmk
        rw [splitUnits, if_pos rfl]
        rw [show List.intercalate enc ([] :: splitUnits m us) =
          enc ++ List.intercalate enc (splitUnits m us) from by
            rw [he, intercalate_cons_cons]
            simp]
        rw [ih, substU, List.map_cons, rendUnits_cons]
        simp [substU]
        rfl
      · rw [splitUnits, if_neg hmk, he, ← he, show (match splitUnits k us with
          | h :: t => (tokOf m ++ h) :: t
          | [] => [tokOf m]) = (tokOf m ++ h) :: t from by rw [he]]
        rw [intercalate_cons_head, ← he, ih, substU, List.map_cons, rendUnits_cons]
        simp [substU, hmk, tokOf_render]

lemma patUnits_single (f : String → Option (List Char)) (s : Seg) :
    patUnits f [s] = segUnits f s := by
  rw [patUnits, List.map_cons, List.map_nil, intercalate_single]

lemma patUnits_cons_cons (f : String → Option (List Char)) (s s2 : Seg) (rest : List Seg) :
    patUnits f (s :: s2 :: rest) =
      segUnits f s ++ RUnit.plain ['/'] :: patUnits f (s2 :: rest) := by
  rw [patUnits, List.map_cons, List.map_cons, intercalate_cons_cons]
  rw [show List.intercalate [RUnit.plain ['/']]
    (segUnits f s2 :: List.map (segUnits f) rest) = patUnits f (s2 :: rest) from rfl]
  simp

lemma fOf_some (vf : String → String) (K : List String) (n : String) (e : List Char)
    (h : fOf vf K n = some e) : e = encodeURIComponentL (vf n).data := by
  rw [fOf] at h
  split at h
  · injection h with h2
    exact h2.symm
  · exact absurd h (by simp)

lemma mem_intercalate_of_mem {α : Type} (sep : α) (parts : List (List α)) (p : List α)
    (hp : p ∈ parts) (c : α) (hc : c ∈ p) : c ∈ List.intercalate [sep] parts := by
  induction parts with
  | nil => simp at hp
  | cons q rest ih =>
    cases rest with
    | nil =>
      rw [intercalate_single]
      rw [List.mem_singleton] at hp
      rw [← hp]
      exact hc
    | cons r rest2 =>
      rw [intercalate_cons_cons]
      simp only [List.mem_append]
      rcases List.mem_cons.mp hp with h | h
      · exact Or.inl (Or.inl (h ▸ hc))
      · exact Or.inr (ih h)

lemma cleanUnits_patUnits (vf : String → String) (K : List String) (segs : List Seg)
    (hv : ∀ s ∈ segs, s.valid) : CleanUnits (patUnits (fOf vf K) segs) := by
  intro u hu
  have hu2 : u ∈ List.intercalate [RUnit.plain ['/']] (segs.map (segUnits (fOf vf K))) := hu
  rcases mem_intercalate_sep _ _ u hu2 with h | ⟨p, hp, hup⟩
  · subst h
    intro c hc
    simp only [List.mem_singleton] at hc
    subst hc
    decide
  · rw [List.mem_map] at hp
    obtain ⟨s, hsin, rfl⟩ := hp
    cases s with
    | lit l =>
      rw [segUnits, List.mem_singleton] at hup
      subst hup
      intro c hc
      exact safeLit_ne c ((hv _ hsin).2.1 c hc) '[' (by decide)
    | pref l name =>
      rw [segUnits] at hup
      cases hf : fOf vf K ⟨name⟩ with
      | some e =>
        rw [hf, List.mem_singleton] at hup
        subst hup
        intro c hc
        rcases List.mem_append.mp hc with h | h
        · exact safeLit_ne c ((hv _ hsin).1 c h) '[' (by decide)
        · rw [fOf_some vf K _ e hf] at h
          rcases encChar_class _ c h with h2 | h2
          · intro he
            subst he
            have hf := unreserved_facts _ h2
            have h3 : ('[' : Char).toNat = 0x5B := rfl
            omega
          · subst h2
            decide
      | none =>
        rw [hf] at hup
        rcases List.mem_cons.mp hup with h | h
        · subst h
          intro c hc
          exact safeLit_ne c ((hv _ hsin).1 c hc) '[' (by decide)
        · rw [List.mem_singleton] at h
          subst h
          exact ⟨(hv _ hsin).2.1, (hv _ hsin).2.2⟩

lemma segNames_word (segs : List Seg) (hv : ∀ s ∈ segs, s.valid) (k : String)
    (hk : k ∈ segNames segs) :
    k.data ≠ [] ∧ ∀ c ∈ k.data, isWordChar c = true := by
  rw [segNames, List.mem_flatMap] at hk
  obtain ⟨s, hsin, hk2⟩ := hk
  cases s with
  | lit l => simp [Seg.names] at hk2
  | pref l name =>
    rw [Seg.names, List.mem_singleton] at hk2
    subst hk2
    exact ⟨(hv _ hsin).2.1, (hv _ hsin).2.2⟩

lemma tokenB_mem_patUnits (vf : String → String) (K : List String) (segs : List Seg)
    (k : String) (hk : k ∈ segNames segs) (hnoK : k ∉ K) :
    RUnit.tokenB k.data ∈ patUnits (fOf vf K) segs := by
  rw [segNames, List.mem_flatMap] at hk
  obtain ⟨s, hsin, hk2⟩ := hk
  cases s with
  | lit l => simp [Seg.names] at hk2
  | pref l name =>
    rw [Seg.names, List.mem_singleton] at hk2
    have hdata : name = k.data := by rw [hk2]
    have hup : RUnit.tokenB k.data ∈ segUnits (fOf vf K) (Seg.pref l name) := by
      rw [segUnits, show fOf vf K ⟨name⟩ = none from by rw [fOf, if_neg (hk2 ▸ hnoK)]]
      rw [hdata]
      simp
    exact mem_intercalate_of_mem _ _ _ (List.mem_map_of_mem _ hsin) _ hup

lemma containsStr_append_right (x y pat : List Char) (h : containsStr y pat = true) :
    containsStr (x ++ y) pat = true := by
  induction x with
  | nil => simpa using h
  | cons c x ih =>
    rw [List.cons_append, containsStr_cons, ih]
    simp

lemma containsStr_tok_mem (us : List RUnit) (k : List Char)
    (hmem : RUnit.tokenB k ∈ us) : containsStr (rendUnits us) (tokOf k) = true := by
  obtain ⟨usA, usB, rfl, -⟩ := first_tok_split k us hmem
  rw [rendUnits_append, rendUnits_cons, tokOf_render]
  apply containsStr_append_right
  rw [show tokOf k ++ rendUnits usB = '[' :: ((k ++ [']']) ++ rendUnits usB) from by
    rw [tokOf]; simp]
  rw [containsStr_cons]
  have hpre : (tokOf k).isPrefixOf ('[' :: ((k ++ [']']) ++ rendUnits usB)) = true := by
    rw [show '[' :: ((k ++ [']']) ++ rendUnits usB) = tokOf k ++ rendUnits usB from by
      rw [tokOf]; simp]
    exact isPrefixOf_append_self _ _
  rw [hpre]
  simp

lemma segUnits_base_render (s : Seg) :
    rendUnits (segUnits (fun _ => none) s) = s.render := by
  cases s with
  | lit l => simp [segUnits, rendUnits, Seg.render, RUnit.render]
  | pref l name => simp [segUnits, rendUnits, Seg.render, RUnit.render, tokOf]

lemma patUnits_rend (f : String → Option (List Char)) (G : Seg → List Char) (segs : List Seg)
    (hrend : ∀ s ∈ segs, rendUnits (segUnits f s) = G s) :
    rendUnits (patUnits f segs) = List.intercalate ['/'] (segs.map G) := by
  induction segs with
  | nil => rfl
  | cons s rest ih =>
    cases rest with
    | nil =>
      rw [patUnits_single, List.map_cons, List.map_nil, intercalate_single]
      exact hrend s (by simp)
    | cons s2 rest2 =>
      rw [patUnits_cons_cons, rendUnits_append, rendUnits_cons,
        hrend s (by simp), ih fun t ht => hrend t (by simp [ht]),
        List.map_cons, List.map_cons, List.map_cons, intercalate_cons_cons]
      rw [show (RUnit.plain ['/']).render = ['/'] from rfl]
      simp

lemma segUnits_full_render (vf : String → String) (K : List String) (s : Seg)
    (hall : ∀ n ∈ s.names, n ∈ K) :
    rendUnits (segUnits (fOf vf K) s) = s.renderEnc vf := by
  cases s with
  | lit l => simp [segUnits, rendUnits, Seg.renderEnc, RUnit.render]
  | pref l name =>
    have hin : (⟨name⟩ : String) ∈ K := hall ⟨name⟩ (by rw [Seg.names]; simp)
    rw [segUnits, show fOf vf K ⟨name⟩ = some (encodeURIComponentL (vf ⟨name⟩).data) from by
      rw [fOf, if_pos hin]]
    simp [rendUnits, Seg.renderEnc, RUnit.render]

lemma substU_segUnits (vf : String → String) (K : List String) (k : String) (s : Seg)
    (hknoK : k ∉ K) :
    rendUnits (substU k.data (encodeURIComponentL (vf k).data) (segUnits (fOf vf K) s)) =
      rendUnits (segUnits (fOf vf (K ++ [k])) s) := by
  cases s with
  | lit l => rfl
  | pref l name =>
    by_cases h1 : (⟨name⟩ : String) ∈ K
    · rw [segUnits, show fOf vf K ⟨name⟩ = some (encodeURIComponentL (vf ⟨name⟩).data) from by
        rw [fOf, if_pos h1]]
      rw [segUnits, show fOf vf (K ++ [k]) ⟨name⟩ =
        some (encodeURIComponentL (vf ⟨name⟩).data) from by
        rw [fOf, if_pos (by simp [h1])]]
      rfl
    · rw [segUnits, show fOf vf K ⟨name⟩ = none from by rw [fOf, if_neg h1]]
      by_cases h2 : (⟨name⟩ : String) = k
      · have hdata : name = k.data := by rw [← h2]
        rw [segUnits, show fOf vf (K ++ [k]) ⟨name⟩ =
          some (encodeURIComponentL (vf ⟨name⟩).data) from by
          rw [fOf, if_pos (by simp [h2])]]
        rw [substU, List.map_cons, List.map_cons, List.map_nil]
        rw [show (match RUnit.plain l with
          | RUnit.tokenB m => if m = k.data then RUnit.plain (encodeURIComponentL (vf k).data)
            else RUnit.tokenB m
          | RUnit.plain p => RUnit.plain p) = RUnit.plain l from rfl]
        rw [show (match RUnit.tokenB name with
          | RUnit.tokenB m => if m = k.data then RUnit.plain (encodeURIComponentL (vf k).data)
            else RUnit.tokenB m
          | RUnit.plain p => RUnit.plain p) =
          RUnit.plain (encodeURIComponentL (vf k).data) from by simp [hdata]]
        rw [h2]
        simp [rendUnits, RUnit.render]
      · have hdata : name ≠ k.data := by
          intro h
          exact h2 (by rw [h])
        rw [segUnits, show fOf vf (K ++ [k]) ⟨name⟩ = none from by
          rw [fOf, if_neg (by simp [h1, h2])]]
        rw [substU, List.map_cons, List.map_cons, List.map_nil]
        rw [show (match RUnit.plain l with
          | RUnit.tokenB m => if m = k.data then RUnit.plain (encodeURIComponentL (vf k).data)
            else RUnit.tokenB m
          | RUnit.plain p => RUnit.plain p) = RUnit.plain l from rfl]
        rw [show (match RUnit.tokenB name with
          | RUnit.tokenB m => if m = k.data then RUnit.plain (encodeURIComponentL (vf k).data)
            else RUnit.tokenB m
          | RUnit.plain p => RUnit.plain p) = RUnit.tokenB name from by simp [hdata]]

lemma substU_patUnits (vf : String → String) (K : List String) (segs : List Seg) (k : String)
    (hknoK : k ∉ K) :
    rendUnits (substU k.data (encodeURIComponentL (vf k).data) (patUnits (fOf vf K) segs)) =
      rendUnits (patUnits (fOf vf (K ++ [k])) segs) := by
  induction segs with
  | nil => rfl
  | cons s rest ih =>
    cases rest with
    | nil =>
      rw [patUnits_single, patUnits_single]
      exact substU_segUnits vf K k s hknoK
    | cons s2 rest2 =>
      rw [patUnits_cons_cons, patUnits_cons_cons, substU, List.map_append, List.map_cons]
      rw [show (match RUnit.plain ['/'] with
        | RUnit.tokenB m => if m = k.data then RUnit.plain (encodeURIComponentL (vf k).data)
          else RUnit.tokenB m
        | RUnit.plain p => RUnit.plain p) = RUnit.plain ['/'] from rfl]
      rw [rendUnits_append, rendUnits_cons, rendUnits_append, rendUnits_cons]
      rw [show List.map (fun u =>
        match u with
        | RUnit.tokenB m => if m = k.data then RUnit.plain (encodeURIComponentL (vf k).data)
          else RUnit.tokenB m
        | RUnit.plain p => RUnit.plain p) (segUnits (fOf vf K) s) =
        substU k.data (encodeURIComponentL (vf k).data) (segUnits (fOf vf K) s) from rfl]
      rw [substU_segUnits vf K k s hknoK]
      rw [show List.map (fun u =>
        match u with
        | RUnit.tokenB m => if m = k.data then RUnit.plain (encodeURIComponentL (vf k).data)
          else RUnit.tokenB m
        | RUnit.plain p => RUnit.plain p) (patUnits (fOf vf K) (s2 :: rest2)) =
        substU k.data (encodeURIComponentL (vf k).data) (patUnits (fOf vf K) (s2 :: rest2))
        from rfl]
      rw [ih]

/-- The `buildPath` fold over parameter entries, tracked through partial
substitutions: each entry replaces its (unique, present) token. -/
lemma buildPath_fold (segs : List Seg) (hv : ∀ s ∈ segs, s.valid) (vf : String → String) :
    ∀ (entries : List (String × Option String)) (K : List String),
      (∀ kv ∈ entries, kv.1 ∈ segNames segs ∧ kv.1 ∉ K ∧ kv.2 = some (vf kv.1)) →
      (entries.map Prod.fst).Nodup →
      List.foldl
        (fun path kv =>
          let token := "[" ++ kv.1 ++ "]"
          if containsStr path.data token.data then
            let encoded := encodeURIComponent (jsStringOfParam kv.2)
            (⟨List.intercalate encoded.data (splitOnStr token.data path.data)⟩ : String)
          else path)
        ⟨rendUnits (patUnits (fOf vf K) segs)⟩ entries =
      ⟨rendUnits (patUnits (fOf vf (K ++ entries.map Prod.fst)) segs)⟩ := by
  intro entries
  induction entries with
  | nil =>
    intro K h hnd
    simp
  | cons kv rest ih =>
    intro K h hnd
    obtain ⟨hk1, hk2, hk3⟩ := h kv (by simp)
    have hword := segNames_word segs hv kv.1 hk1
    have hclean := cleanUnits_patUnits vf K segs hv
    have htokdata : ("[" ++ kv.1 ++ "]").data = tokOf kv.1.data := by
      rw [tokOf]
      simp [String.data_append]
    have hcond : containsStr
        ((⟨rendUnits (patUnits (fOf vf K) segs)⟩ : String)).data ("[" ++ kv.1 ++ "]").data =
        true := by
      rw [htokdata]
      exact containsStr_tok_mem _ _ (tokenB_mem_patUnits vf K segs kv.1 hk1 hk2)
    have hencdata : (encodeURIComponent (jsStringOfParam kv.2)).data =
        encodeURIComponentL (vf kv.1).data := by
      rw [hk3]
      rfl
    set F := fun (path : String) (kv : String × Option String) =>
        let token := "[" ++ kv.1 ++ "]"
        if containsStr path.data token.data then
          let encoded := encodeURIComponent (jsStringOfParam kv.2)
          (⟨List.intercalate encoded.data (splitOnStr token.data path.data)⟩ : String)
        else path with hF
    have hstep : F ⟨rendUnits (patUnits (fOf vf K) segs)⟩ kv =
        ⟨rendUnits (patUnits (fOf vf (K ++ [kv.1])) segs)⟩ := by
      rw [hF]
      show (if containsStr (rendUnits (patUnits (fOf vf K) segs)) ("[" ++ kv.1 ++ "]").data then
          (⟨List.intercalate (encodeURIComponent (jsStringOfParam kv.2)).data
            (splitOnStr ("[" ++ kv.1 ++ "]").data (rendUnits (patUnits (fOf vf K) segs)))⟩ :
            String)
        else ⟨rendUnits (patUnits (fOf vf K) segs)⟩) = _
      rw [if_pos (by exact_mod_cast hcond), htokdata, hencdata,
        splitOnStr_units kv.1.data hword.2 _ hclean,
        intercalate_splitUnits, substU_patUnits vf K segs kv.1 hk2]
    have hrest : ∀ kv2 ∈ rest, kv2.1 ∈ segNames segs ∧ kv2.1 ∉ K ++ [kv.1] ∧
        kv2.2 = some (vf kv2.1) := by
      intro kv2 hkv2
      obtain ⟨h1, h2, h3⟩ := h kv2 (by simp [hkv2])
      refine ⟨h1, ?_, h3⟩
      intro hmem
      rcases List.mem_append.mp hmem with hm | hm
      · exact h2 hm
      · rw [List.mem_singleton] at hm
        rw [List.map_cons, List.nodup_cons] at hnd
        exact hnd.1 (hm ▸ List.mem_map_of_mem Prod.fst hkv2)
    have hnd2 : (rest.map Prod.fst).Nodup := by
      rw [List.map_cons, List.nodup_cons] at hnd
      exact hnd.2
    have hih := ih (K ++ [kv.1]) hrest hnd2
    rw [List.foldl_cons, hstep, hih, List.map_cons]
    congr 2
    simp

/-- `buildPath` on a rendered pattern with a full assignment of the parameter
names substitutes every token with the percent-encoded value. -/
lemma buildPath_render (segs : List Seg) (hsegs : ValidSegs segs) (vf : String → String)
    (ps : PathParams) (hnd : (ps.map Prod.fst).Nodup)
    (hmem : ∀ k, k ∈ ps.map Prod.fst ↔ k ∈ segNames segs)
    (hval : ∀ kv ∈ ps, kv.2 = some (vf kv.1)) :
    buildPath { path := renderPattern segs } (some ps) = ⟨renderEncPath vf segs⟩ := by
  obtain ⟨hne, hv, hnodupN⟩ := hsegs
  have hf0 : fOf vf [] = fun _ => none := by
    funext n
    rw [fOf, if_neg (by simp)]
  have hstart : renderPattern segs = (⟨rendUnits (patUnits (fOf vf []) segs)⟩ : String) := by
    rw [renderPattern]
    congr 1
    rw [hf0, patUnits_rend _ Seg.render segs fun s hs => segUnits_base_render s]
  have e : buildPath { path := renderPattern segs } (some ps) =
      ps.foldl (fun path kv =>
        let token := "[" ++ kv.1 ++ "]"
        if containsStr path.data token.data then
          let encoded := encodeURIComponent (jsStringOfParam kv.2)
          (⟨List.intercalate encoded.data (splitOnStr token.data path.data)⟩ : String)
        else path) (renderPattern segs) := rfl
  rw [e, hstart, buildPath_fold segs hv vf ps []
    (fun kv hkv => ⟨(hmem kv.1).mp (List.mem_map_of_mem Prod.fst hkv), by simp,
      hval kv hkv⟩) hnd]
  congr 1
  rw [List.nil_append]
  rw [patUnits_rend _ (Seg.renderEnc vf) segs fun s hs => segUnits_full_render vf _ s
    (fun n hn => (hmem n).mpr (by rw [segNames]; exact List.mem_flatMap.mpr ⟨s, hs, hn⟩))]
  rfl

/-! ## Round trip (C1): no dot segments in the substituted path -/

lemma char_toNat_ofNat_small (n : Nat) (h : n < 0xD800) : (Char.ofNat n).toNat = n := by
  unfold Char.ofNat
  split
  · rfl
  · rename_i hv
    exact absurd (Or.inl h) hv

/-- `toLowerCase` only moves characters into `a`-`z`; a character outside that
range is fixed, and only its uppercase partner maps onto it. -/
lemma asciiLower_eq_of_nonalpha (c x : Char)
    (hx : x.toNat < 0x61 ∨ 0x7A < x.toNat) (hxo : x.toNat < 0x41 ∨ 0x5A < x.toNat)
    (h : asciiLower c = x) : c = x := by
  rw [asciiLower] at h
  split at h
  · rename_i hAZ
    have h1 : ('A' : Char).toNat ≤ c.toNat := hAZ.1
    have h2 : c.toNat ≤ ('Z' : Char).toNat := hAZ.2
    have hA : ('A' : Char).toNat = 0x41 := rfl
    have hZ : ('Z' : Char).toNat = 0x5A := rfl
    rw [char_eq_iff_toNat, char_toNat_ofNat_small _ (by omega)] at h
    omega
  · exact h

lemma asciiLower_eq_dot (c : Char) (h : asciiLower c = '.') : c = '.' := by
  refine asciiLower_eq_of_nonalpha c '.' ?_ ?_ h <;> simp [show ('.' : Char).toNat = 0x2E from rfl]

lemma asciiLower_eq_pct (c : Char) (h : asciiLower c = '%') : c = '%' := by
  refine asciiLower_eq_of_nonalpha c '%' ?_ ?_ h <;> simp [show ('%' : Char).toNat = 0x25 from rfl]

lemma lowerStr_eq_cons (l : List Char) (x : Char) (xs : List Char)
    (h : lowerStr l = x :: xs) : ∃ c t, l = c :: t ∧ asciiLower c = x ∧ lowerStr t = xs := by
  cases l with
  | nil => simp [lowerStr] at h
  | cons c t =>
    rw [lowerStr, List.map_cons] at h
    injection h with h1 h2
    exact ⟨c, t, rfl, h1, h2⟩

lemma lowerStr_nil_inv (l : List Char) (h : lowerStr l = []) : l = [] := by
  cases l with
  | nil => rfl
  | cons c t => simp [lowerStr] at h

lemma hexUpper_lower_two (n : Nat) (h : n < 16) (h2 : asciiLower (hexUpper n) = '2') :
    n = 2 := by
  interval_cases n <;> revert h2 <;> decide

lemma hexUpper_lower_e (n : Nat) (h : n < 16) (h2 : asciiLower (hexUpper n) = 'e') :
    n = 14 := by
  interval_cases n <;> revert h2 <;> decide

lemma enc_nil_inv (v : List Char) (h : encodeURIComponentL v = []) : v = [] := by
  cases v with
  | nil => rfl
  | cons c v2 => exact absurd h (encodeURIComponentL_cons_ne_nil c v2)

lemma utf8Encode_head (n : Nat) :
    ∃ b bs, utf8Encode n = b :: bs ∧ (n < 0x80 → b = n) ∧ (0x80 ≤ n → 0xC0 ≤ b) := by
  rw [utf8Encode]
  split
  · exact ⟨n, [], rfl, fun _ => rfl, fun h2 => by omega⟩
  · split
    · exact ⟨_, _, rfl, fun h2 => by omega, fun _ => by omega⟩
    · split
      · exact ⟨_, _, rfl, fun h2 => by omega, fun _ => by omega⟩
      · exact ⟨_, _, rfl, fun h2 => by omega, fun _ => by omega⟩

/-- A `%` at the head of `encodeURIComponent` output opens an escape for a byte
that is never `0x2E` (a literal `.` stays literal). -/
lemma enc_pct_head (v : List Char) (t : List Char)
    (h : encodeURIComponentL v = '%' :: t) :
    ∃ b rest2, t = hexUpper (b / 16) :: hexUpper (b % 16) :: rest2 ∧ b ≠ 0x2E ∧ b < 256 := by
  cases v with
  | nil => simp [encodeURIComponentL] at h
  | cons c v2 =>
    rw [encodeURIComponentL_cons] at h
    by_cases hu : isUriUnreserved c
    · rw [if_pos hu, List.singleton_append] at h
      injection h with h1 h2
      subst h1
      exact absurd hu (by decide)
    · rw [if_neg hu] at h
      obtain ⟨b, bs, he, hlow, hhigh⟩ := utf8Encode_head c.toNat
      rw [he, List.flatMap_cons, pctByte] at h
      simp only [List.cons_append, List.append_assoc] at h
      injection h with h1 h2
      refine ⟨b, bs.flatMap pctByte ++ encodeURIComponentL v2, h2.symm, ?_, ?_⟩
      · intro hb
        by_cases hsmall : c.toNat < 0x80
        · have hbc := hlow hsmall
          have hcdot : c = '.' := by
            rw [char_eq_iff_toNat, show ('.' : Char).toNat = 0x2E from rfl]
            omega
          subst hcdot
          exact hu (by decide)
        · have := hhigh (by omega)
          omega
      · have := utf8Encode_lt256 c.toNat (char_toNat_lt c) b (by rw [he]; simp)
        exact this

lemma enc_no_pct2e (v : List Char) (t : List Char) (h : encodeURIComponentL v = '%' :: t)
    (c2 ce : Char) (rest2 : List Char) (ht : t = c2 :: ce :: rest2)
    (h2 : asciiLower c2 = '2') (he : asciiLower ce = 'e') : False := by
  obtain ⟨b, rest3, ht2, hbne, hblt⟩ := enc_pct_head v t h
  rw [ht] at ht2
  injection ht2 with e1 e2
  injection e2 with e2 e3
  rw [e1] at h2
  rw [e2] at he
  have hb1 := hexUpper_lower_two (b / 16) (by omega) h2
  have hb2 := hexUpper_lower_e (b % 16) (by omega) he
  omega

lemma enc_eq_dot (v : List Char) (h : encodeURIComponentL v = ['.']) : v = ['.'] := by
  cases v with
  | nil => simp [encodeURIComponentL] at h
  | cons c v2 =>
    rw [encodeURIComponentL_cons] at h
    by_cases hu : isUriUnreserved c
    · rw [if_pos hu, List.singleton_append] at h
      injection h with h1 h2
      subst h1
      rw [enc_nil_inv v2 h2]
    · rw [if_neg hu] at h
      obtain ⟨b, bs, he, -, -⟩ := utf8Encode_head c.toNat
      rw [he, List.flatMap_cons, pctByte] at h
      simp only [List.cons_append] at h
      injection h with h1 h2
      exact absurd h1.symm (by decide)

lemma enc_eq_dotdot (v : List Char) (h : encodeURIComponentL v = ['.', '.']) :
    v = ['.', '.'] := by
  cases v with
  | nil => simp [encodeURIComponentL] at h
  | cons c v2 =>
    rw [encodeURIComponentL_cons] at h
    by_cases hu : isUriUnreserved c
    · rw [if_pos hu, List.singleton_append] at h
      injection h with h1 h2
      subst h1
      rw [enc_eq_dot v2 h2]
    · rw [if_neg hu] at h
      obtain ⟨b, bs, he, -, -⟩ := utf8Encode_head c.toNat
      rw [he, List.flatMap_cons, pctByte] at h
      simp only [List.cons_append] at h
      injection h with h1 h2
      exact absurd h1.symm (by decide)

lemma enc_ne_nil_of_ne (v : List Char) (hv : v ≠ []) : encodeURIComponentL v ≠ [] := by
  cases v with
  | nil => exact absurd rfl hv
  | cons c v2 => exact encodeURIComponentL_cons_ne_nil c v2

lemma enc_cons_split (v : List Char) (c : Char) (t : List Char)
    (h : encodeURIComponentL v = c :: t) (hc : c ≠ '%') :
    ∃ v2, v = c :: v2 ∧ t = encodeURIComponentL v2 := by
  cases v with
  | nil => simp [encodeURIComponentL] at h
  | cons d v2 =>
    rw [encodeURIComponentL_cons] at h
    by_cases hu : isUriUnreserved d
    · rw [if_pos hu, List.singleton_append] at h
      injection h with h1 h2
      exact ⟨v2, by rw [h1], h2.symm⟩
    · rw [if_neg hu] at h
      obtain ⟨b, bs, he, -, -⟩ := utf8Encode_head d.toNat
      rw [he, List.flatMap_cons, pctByte] at h
      simp only [List.cons_append] at h
      injection h with h1 h2
      exact absurd h1.symm hc

lemma enc_lower_pct2e_head (v xs : List Char)
    (h : lowerStr (encodeURIComponentL v) = '%' :: '2' :: 'e' :: xs) : False := by
  obtain ⟨p, t1, he1, hp, h1⟩ := lowerStr_eq_cons _ _ _ h
  obtain ⟨q, t2, he2, hq, h2⟩ := lowerStr_eq_cons _ _ _ h1
  obtain ⟨r, t3, he3, hr, h3⟩ := lowerStr_eq_cons _ _ _ h2
  have hp2 := asciiLower_eq_pct p hp
  subst hp2
  rw [he2, he3] at he1
  exact enc_no_pct2e v _ he1 q r t3 rfl hq hr

/-- A substituted segment is never a (plain or `%2e`-form) dot segment. -/
lemma renderEnc_not_dot (s : Seg) (vf : String → String) (hs : s.valid)
    (hv : ∀ n ∈ s.names, ValidValue (vf n)) :
    isSingleDotSeg (s.renderEnc vf) = false ∧ isDoubleDotSeg (s.renderEnc vf) = false := by
  cases s with
  | lit l =>
    obtain ⟨hne, hsafe, hd1, hd2⟩ := hs
    have hlit : Seg.renderEnc vf (Seg.lit l) = l := rfl
    have hsafe_lower : ∀ x xs, lowerStr l = x :: xs → ∃ c t, l = c :: t ∧ asciiLower c = x :=
      fun x xs hx => (lowerStr_eq_cons l x xs hx).imp
        fun c h2 => h2.imp fun t h3 => ⟨h3.1, h3.2.1⟩
    constructor
    · rw [Bool.eq_false_iff]
      intro hw
      simp only [isSingleDotSeg, decide_eq_true_eq] at hw
      rw [hlit] at hw
      rcases hw with hw | hw
      · exact hd1 hw
      · obtain ⟨c, t, he, hc⟩ := hsafe_lower _ _ hw
        have := asciiLower_eq_pct c hc
        subst this
        exact absurd rfl (safeLit_ne '%' (hsafe '%' (by rw [he]; simp)) '%' (by decide))
    · rw [Bool.eq_false_iff]
      intro hw
      simp only [isDoubleDotSeg, decide_eq_true_eq] at hw
      rw [hlit] at hw
      rcases hw with hw | hw | hw | hw
      · exact hd2 hw
      · obtain ⟨c, t, he, hc, h1⟩ := lowerStr_eq_cons _ _ _ hw
        obtain ⟨c2, t2, he2, hc2, -⟩ := lowerStr_eq_cons _ _ _ h1
        have := asciiLower_eq_pct c2 hc2
        subst this
        exact absurd rfl (safeLit_ne '%' (hsafe '%' (by rw [he, he2]; simp)) '%' (by decide))
      · obtain ⟨c, t, he, hc, -⟩ := lowerStr_eq_cons _ _ _ hw
        have := asciiLower_eq_pct c hc
        subst this
        exact absurd rfl (safeLit_ne '%' (hsafe '%' (by rw [he]; simp)) '%' (by decide))
      · obtain ⟨c, t, he, hc, -⟩ := lowerStr_eq_cons _ _ _ hw
        have := asciiLower_eq_pct c hc
        subst this
        exact absurd rfl (safeLit_ne '%' (hsafe '%' (by rw [he]; simp)) '%' (by decide))
  | pref l name =>
    obtain ⟨hsafe, hnne, hword⟩ := hs
    have hvv := hv ⟨name⟩ (by rw [Seg.names]; simp)
    obtain ⟨hvne0, hvchars, hvd1, hvd2⟩ := hvv
    set v : List Char := (vf ⟨name⟩).data with hvdef
    have hvne : v ≠ [] := fun hh => hvne0 (String.ext hh)
    have hvdot : v ≠ ['.'] := fun hh => hvd1 (String.ext hh)
    have hvdd : v ≠ ['.', '.'] := fun hh => hvd2 (String.ext hh)
    have hr : Seg.renderEnc vf (Seg.pref l name) = l ++ encodeURIComponentL v := rfl
    constructor
    · rw [Bool.eq_false_iff]
      intro hw
      simp only [isSingleDotSeg, decide_eq_true_eq] at hw
      rw [hr] at hw
      rcases hw with hw | hw
      · cases l with
        | nil =>
          rw [List.nil_append] at hw
          exact hvdot (enc_eq_dot v hw)
        | cons a l2 =>
          rw [List.cons_append] at hw
          injection hw with h1 h2
          rcases List.append_eq_nil.mp h2 with ⟨-, h3⟩
          exact enc_ne_nil_of_ne v hvne h3
      · rw [lowerStr, List.map_append] at hw
        cases l with
        | nil =>
          rw [List.map_nil, List.nil_append] at hw
          exact enc_lower_pct2e_head v [] hw
        | cons a l2 =>
          rw [List.map_cons, List.cons_append] at hw
          injection hw with h1 h2
          have := asciiLower_eq_pct a h1
          subst this
          exact absurd rfl (safeLit_ne '%' (hsafe '%' (by simp)) '%' (by decide))
    · rw [Bool.eq_false_iff]
      intro hw
      simp only [isDoubleDotSeg, decide_eq_true_eq] at hw
      rw [hr] at hw
      rcases hw with hw | hw | hw | hw
      · cases l with
        | nil =>
          rw [List.nil_append] at hw
          exact hvdd (enc_eq_dotdot v hw)
        | cons a l2 =>
          rw [List.cons_append] at hw
          injection hw with h1 h2
          cases l2 with
          | nil =>
            rw [List.nil_append] at h2
            exact hvdot (enc_eq_dot v h2)
          | cons b l3 =>
            rw [List.cons_append] at h2
            injection h2 with h3 h4
            rcases List.append_eq_nil.mp h4 with ⟨-, h5⟩
            exact enc_ne_nil_of_ne v hvne h5
      · -- `.%2e`
        rw [lowerStr, List.map_append] at hw
        cases l with
        | nil =>
          rw [List.map_nil, List.nil_append] at hw
          obtain ⟨p, t1, he1, hp, h1⟩ := lowerStr_eq_cons _ _ _ hw
          have hpdot := asciiLower_eq_dot p hp
          subst hpdot
          obtain ⟨v2, hv2, ht1⟩ := enc_cons_split v '.' t1 he1 (by decide)
          rw [ht1] at h1
          exact enc_lower_pct2e_head v2 [] h1
        | cons a l2 =>
          rw [List.map_cons, List.cons_append] at hw
          injection hw with h1 h2
          cases l2 with
          | nil =>
            rw [List.map_nil, List.nil_append] at h2
            exact enc_lower_pct2e_head v [] h2
          | cons b l3 =>
            rw [List.map_cons, List.cons_append] at h2
            injection h2 with h3 h4
            have := asciiLower_eq_pct b h3
            subst this
            exact absurd rfl (safeLit_ne '%' (hsafe '%' (by simp)) '%' (by decide))
      · -- `%2e.`
        rw [lowerStr, List.map_append] at hw
        cases l with
        | nil =>
          rw [List.map_nil, List.nil_append] at hw
          exact enc_lower_pct2e_head v ['.'] hw
        | cons a l2 =>
          rw [List.map_cons, List.cons_append] at hw
          injection hw with h1 h2
          have := asciiLower_eq_pct a h1
          subst this
          exact absurd rfl (safeLit_ne '%' (hsafe '%' (by simp)) '%' (by decide))
      · -- `%2e%2e`
        rw [lowerStr, List.map_append] at hw
        cases l with
        | nil =>
          rw [List.map_nil, List.nil_append] at hw
          exact enc_lower_pct2e_head v ['%', '2', 'e'] hw
        | cons a l2 =>
          rw [List.map_cons, List.cons_append] at hw
          injection hw with h1 h2
          have := asciiLower_eq_pct a h1
          subst this
          exact absurd rfl (safeLit_ne '%' (hsafe '%' (by simp)) '%' (by decide))

/-! ## Round trip (C1): the URL pipeline on built hrefs -/

lemma renderEnc_chars (s : Seg) (hs : s.valid) (vf : String → String) :
    ∀ c ∈ s.renderEnc vf, isSafeLitChar c = true ∨ isUriUnreserved c = true ∨ c = '%' := by
  cases s with
  | lit l => exact fun c hc => Or.inl (hs.2.1 c hc)
  | pref l name =>
    intro c hc
    rw [Seg.renderEnc] at hc
    rcases List.mem_append.mp hc with h | h
    · exact Or.inl (hs.1 c h)
    · exact Or.inr (encChar_class _ c h)

lemma renderEncPath_chars (vf : String → String) (segs : List Seg)
    (hv : ∀ s ∈ segs, s.valid) : ∀ c ∈ renderEncPath vf segs, isPathChar c := by
  intro c hc
  have hc2 : c ∈ List.intercalate ['/'] (segs.map (Seg.renderEnc vf)) := hc
  rcases mem_intercalate_sep '/' _ c hc2 with h | ⟨p, hp, hcp⟩
  · exact Or.inr (Or.inr (Or.inr h))
  · rw [List.mem_map] at hp
    obtain ⟨s, hsin, rfl⟩ := hp
    rcases renderEnc_chars s (hv s hsin) vf c hcp with h | h | h
    · exact Or.inl h
    · exact Or.inr (Or.inl h)
    · exact Or.inr (Or.inr (Or.inl h))

lemma renderEnc_ne_sep (s : Seg) (hs : s.valid) (vf : String → String) :
    ∀ c ∈ s.renderEnc vf, c ≠ '/' ∧ c ≠ '\\' := by
  intro c hc
  rcases renderEnc_chars s hs vf c hc with h | h | h
  · exact ⟨safeLit_ne c h '/' (by decide), safeLit_ne c h '\\' (by decide)⟩
  · have hf := unreserved_facts c h
    constructor <;> intro he <;> rw [char_eq_iff_toNat] at he <;>
      simp only [show ('/' : Char).toNat = 0x2F from rfl,
        show ('\\' : Char).toNat = 0x5C from rfl] at he <;> omega
  · subst h
    exact ⟨by decide, by decide⟩

lemma hexUpper_range (n : Nat) (h : n < 16) :
    0x30 ≤ (hexUpper n).toNat ∧ (hexUpper n).toNat ≤ 0x46 := by
  interval_cases n <;> exact ⟨by decide, by decide⟩

lemma encQuery_chars (x : List Char) :
    ∀ c ∈ pctEncodeSet inQueryEncSet x,
      0x21 ≤ c.toNat ∧ c.toNat ≤ 0x7E ∧ c ≠ '#' := by
  intro c hc
  rw [pctEncodeSet, List.mem_flatMap] at hc
  obtain ⟨a, -, hc⟩ := hc
  by_cases hset : inQueryEncSet a
  · rw [if_pos hset, List.mem_flatMap] at hc
    obtain ⟨b, hb, hc⟩ := hc
    have hblt : b < 256 := utf8Encode_lt256 a.toNat (char_toNat_lt a) b hb
    rw [pctByte] at hc
    simp only [List.mem_cons, List.not_mem_nil, or_false] at hc
    rcases hc with hc | hc | hc
    · subst hc
      exact ⟨by decide, by decide, by decide⟩
    · subst hc
      have := hexUpper_range (b / 16) (by omega)
      refine ⟨by omega, by omega, ?_⟩
      intro he
      rw [char_eq_iff_toNat, show ('#' : Char).toNat = 0x23 from rfl] at he
      omega
    · subst hc
      have := hexUpper_range (b % 16) (by omega)
      refine ⟨by omega, by omega, ?_⟩
      intro he
      rw [char_eq_iff_toNat, show ('#' : Char).toNat = 0x23 from rfl] at he
      omega
  · rw [if_neg hset, List.mem_singleton] at hc
    subst hc
    simp only [inQueryEncSet, inC0High, decide_eq_true_eq, char_eq_iff_toNat,
      show (' ' : Char).toNat = 0x20 from rfl, show ('"' : Char).toNat = 0x22 from rfl,
      show ('#' : Char).toNat = 0x23 from rfl, show ('<' : Char).toNat = 0x3C from rfl,
      show ('>' : Char).toNat = 0x3E from rfl] at hset
    push_neg at hset
    refine ⟨?_, ?_, ?_⟩
    · omega
    · omega
    · intro he
      rw [char_eq_iff_toNat, show ('#' : Char).toNat = 0x23 from rfl] at he
      omega

/-- The core parse: a substituted path followed by an optional `?query` with no
`#` parses to exactly `/`-plus-that-path, with an empty fragment. -/
lemma parsePQF_render (vf : String → String) (segs : List Seg) (hsegs : ValidSegs segs)
    (hvals : ∀ n ∈ segNames segs, ValidValue (vf n)) (Q : List Char)
    (hQ : Q = [] ∨ ∃ t, Q = '?' :: t) (hQhash : '#' ∉ Q) :
    parsePathQueryFrag true (renderEncPath vf segs ++ Q) =
      { pathname := '/' :: renderEncPath vf segs
        query := pctEncodeSet inQueryEncSet ((splitFirst (· = '?') Q).2.getD [])
        frag := [] } := by
  obtain ⟨hne, hv, -⟩ := hsegs
  have hEchars := renderEncPath_chars vf segs hv
  have h1 : splitFirst (fun c => decide (c = '#')) (renderEncPath vf segs ++ Q) =
      (renderEncPath vf segs ++ Q, none) := by
    apply splitFirst_of_none
    intro c hc
    rcases List.mem_append.mp hc with h | h
    · simp [pathChar_ne_of c (hEchars c h) '#' (by simp [show ('#' : Char).toNat = 0x23 from rfl])]
    · simp
      intro he
      subst he
      exact hQhash h
  have h2 : splitFirst (fun c => decide (c = '?')) (renderEncPath vf segs ++ Q) =
      (renderEncPath vf segs ++ (splitFirst (fun c => decide (c = '?')) Q).1,
        (splitFirst (fun c => decide (c = '?')) Q).2) := by
    apply splitFirst_append
    intro c hc
    simp [pathChar_ne_of c (hEchars c hc) '?' (by simp [show ('?' : Char).toNat = 0x3F from rfl])]
  have h2a : (splitFirst (fun c => decide (c = '?')) Q).1 = [] := by
    rcases hQ with rfl | ⟨t, rfl⟩
    · rfl
    · rw [splitFirst, if_pos (by simp)]
  have h3 : splitOnPred (fun c => decide (c = '/' ∨ True ∧ c = '\\'))
      (renderEncPath vf segs) = segs.map (Seg.renderEnc vf) := by
    apply splitOnPred_intercalate
    · simp
    · intro q hq c hcq
      rw [List.mem_map] at hq
      obtain ⟨s, hsin, rfl⟩ := hq
      have := renderEnc_ne_sep s (hv s hsin) vf c hcq
      simp [this.1, this.2]
    · simp [hne]
  have h4 : normSegs (segs.map (Seg.renderEnc vf)) = segs.map (Seg.renderEnc vf) := by
    rw [normSegs, normSegsGo_no_dots]
    · rw [List.nil_append]
    · intro q hq
      rw [List.mem_map] at hq
      obtain ⟨s, hsin, rfl⟩ := hq
      have := renderEnc_not_dot s vf (hv s hsin)
        (fun n hn => hvals n (by rw [segNames]; exact List.mem_flatMap.mpr ⟨s, hsin, hn⟩))
      exact ⟨this.2, this.1⟩
  have h5 : (segs.map (Seg.renderEnc vf)).map (pctEncodeSet inPathEncSet) =
      segs.map (Seg.renderEnc vf) := by
    rw [List.map_map]
    apply List.map_congr_left
    intro s hsin
    show pctEncodeSet inPathEncSet (Seg.renderEnc vf s) = _
    apply pctEncodeSet_of_clean
    intro c hc
    rcases renderEnc_chars s (hv s hsin) vf c hc with h | h | h
    · exact safeLit_not_pathEnc c h
    · exact pathChar_not_pathEnc c (Or.inr (Or.inl h))
    · exact pathChar_not_pathEnc c (Or.inr (Or.inr (Or.inl h)))
  rw [parsePathQueryFrag]
  simp only [h1, h2, h2a, List.append_nil]
  rw [h3, h4, h5]
  rfl

lemma takeSchemeTail_cons (c : Char) (rest : List Char) :
    takeScheme.takeSchemeTail (c :: rest) =
      (if c = ':' then some ([], rest)
      else if isSchemeBodyChar c then
        match takeScheme.takeSchemeTail rest with
        | some (body, after) => some (c :: body, after)
        | none => none
      else none) := rfl

lemma takeSchemeTail_none (a b : List Char) (ha : ∀ c ∈ a, c ≠ ':')
    (hb : b = [] ∨ ∃ t, b = '?' :: t) :
    takeScheme.takeSchemeTail (a ++ b) = none := by
  induction a with
  | nil =>
    rcases hb with rfl | ⟨t, rfl⟩
    · rfl
    · rw [List.nil_append, takeSchemeTail_cons, if_neg (by decide), if_neg (by decide)]
  | cons c a2 ih =>
    rw [List.cons_append, takeSchemeTail_cons, if_neg (ha c (by simp))]
    by_cases hbody : isSchemeBodyChar c
    · rw [if_pos hbody, ih fun d hd => ha d (by simp [hd])]
    · rw [if_neg hbody]

lemma takeScheme_cons (c : Char) (rest : List Char) :
    takeScheme (c :: rest) =
      (if isAsciiAlpha c then
        match takeScheme.takeSchemeTail rest with
        | some (body, after) => some (c :: body, after)
        | none => none
      else none) := rfl

lemma takeScheme_pathlike (a b : List Char) (ha : ∀ c ∈ a, c ≠ ':')
    (hb : b = [] ∨ ∃ t, b = '?' :: t) :
    takeScheme (a ++ b) = none := by
  cases a with
  | nil =>
    rcases hb with rfl | ⟨t, rfl⟩
    · rfl
    · rw [List.nil_append, takeScheme_cons, if_neg (by decide)]
  | cons c a2 =>
    rw [List.cons_append, takeScheme_cons]
    by_cases halpha : isAsciiAlpha c
    · rw [if_pos halpha, takeSchemeTail_none a2 b (fun d hd => ha d (by simp [hd])) hb]
    · rw [if_neg halpha]

lemma pathChar_bounds (c : Char) (h : isPathChar c) :
    0x21 ≤ c.toNat ∧ c.toNat ≤ 0x7E := by
  rcases h with h | h | h | h
  · simp only [isSafeLitChar, decide_eq_true_eq] at h
    omega
  · have := unreserved_facts c h
    omega
  · subst h
    decide
  · subst h
    decide

/-- Generic marked-suffix form of a trailing `dropWhile` trim: everything
before and including a marker the predicate rejects survives, and the tail
shrinks to a subset. -/
lemma revDropWhile_marked (p : Char → Bool) (a : List Char) (m : Char) (b : List Char)
    (hm : p m = false) :
    ∃ b2, ((a ++ m :: b).reverse.dropWhile p).reverse = a ++ m :: b2 ∧ ∀ c ∈ b2, c ∈ b := by
  rw [List.reverse_append, List.reverse_cons, List.append_assoc,
    List.singleton_append, List.dropWhile_append]
  split
  · rw [List.dropWhile_cons, if_neg (by simp [hm])]
    exact ⟨[], by simp, by simp⟩
  · refine ⟨(List.dropWhile p b.reverse).reverse, by simp, ?_⟩
    intro c hc
    rw [List.mem_reverse] at hc
    exact List.mem_reverse.mp ((List.dropWhile_sublist _).mem hc)

lemma jsTrimL_slash (E Q : List Char) (hE : ∀ c ∈ E, isPathChar c)
    (hQ : Q = [] ∨ ∃ t, Q = '?' :: t) :
    ∃ Q1, jsTrimL ('/' :: (E ++ Q)) = '/' :: (E ++ Q1) ∧
      (Q1 = [] ∨ ∃ t, Q1 = '?' :: t) ∧ ∀ c ∈ Q1, c ∈ Q := by
  rcases hQ with rfl | ⟨t, rfl⟩
  · refine ⟨[], ?_, Or.inl rfl, by simp⟩
    apply jsTrimL_of_no_ws
    intro c hc
    rw [List.append_nil] at hc
    rcases List.mem_cons.mp hc with h | h
    · subst h
      decide
    · exact pathChar_not_ws c (hE c h)
  · rw [jsTrimL, List.dropWhile_cons, if_neg (by simp; decide)]
    have hshape : '/' :: (E ++ '?' :: t) = ('/' :: E) ++ '?' :: t := by simp
    rw [hshape]
    obtain ⟨b2, hb2, hmem⟩ := revDropWhile_marked isJsWs ('/' :: E) '?' t (by decide)
    refine ⟨'?' :: b2, ?_, Or.inr ⟨b2, rfl⟩, ?_⟩
    · rw [hb2]
      simp
    · intro c hc
      rcases List.mem_cons.mp hc with h | h
      · simp [h]
      · simp [hmem c h]

lemma prep_relative (E Q : List Char) (hE : ∀ c ∈ E, isPathChar c)
    (hQ : Q = [] ∨ ∃ t, Q = '?' :: t) :
    ∃ Q2, stripTabNL (trimTrailC0 (E ++ Q)) = E ++ Q2 ∧
      (Q2 = [] ∨ ∃ t, Q2 = '?' :: t) ∧ ∀ c ∈ Q2, c ∈ Q := by
  rcases hQ with rfl | ⟨t, rfl⟩
  · refine ⟨[], ?_, Or.inl rfl, by simp⟩
    rw [List.append_nil,
      trimTrailC0_of_clean E (fun c hc => pathChar_not_c0sp c (hE c hc)),
      stripTabNL_of_clean E (fun c hc => pathChar_not_tabnl c (hE c hc))]
  · obtain ⟨b2, hb2, hmem⟩ := revDropWhile_marked isC0OrSpace E '?' t (by decide)
    rw [show trimTrailC0 (E ++ '?' :: t) = E ++ '?' :: b2 from hb2]
    rw [stripTabNL, List.filter_append,
      List.filter_eq_self.mpr (fun c hc => by simp [pathChar_not_tabnl c (hE c hc)])]
    rw [show List.filter (fun c => decide ¬(c = '\t' ∨ c = '\n' ∨ c = '\r')) ('?' :: b2) =
      '?' :: List.filter (fun c => decide ¬(c = '\t' ∨ c = '\n' ∨ c = '\r')) b2 from by
      rw [List.filter_cons, if_pos (by decide)]]
    refine ⟨'?' :: List.filter (fun c => decide ¬(c = '\t' ∨ c = '\n' ∨ c = '\r')) b2,
      rfl, Or.inr ⟨_, rfl⟩, ?_⟩
    intro c hc
    rcases List.mem_cons.mp hc with h | h
    · simp [h]
    · simp [hmem c (List.mem_of_mem_filter h)]

lemma renderEnc_ne_nil (s : Seg) (hs : s.valid) (vf : String → String)
    (hv : ∀ n ∈ s.names, ValidValue (vf n)) : s.renderEnc vf ≠ [] := by
  cases s with
  | lit l => exact hs.1
  | pref l name =>
    rw [Seg.renderEnc]
    intro h
    rcases List.append_eq_nil.mp h with ⟨-, h2⟩
    have hvv := hv ⟨name⟩ (by rw [Seg.names]; simp)
    exact enc_ne_nil_of_ne _ (fun hh => hvv.1 (String.ext hh)) h2

lemma renderEncPath_head_shape (vf : String → String) (segs : List Seg)
    (hsegs : ValidSegs segs) (hvals : ∀ n ∈ segNames segs, ValidValue (vf n)) :
    ∃ c t, renderEncPath vf segs = c :: t ∧ c ≠ '/' ∧ c ≠ '\\' := by
  obtain ⟨hne, hv, -⟩ := hsegs
  obtain ⟨s, rest, rfl⟩ := List.exists_cons_of_ne_nil hne
  have hs := hv s (by simp)
  have hsvals : ∀ n ∈ s.names, ValidValue (vf n) := fun n hn =>
    hvals n (by rw [segNames]; exact List.mem_flatMap.mpr ⟨s, by simp, hn⟩)
  obtain ⟨c, t0, he⟩ := List.exists_cons_of_ne_nil (renderEnc_ne_nil s hs vf hsvals)
  have hcmem : c ∈ s.renderEnc vf := by rw [he]; simp
  have hsep := renderEnc_ne_sep s hs vf c hcmem
  cases rest with
  | nil =>
    refine ⟨c, t0, ?_, hsep.1, hsep.2⟩
    rw [renderEncPath, List.map_cons, List.map_nil, intercalate_single, he]
  | cons s2 rest2 =>
    refine ⟨c, t0 ++ '/' :: renderEncPath vf (s2 :: rest2), ?_, hsep.1, hsep.2⟩
    rw [renderEncPath_cons_cons, he]
    simp

lemma bb_not_prefix_of_ne (c : Char) (t : List Char) (hc : c ≠ '\\') :
    List.isPrefixOf ['\\', '\\'] (c :: t) = false := by
  simp only [List.isPrefixOf, Bool.and_eq_false_iff]
  left
  simp [beq_eq_false_iff_ne]
  exact fun h => hc h.symm

lemma stripSlashes_cons (E : List Char) (c : Char) (t : List Char)
    (he : E = c :: t) (hc : c ≠ '/') : stripLeadingSlashes ('/' :: E) = E := by
  rw [stripLeadingSlashes, List.dropWhile_cons, if_pos (by simp), he,
    List.dropWhile_cons, if_neg (by simp [hc])]

/-- `getRelativePart` on a built href returns the substituted path followed by
the (possibly rewritten) search part. -/
lemma getRelativePart_render (vf : String → String) (segs : List Seg)
    (hsegs : ValidSegs segs) (hvals : ∀ n ∈ segNames segs, ValidValue (vf n))
    (Q : List Char) (hQ : Q = [] ∨ ∃ t, Q = '?' :: t) (hQhash : '#' ∉ Q) :
    ∃ q, getRelativePart ⟨'/' :: (renderEncPath vf segs ++ Q)⟩ =
        some ⟨renderEncPath vf segs ++ q⟩ ∧
      (q = [] ∨ ∃ t, q = '?' :: t) ∧
      ∀ c ∈ q, 0x21 ≤ c.toNat ∧ c.toNat ≤ 0x7E ∧ c ≠ '#' := by
  have hv := hsegs.2.1
  have hEchars := renderEncPath_chars vf segs hv
  obtain ⟨Q1, htrim, hQ1, hQ1mem⟩ := jsTrimL_slash (renderEncPath vf segs) Q hEchars hQ
  have hQ1hash : '#' ∉ Q1 := fun h => hQhash (hQ1mem '#' h)
  obtain ⟨Q2, hprep, hQ2, hQ2mem⟩ := prep_relative (renderEncPath vf segs) Q1 hEchars hQ1
  have hQ2hash : '#' ∉ Q2 := fun h => hQ1hash (hQ2mem '#' h)
  have hparse := parsePQF_render vf segs hsegs hvals Q2 hQ2 hQ2hash
  have hscheme : schemeSlashesAhead ('/' :: (renderEncPath vf segs ++ Q1)) = false := by
    rw [schemeSlashesAhead, takeScheme_cons, if_neg (by decide)]
  rw [getRelativePart]
  rw [show (⟨'/' :: (renderEncPath vf segs ++ Q)⟩ : String).data =
    '/' :: (renderEncPath vf segs ++ Q) from rfl, htrim, hscheme]
  rw [if_neg (by simp)]
  rw [show ('/' :: (renderEncPath vf segs ++ Q1)).head? = some '/' from rfl]
  rw [if_pos rfl]
  rw [show ('/' :: (renderEncPath vf segs ++ Q1)).tail = renderEncPath vf segs ++ Q1 from rfl]
  simp only []
  rw [show getRelativePart.parseHttpDummy (renderEncPath vf segs ++ Q1) =
    some (parsePathQueryFrag true (stripTabNL (trimTrailC0 (renderEncPath vf segs ++ Q1))))
    from rfl, hprep, hparse]
  refine ⟨ParsedUrl.search
    { pathname := '/' :: renderEncPath vf segs
      query := pctEncodeSet inQueryEncSet ((splitFirst (· = '?') Q2).2.getD [])
      frag := [] }, ?_, ?_, ?_⟩
  · simp only [Option.map]
    congr 1
    simp [ParsedUrl.hash, ParsedUrl.search]
  · rw [ParsedUrl.search]
    split
    · exact Or.inl rfl
    · exact Or.inr ⟨_, rfl⟩
  · intro c hc
    rw [ParsedUrl.search] at hc
    split at hc
    · simp at hc
    · rcases List.mem_cons.mp hc with h | h
      · subst h
        exact ⟨by decide, by decide, by decide⟩
      · exact encQuery_chars _ c h

/-- The second parse, against `http://localhost`, of the relative part. -/
lemma parseLocalhost_render (vf : String → String) (segs : List Seg)
    (hsegs : ValidSegs segs) (hvals : ∀ n ∈ segNames segs, ValidValue (vf n))
    (q : List Char) (hq : q = [] ∨ ∃ t, q = '?' :: t)
    (hqc : ∀ c ∈ q, 0x21 ≤ c.toNat ∧ c.toNat ≤ 0x7E ∧ c ≠ '#') :
    parseAgainstLocalhost (renderEncPath vf segs ++ q) =
      some { pathname := '/' :: renderEncPath vf segs
             query := pctEncodeSet inQueryEncSet ((splitFirst (· = '?') q).2.getD [])
             frag := [] } := by
  have hv := hsegs.2.1
  have hEchars := renderEncPath_chars vf segs hv
  have hbounds : ∀ c ∈ renderEncPath vf segs ++ q, 0x21 ≤ c.toNat ∧ c.toNat ≤ 0x7E := by
    intro c hc
    rcases List.mem_append.mp hc with h | h
    · exact pathChar_bounds c (hEchars c h)
    · exact ⟨(hqc c h).1, (hqc c h).2.1⟩
  have hclean : stripTabNL (trimC0Both (renderEncPath vf segs ++ q)) =
      renderEncPath vf segs ++ q := by
    rw [trimC0Both_of_clean _ (fun c hc => by
      have := hbounds c hc
      simp only [isC0OrSpace, decide_eq_false_iff_not]
      omega)]
    rw [stripTabNL_of_clean _ (fun c hc => by
      have := hbounds c hc
      intro hw
      rcases hw with h | h | h <;> rw [char_eq_iff_toNat] at h <;>
        simp only [show ('\t' : Char).toNat = 9 from rfl,
          show ('\n' : Char).toNat = 10 from rfl,
          show ('\r' : Char).toNat = 13 from rfl] at h <;> omega)]
  have hscheme : takeScheme (renderEncPath vf segs ++ q) = none := by
    apply takeScheme_pathlike
    · intro c hc
      exact pathChar_ne_of c (hEchars c hc) ':'
        (by simp [show (':' : Char).toNat = 0x3A from rfl])
    · exact hq
  obtain ⟨c0, t0, hE0, hne1, hne2⟩ := renderEncPath_head_shape vf segs hsegs hvals
  have hshape : renderEncPath vf segs ++ q = c0 :: (t0 ++ q) := by rw [hE0]; simp
  have hQhash : '#' ∉ q := by
    intro h
    exact absurd rfl (hqc '#' h).2.2
  rw [parseAgainstLocalhost, hclean, hscheme]
  show parseAgainstLocalhost.parseRelNoScheme (renderEncPath vf segs ++ q) = _
  rw [parseAgainstLocalhost.parseRelNoScheme]
  rw [if_neg (by
    rw [hshape]
    simp only [dd_not_prefix_of_ne c0 _ hne1, bb_not_prefix_of_ne c0 _ hne2]
    simp)]
  rw [if_neg (by
    rw [hshape]
    simp only [List.head?_cons]
    simp [hne1, hne2])]
  rw [parsePQF_render vf segs hsegs hvals q hq hQhash]

/-! ## Round trip (C1): the default query string contains no `#` -/

lemma strIntGo_nil (acc sep : String) : String.intercalate.go acc sep [] = acc := rfl

lemma strIntGo_cons (acc sep a : String) (as : List String) :
    String.intercalate.go acc sep (a :: as) =
      String.intercalate.go (acc ++ sep ++ a) sep as := rfl

lemma mem_strIntGo (sep : String) (c : Char) :
    ∀ (l : List String) (acc : String), c ∈ (String.intercalate.go acc sep l).data →
      c ∈ acc.data ∨ c ∈ sep.data ∨ ∃ s ∈ l, c ∈ s.data := by
  intro l
  induction l with
  | nil =>
    intro acc h
    exact Or.inl (by rwa [strIntGo_nil] at h)
  | cons a as ih =>
    intro acc h
    rw [strIntGo_cons] at h
    rcases ih _ h with h2 | h2 | ⟨s, hs, hcs⟩
    · rw [String.data_append, String.data_append] at h2
      rcases List.mem_append.mp h2 with h3 | h3
      · rcases List.mem_append.mp h3 with h4 | h4
        · exact Or.inl h4
        · exact Or.inr (Or.inl h4)
      · exact Or.inr (Or.inr ⟨a, by simp, h3⟩)
    · exact Or.inr (Or.inl h2)
    · exact Or.inr (Or.inr ⟨s, by simp [hs], hcs⟩)

lemma mem_String_intercalate (sep : String) (l : List String) (c : Char)
    (hc : c ∈ (String.intercalate sep l).data) : c ∈ sep.data ∨ ∃ s ∈ l, c ∈ s.data := by
  cases l with
  | nil => simp [String.intercalate] at hc
  | cons a as =>
    rw [show String.intercalate sep (a :: as) = String.intercalate.go a sep as from rfl] at hc
    rcases mem_strIntGo sep c as a hc with h | h | ⟨s, hs, h2⟩
    · exact Or.inr ⟨a, by simp, h⟩
    · exact Or.inl h
    · exact Or.inr ⟨s, by simp [hs], h2⟩

lemma encodeKeyValue_no_hash (key : String) (v : Option JSValue) (c : Char)
    (hc : c ∈ (encodeKeyValue key v none).data) : c ≠ '#' := by
  match v with
  | none => simp [encodeKeyValue] at hc
  | some v =>
    by_cases hr : getRawEncodedValue v none = ""
    · simp [encodeKeyValue, hr] at hc
    · rw [show encodeKeyValue key (some v) none =
        encodeURIComponent key ++ "=" ++
          encodeReservedChars (normalizePercentEscapes (getRawEncodedValue v none)) from by
        rw [encodeKeyValue]
        simp [hr]] at hc
      rw [String.data_append, String.data_append] at hc
      rcases List.mem_append.mp hc with h3 | h3
      · rcases List.mem_append.mp h3 with h4 | h4
        · rcases encChar_class _ c h4 with h | h
          · have := unreserved_facts c h
            intro he
            rw [char_eq_iff_toNat, show ('#' : Char).toNat = 0x23 from rfl] at he
            omega
          · subst h
            decide
        · rw [show ("=" : String).data = ['='] from rfl, List.mem_singleton] at h4
          subst h4
          decide
      · have hall := noReserved_encodeReserved (normalizePercentEscapes
          (getRawEncodedValue v none)).data
        rw [noReservedB, List.all_eq_true] at hall
        have hres := hall c h3
        intro he
        subst he
        simp [isReservedOrWs] at hres

lemma collectArray_mem_snd (key : String) (ce : Option CustomEncoder) :
    ∀ (l : List JSValue) (seen : List String) (x : String × String),
      x ∈ collectArray key ce l seen → ∃ v, x.2 = encodeKeyValue key (some v) ce := by
  intro l
  induction l with
  | nil =>
    intro seen x hx
    simp [collectArray] at hx
  | cons v rest ih =>
    intro seen x hx
    rw [collectArray] at hx
    split at hx
    · exact ih _ _ hx
    · split at hx
      · exact ih _ _ hx
      · split at hx
        · exact ih _ _ hx
        · rcases List.mem_cons.mp hx with h | h
          · exact ⟨v, by rw [h]⟩
          · exact ih _ _ h

lemma encodeKeyValues_no_hash (key : String) (v : Option JSValue) (s : String)
    (hs : s ∈ encodeKeyValues key v none) (c : Char) (hc : c ∈ s.data) : c ≠ '#' := by
  match v with
  | none => simp [encodeKeyValues] at hs
  | some (.vArr l) =>
    rw [encodeKeyValues, List.mem_map] at hs
    obtain ⟨x, hx, rfl⟩ := hs
    have hx2 := (sortByRaw_perm _).mem_iff.mp hx
    obtain ⟨v2, hv2⟩ := collectArray_mem_snd key none l [] x hx2
    rw [hv2] at hc
    exact encodeKeyValue_no_hash key (some v2) c hc
  | some .vNull =>
    rw [encodeKeyValues] at hs
    rotate_left
    · intro l2 hl2
      simp at hl2
    split at hs
    · rw [List.mem_singleton] at hs
      subst hs
      exact encodeKeyValue_no_hash key (some .vNull) c hc
    · simp at hs
  | some .vUndefined =>
    rw [encodeKeyValues] at hs
    rotate_left
    · intro l2 hl2
      simp at hl2
    split at hs
    · rw [List.mem_singleton] at hs
      subst hs
      exact encodeKeyValue_no_hash key (some .vUndefined) c hc
    · simp at hs
  | some (.vStr s2) =>
    rw [encodeKeyValues] at hs
    rotate_left
    · intro l2 hl2
      simp at hl2
    split at hs
    · rw [List.mem_singleton] at hs
      subst hs
      exact encodeKeyValue_no_hash key (some (.vStr s2)) c hc
    · simp at hs
  | some (.vInt n) =>
    rw [encodeKeyValues] at hs
    rotate_left
    · intro l2 hl2
      simp at hl2
    split at hs
    · rw [List.mem_singleton] at hs
      subst hs
      exact encodeKeyValue_no_hash key (some (.vInt n)) c hc
    · simp at hs
  | some (.vBool b) =>
    rw [encodeKeyValues] at hs
    rotate_left
    · intro l2 hl2
      simp at hl2
    split at hs
    · rw [List.mem_singleton] at hs
      subst hs
      exact encodeKeyValue_no_hash key (some (.vBool b)) c hc
    · simp at hs
  | some (.vBigInt n) =>
    rw [encodeKeyValues] at hs
    rotate_left
    · intro l2 hl2
      simp at hl2
    split at hs
    · rw [List.mem_singleton] at hs
      subst hs
      exact encodeKeyValue_no_hash key (some (.vBigInt n)) c hc
    · simp at hs
  | some (.vSymbol d) =>
    rw [encodeKeyValues] at hs
    rotate_left
    · intro l2 hl2
      simp at hl2
    split at hs
    · rw [List.mem_singleton] at hs
      subst hs
      exact encodeKeyValue_no_hash key (some (.vSymbol d)) c hc
    · simp at hs
  | some (.vObjCustom r) =>
    rw [encodeKeyValues] at hs
    rotate_left
    · intro l2 hl2
      simp at hl2
    split at hs
    · rw [List.mem_singleton] at hs
      subst hs
      exact encodeKeyValue_no_hash key (some (.vObjCustom r)) c hc
    · simp at hs
  | some (.vObjPlain r) =>
    rw [encodeKeyValues] at hs
    rotate_left
    · intro l2 hl2
      simp at hl2
    split at hs
    · rw [List.mem_singleton] at hs
      subst hs
      exact encodeKeyValue_no_hash key (some (.vObjPlain r)) c hc
    · simp at hs

lemma buildQueryString_no_hash (qv : JSObj) : '#' ∉ (buildQueryString qv none).data := by
  intro h
  rw [buildQueryString] at h
  rcases mem_String_intercalate _ _ _ h with h2 | ⟨s, hs, h2⟩
  · rw [show ("&" : String).data = ['&'] from rfl, List.mem_singleton] at h2
    exact absurd h2 (by decide)
  · rw [List.mem_flatMap] at hs
    obtain ⟨e, -, he2⟩ := hs
    exact absurd rfl (encodeKeyValues_no_hash e.1 (some e.2) s he2 '#' h2)

/-! ## Round trip (C1): assembling `buildHref` and `findRoute` -/

lemma validate_render (segs : List Seg) (hsegs : ValidSegs segs) (vf : String → String)
    (ps : PathParams)
    (hmem : ∀ k, k ∈ ps.map Prod.fst ↔ k ∈ segNames segs)
    (hval : ∀ kv ∈ ps, kv.2 = some (vf kv.1)) :
    ∃ w, validatePathParams { path := renderPattern segs } (some ps) = .ok w := by
  have hreq : extractParamNames ({ path := renderPattern segs } : Route).path =
      segNames segs := extractParamNames_render segs hsegs
  have hmiss : ∀ k ∈ segNames segs, paramMissing ps k = false := by
    intro k hk
    have hk2 : k ∈ ps.map Prod.fst := (hmem k).mpr hk
    rw [List.mem_map] at hk2
    obtain ⟨kv, hkv, hfst⟩ := hk2
    have hfind : ∃ r, ps.find? (fun p => p.1 = k) = some r := by
      rw [← Option.isSome_iff_exists, List.find?_isSome]
      exact ⟨kv, hkv, by simp [hfst]⟩
    obtain ⟨r, hr⟩ := hfind
    have hrk : r.1 = k := by
      have := List.find?_some hr
      simpa using this
    have hrmem := List.mem_of_find?_eq_some hr
    have hrval := hval r hrmem
    rw [paramMissing, lookupParam, hr]
    show (match some r.2 with
      | some (some v2) => false
      | _ => true) = false
    rw [hrval]
  have hfilter : (segNames segs).filter (paramMissing ps) = [] := by
    rw [List.filter_eq_nil_iff]
    intro k hk
    simp [hmiss k hk]
  rw [validatePathParams]
  simp only [Option.getD_some, hreq, hfilter]
  rw [if_neg (by simp)]
  split
  · exact ⟨_, rfl⟩
  · exact ⟨_, rfl⟩

lemma buildHref_default (P : String) (ps : PathParams) (q : Option JSObj)
    (w : List String)
    (hw : validatePathParams { path := P } (some ps) = .ok w) :
    buildHref { path := P } (some { params := some ps, query := q }) =
      .ok ("/" ++ buildPath { path := P } (some ps) ++
        (if (match q with
             | none => ""
             | some qv => buildQueryString qv none) ≠ "" then
          "?" ++ (match q with
             | none => ""
             | some qv => buildQueryString qv none) else "") ++ "") := by
  simp only [buildHref, Option.getD_some, hw]
  rfl

lemma decodeURIComponent_clean (s : String) (h : ∀ c ∈ s.data, c ≠ '%') :
    decodeURIComponent s = some s := by
  rw [decodeURIComponent, decode_clean s.data h]
  rfl

lemma mapM_decode_some (l : List String) (h : ∀ x ∈ l, decodeURIComponent x = some x) :
    l.mapM decodeURIComponent = some l := by
  induction l with
  | nil => rfl
  | cons a t ih =>
    rw [List.mapM_cons, h a (by simp), ih fun x hx => h x (by simp [hx])]
    rfl

lemma zip_self_map {α β : Type} (l : List α) (g : α → β) :
    l.zip (l.map g) = l.map fun x => (x, g x) := by
  induction l with
  | nil => rfl
  | cons a t ih => simp [ih]

lemma findRouteGo_cons_eq (route : Route) (rest : List Route) (path : List Char)
    (rawQ : RawQuery) (rel fragment : String) :
    findRouteGo (route :: rest) path rawQ rel fragment =
      (match pathToRegex route.path with
      | .error e => .error e
      | .ok pr =>
        match regexExec pr path with
        | none => findRouteGo rest path rawQ rel fragment
        | some caps =>
          match caps.mapM decodeURIComponent with
          | none => .error "URIError: URI malformed"
          | some decoded =>
            .ok (some
              { route := route
                params := pr.paramNames.zip decoded
                query := (route.getQuery.getD fun _ => []) rawQ
                meta := (route.getMeta.map (· ())).getD []
                fullPath := rel
                fragment := fragment })) := rfl

/-- `findRoute` on a built href: the single rendered route matches with the
original raw values as parameters. -/
lemma findRoute_render (segs : List Seg) (hsegs : ValidSegs segs) (vf : String → String)
    (hvals : ∀ n ∈ segNames segs, ValidValue (vf n)) (Q : List Char)
    (hQ : Q = [] ∨ ∃ t, Q = '?' :: t) (hQhash : '#' ∉ Q) :
    ∃ m, findRoute ⟨'/' :: (renderEncPath vf segs ++ Q)⟩ [{ path := renderPattern segs }] =
        .ok (some m) ∧
      m.route.path = renderPattern segs ∧
      m.params = (segNames segs).map (fun n => (n, vf n)) ∧
      m.fragment = "" := by
  obtain ⟨q, hrel, hq, hqc⟩ := getRelativePart_render vf segs hsegs hvals Q hQ hQhash
  have hparse := parseLocalhost_render vf segs hsegs hvals q hq hqc
  obtain ⟨c0, t0, hE0, hne1, -⟩ := renderEncPath_head_shape vf segs hsegs hvals
  have hstrip : stripLeadingSlashes ('/' :: renderEncPath vf segs) = renderEncPath vf segs :=
    stripSlashes_cons _ c0 t0 hE0 hne1
  have hdec := decode_renderEncPath vf segs hsegs.2.1 hsegs.1
  have hptr := pathToRegex_render segs hsegs
  have hcaps : matchPieces (flatPieces (segs.map segPieceOf)) (renderDecPath vf segs) =
      some ((segNames segs).map vf) := match_path vf segs hsegs.2.1 hvals hsegs.1
  have hdecall : ((segNames segs).map vf).mapM decodeURIComponent =
      some ((segNames segs).map vf) := by
    apply mapM_decode_some
    intro x hx
    rw [List.mem_map] at hx
    obtain ⟨n, hn, rfl⟩ := hx
    exact decodeURIComponent_clean _ fun c hc => ((hvals n hn).2.1 c hc).2
  have hre : regexExec { segPieces := segs.map segPieceOf, paramNames := segNames segs }
      (renderDecPath vf segs) = some ((segNames segs).map vf) := hcaps
  have hnil : decodeURIComponentL [] = some [] := rfl
  simp only [findRoute, hrel, hparse, hstrip, hdec, hnil, findRouteGo_cons_eq, hptr, hre,
    hdecall]
  refine ⟨_, rfl, rfl, ?_, rfl⟩
  exact zip_self_map _ _

/-- Shape of the string `buildHref` assembles: leading slash, encoded path,
optional `?query`, empty fragment. -/
lemma href_shape (E : List Char) (qs : String) (hqh : '#' ∉ qs.data) :
    ∃ Q : List Char, (Q = [] ∨ ∃ t, Q = '?' :: t) ∧ '#' ∉ Q ∧
      ("/" ++ (⟨E⟩ : String) ++ (if qs ≠ "" then "?" ++ qs else "") ++ "" : String) =
        ⟨'/' :: (E ++ Q)⟩ := by
  by_cases hqe : qs = ""
  · refine ⟨[], Or.inl rfl, by simp, ?_⟩
    rw [if_neg (by simp [hqe])]
    apply String.ext
    simp [String.data_append]
  · refine ⟨'?' :: qs.data, Or.inr ⟨_, rfl⟩, ?_, ?_⟩
    · simp only [List.mem_cons]
      rintro (h | h)
      · exact absurd h (by decide)
      · exact hqh h
    · rw [if_pos hqe]
      apply String.ext
      simp [String.data_append]

/-- C1 (amended): for every restricted well-formed pattern — non-empty
`'/'`-separated segments, each either a safe-ASCII literal (not `.` or `..`)
or a safe literal prefix followed by one final `[name]` token, parameter
names distinct — and every parameter assignment whose keys are exactly the
pattern's parameter names (no duplicates, any order) and whose values are
non-empty strings free of `'/'` and `'%'` and not dot segments, with the
query going through the default pipeline,
`findRoute (buildHref route {params, query}) [route]` matches the route and
its `params` field binds each parameter name to the original raw value: it
equals the original params up to order.  The original claim — values merely
free of `'/'` — is refuted by `c1_counterexample`: a `'%'` in a value
round-trips through `buildHref` but makes `findRoute` throw `URIError`,
because the matched captures are percent-decoded a second time. -/
theorem c1_buildHref_findRoute_roundtrip (segs : List Seg) (hsegs : ValidSegs segs)
    (vf : String → String) (hvals : ∀ n ∈ segNames segs, ValidValue (vf n))
    (ps : PathParams) (hnd : (ps.map Prod.fst).Nodup)
    (hmem : ∀ k, k ∈ ps.map Prod.fst ↔ k ∈ segNames segs)
    (hval : ∀ kv ∈ ps, kv.2 = some (vf kv.1)) (q : Option JSObj) :
    ∃ href m,
      buildHref { path := renderPattern segs }
          (some { params := some ps, query := q }) = .ok href ∧
      findRoute href [{ path := renderPattern segs }] = .ok (some m) ∧
      m.route.path = renderPattern segs ∧
      m.params = (segNames segs).map (fun n => (n, vf n)) ∧
      ps.Perm (m.params.map fun kv => (kv.1, some kv.2)) := by
  obtain ⟨w, hw⟩ := validate_render segs hsegs vf ps hmem hval
  have hbp := buildPath_render segs hsegs vf ps hnd hmem hval
  obtain ⟨Q, hQ, hQhash, hfin⟩ :
      ∃ Q : List Char, (Q = [] ∨ ∃ t, Q = '?' :: t) ∧ '#' ∉ Q ∧
        buildHref { path := renderPattern segs }
          (some { params := some ps, query := q }) =
          .ok ⟨'/' :: (renderEncPath vf segs ++ Q)⟩ := by
    cases q with
    | none =>
      have hbh := buildHref_default (renderPattern segs) ps none w hw
      rw [hbp] at hbh
      obtain ⟨Q, h1, h2, h3⟩ := href_shape (renderEncPath vf segs) "" (by simp)
      exact ⟨Q, h1, h2, hbh.trans (congrArg Except.ok h3)⟩
    | some qv =>
      have hbh := buildHref_default (renderPattern segs) ps (some qv) w hw
      rw [hbp] at hbh
      obtain ⟨Q, h1, h2, h3⟩ := href_shape (renderEncPath vf segs)
        (buildQueryString qv none) (buildQueryString_no_hash qv)
      exact ⟨Q, h1, h2, hbh.trans (congrArg Except.ok h3)⟩
  obtain ⟨m, hfr, hpath, hparams, hfrag⟩ := findRoute_render segs hsegs vf hvals Q hQ hQhash
  refine ⟨_, m, hfin, hfr, hpath, hparams, ?_⟩
  rw [hparams, List.map_map]
  have hpsnd : ps.Nodup := hnd.of_map
  have hmapnd : ((segNames segs).map
      ((fun kv : String × String => (kv.1, some kv.2)) ∘ fun n => (n, vf n))).Nodup :=
    hsegs.2.2.map fun a b h => congrArg Prod.fst h
  refine (List.perm_ext_iff_of_nodup hpsnd hmapnd).mpr ?_
  rintro ⟨a, b⟩
  constructor
  · intro hx
    have hb : b = some (vf a) := hval (a, b) hx
    have ha : a ∈ segNames segs := (hmem a).mp (List.mem_map_of_mem _ hx)
    rw [List.mem_map]
    refine ⟨a, ha, ?_⟩
    rw [hb]
    rfl
  · intro hx
    rw [List.mem_map] at hx
    obtain ⟨n, hn, he⟩ := hx
    have hn2 : (a, b) = (n, some (vf n)) := by
      rw [← he]
      rfl
    rw [hn2]
    have hk : n ∈ ps.map Prod.fst := (hmem n).mpr hn
    rw [List.mem_map] at hk
    obtain ⟨kv, hkv, hfst⟩ := hk
    have hv2 : kv.2 = some (vf kv.1) := hval kv hkv
    have : kv = (n, some (vf n)) := by
      obtain ⟨k1, k2⟩ := kv
      simp only at hfst
      subst hfst
      simp only at hv2
      rw [hv2]
    rw [← this]
    exact hkv

/-- Witness for C1 at the pattern `@[handle]/posts/[id]` with params
`handle := alice`, `id := 42` and no query. -/
theorem c1_buildHref_findRoute_roundtrip_witness :
    ∃ href m,
      buildHref { path := "@[handle]/posts/[id]" }
          (some { params := some [("handle", some "alice"), ("id", some "42")],
                  query := none }) = .ok href ∧
      findRoute href [{ path := "@[handle]/posts/[id]" }] = .ok (some m) ∧
      m.route.path = "@[handle]/posts/[id]" ∧
      m.params = [("handle", "alice"), ("id", "42")] ∧
      [("handle", some "alice"), ("id", some "42")].Perm
        (m.params.map fun kv => (kv.1, some kv.2)) := by
  have h := c1_buildHref_findRoute_roundtrip
    [Seg.pref ['@'] "handle".data, Seg.lit "posts".data, Seg.pref [] "id".data]
    (by decide)
    (fun n => if n = "handle" then "alice" else "42")
    (by decide)
    [("handle", some "alice"), ("id", some "42")]
    (by decide)
    (fun _ => Iff.rfl)
    (by decide)
    none
  obtain ⟨href, m, h1, h2, h3, h4, h5⟩ := h
  refine ⟨href, m, h1, h2, h3, ?_, h5⟩
  rw [h4]
  rfl

/-- Counterexample to the original C1: the pattern `a/[x]` has no repeated
parameter token and the value `b%` contains no `/`, yet
`findRoute (buildHref ...) [route]` does not match — `buildHref` yields
`/a/b%25`, and `findRoute` on that href throws `URIError: URI malformed`
because the capture `b%` is percent-decoded a second time. -/
theorem c1_counterexample :
    (∀ c ∈ ("b%" : String).data, c ≠ '/') ∧
    buildHref { path := "a/[x]" }
        (some { params := some [("x", some "b%")], query := none }) = .ok "/a/b%25" ∧
    findRoute "/a/b%25" [{ path := "a/[x]" }] = .error "URIError: URI malformed" :=
  ⟨by decide, rfl, rfl⟩


end TsRoute
